import Mathlib

/-!
Job rebuilding after sub-graph folding (`oneflow/xrt/passes/rebuild_job_pass.cpp`)

A shallow embedding of `FoldSubgraphBuilder` and of the helpers of
`rebuild_job_pass.cpp`, followed by theorems about them.

Conventions of the embedding.

* A node of the outer graph is identified by its position in `XrtGraph.nodes`
  (the source identifies it by its address); an edge of the outer graph by its
  position in `XrtGraph.edges`.  A node lists the ids of its edges in
  `in_edges` and `out_edges`, in the iteration order of the source.
* A `CHECK` that fails, and a lookup in the job that finds nothing, is `none`.
* `std::string` is `String`; hash maps and hash sets are lists in insertion
  order; sizes and indices are `Nat` (lists here are far shorter than `2^31`).
* Collaborators whose code is not part of the translated file are the fields of
  `Externals` or are modelled from the specification (their doc comments say so).
-/

set_option autoImplicit false

namespace oneflow
namespace xrt

/-! ## Data model -/

abbrev XrtDevice := Nat

abbrev DeviceType := Nat

abbrev SbpParallel := Nat

abbrev OpTimeShape := Nat

abbrev ParallelConf := List String

abbrev OptInt64 := Option Int

/-- Serialized parameter payload of a node (`XrtNode::param()`), kept opaque. -/
abbrev PbMessage := String

/-- Port-binding keys carried by an argument (`ArgumentMetaData`). -/
structure ArgumentMetaData where
  produce_key : String
  consume_key : String
deriving DecidableEq, Repr, Inhabited

/-- Named, typed value flowing along an edge (`Argument`). -/
structure Argument where
  name : String
  shape : List Int
  data_type : Nat
  meta_data : ArgumentMetaData
deriving DecidableEq, Repr, Inhabited

/-- Edge of a graph (`XrtEdge`): endpoints, argument, whether it is a control
edge (`IsControlEdge()`), and its `"sbp_policy"` attribute when it has one. -/
structure XrtEdge where
  start : Nat
  end_ : Nat
  argument : Argument
  is_control_edge : Bool
  sbp_policy : Option (List SbpParallel)
deriving DecidableEq, Repr, Inhabited

/-- Node of a sub-graph.  The pass never reads the sub-graph of such a node, so
it has none; its edges are only read and are stored by value, `end_` being a
position in the sub-graph's node list. -/
structure XrtSubNode where
  name : String
  type : String
  device : XrtDevice
  is_argument_node : Bool
  param : PbMessage
  in_edges : List XrtEdge
  out_edges : List XrtEdge
deriving DecidableEq, Repr, Inhabited

/-- Sub-graph owned by a launch node: its nodes in iteration order. -/
structure XrtSubGraph where
  nodes : List XrtSubNode
deriving DecidableEq, Repr, Inhabited

/-- Node of the outer graph (`XrtNode`). -/
structure XrtNode where
  name : String
  type : String
  device : XrtDevice
  in_edges : List Nat
  out_edges : List Nat
  sub_graph : Option XrtSubGraph
deriving DecidableEq, Repr, Inhabited

/-- The clustered graph (`XrtGraph`). -/
structure XrtGraph where
  nodes : List XrtNode
  edges : List XrtEdge
deriving DecidableEq, Repr, Inhabited

/-- Node at position `i` (the object a `const XrtNode *` points to). -/
def XrtGraph.node (g : XrtGraph) (i : Nat) : XrtNode := g.nodes.getD i default

/-- Argument of a launch function (`XrtLaunchOpConf::Argument`). -/
structure LaunchArgument where
  name : String
  value : String
  device_type : DeviceType
deriving DecidableEq, Repr, Inhabited

/-- Function of a launch operation (`XrtLaunchOpConf::Function`). -/
structure LaunchFunction where
  argument : List LaunchArgument
  node : List PbMessage
deriving DecidableEq, Repr, Inhabited

/-- Configuration of a fused operation (`XrtLaunchOpConf`). -/
structure XrtLaunchOpConf where
  in_ : List String
  out : List String
  function : LaunchFunction
  mutability : List (String × Bool)
  input_output_mapping : List (String × String)
  batch_axis : List (String × OptInt64)
  model_update : Bool
deriving DecidableEq, Repr, Inhabited

/-- The `op_type` alternatives of an operation configuration that the pass
tells apart: a print operation (the `lbn` of each `in` slot), a launch
operation, and any other operation (its string-valued fields by field name). -/
inductive OpTypeCase where
  | kPrintConf (in_lbn : List String)
  | kXrtLaunchConf (conf : XrtLaunchOpConf)
  | kOtherConf (spec_conf : List (String × String))
deriving DecidableEq, Repr, Inhabited

/-- Operation configuration (`OperatorConf`). -/
structure OperatorConf where
  name : String
  device_type : DeviceType
  ctrl_in_op_name : List String
  op_type : OpTypeCase
deriving DecidableEq, Repr, Inhabited

abbrev SbpSignature := List (String × SbpParallel)

/-- The job behind the `JobBuilder`: the ordered operation list and the tables
keyed by operation name or by blob name. -/
structure Job where
  op : List OperatorConf
  placement : List (String × ParallelConf)
  time_shape : List (String × OpTimeShape)
  sbp_signature : List (String × SbpSignature)
  batch_axis : List (String × OptInt64)
deriving DecidableEq, Repr, Inhabited

/-- Collaborators of the pass that live in other files. `TopologyVisit g` is the
order in which `algorithm::TopologyVisit` hands the nodes of `g` to its callback;
`LookupMutableVars device type` is the `"MutableVars"` attribute registered for
an operation type on a device with the XLA engine, when there is one;
`ReplaceStrValInPbFdOrPbRpf` acts on the type-specific part of an operation
configuration and may fail. -/
structure Externals where
  XrtDeviceToDeviceType : XrtDevice → DeviceType
  LookupMutableVars : XrtDevice → String → Option (List String)
  ReplaceStrValInPbFdOrPbRpf : OpTypeCase → String → String → String → Option OpTypeCase
  TopologyVisit : XrtGraph → List Nat

/-! ## String-keyed maps and sets -/

/-- Lookup in a map (`find`, `at`, `count`). -/
def MapFind {β : Type} : List (String × β) → String → Option β
  | [], _ => none
  | (k, v) :: rest, key => if k = key then some v else MapFind rest key

/-- Assignment through `operator[]`: overwrite the entry or add one. -/
def MapSet {β : Type} : List (String × β) → String → β → List (String × β)
  | [], key, val => [(key, val)]
  | (k, v) :: rest, key, val =>
    if k = key then (key, val) :: rest else (k, v) :: MapSet rest key val

/-- Insertion with `emplace`: an existing entry is kept. -/
def MapEmplace {β : Type} (m : List (String × β)) (key : String) (val : β) :
    List (String × β) :=
  match MapFind m key with
  | some _ => m
  | none => m ++ [(key, val)]

/-- Insertion into a set of strings. -/
def SetInsert (s : List String) (val : String) : List String :=
  if val ∈ s then s else s ++ [val]

/-! ## Library helpers -/

/-- Modelled from the spec: `absl::StrCat` of an `int` that is not negative
writes it in decimal; `decimalDigits fuel n` are the digits of `n`, most
significant first, when `n < fuel`. -/
def decimalDigits : Nat → Nat → List Char
  | 0, _ => []
  | fuel + 1, n =>
    if n < 10 then [Char.ofNat (48 + n)]
    else decimalDigits fuel (n / 10) ++ [Char.ofNat (48 + n % 10)]

/-- Decimal text of a natural number. -/
def decimal (n : Nat) : String := ⟨decimalDigits (n + 1) n⟩

/-- Pieces of a character list between occurrences of the delimiter. -/
def splitChars (delim : Char) : List Char → List (List Char)
  | [] => [[]]
  | c :: cs =>
    if c = delim then [] :: splitChars delim cs
    else
      match splitChars delim cs with
      | [] => [[c]]
      | p :: ps => (c :: p) :: ps

/-- Modelled from the spec: `absl::StrSplit` with a one-character delimiter
returns every piece between delimiters, empty pieces included. -/
def StrSplit (text : String) (delim : Char) : List String :=
  (splitChars delim text.data).map String.mk

/-- Whitespace for `absl::ascii_isspace`. -/
def asciiIsSpace (c : Char) : Bool :=
  c = ' ' || c = '\t' || c = '\n' || c = '\r' || c.toNat = 11 || c.toNat = 12

/-- Digits of `safe_parse_positive_int` for 32-bit `int`: the value stored and
whether the whole text was consumed without overflow. -/
def parsePositive : List Char → Nat → Bool × Int
  | [], value => (true, value)
  | c :: cs, value =>
    if c.isDigit then
      let digit := c.toNat - 48
      if value > 2147483647 / 10 then (false, 2147483647)
      else if value * 10 > 2147483647 - digit then (false, 2147483647)
      else parsePositive cs (value * 10 + digit)
    else (false, value)

/-- Digits of `safe_parse_negative_int` for 32-bit `int`; `value` is the
magnitude accumulated so far. -/
def parseNegative : List Char → Nat → Bool × Int
  | [], value => (true, -(value : Int))
  | c :: cs, value =>
    if c.isDigit then
      let digit := c.toNat - 48
      if value > 2147483648 / 10 then (false, -2147483648)
      else if value * 10 + digit > 2147483648 then (false, -2147483648)
      else parseNegative cs (value * 10 + digit)
    else (false, -(value : Int))

/-- Modelled from the spec: `absl::SimpleAtoi` into an `int`: surrounding
whitespace is dropped, one sign is accepted, then decimal digits; the result is
the success flag and the value left in the output variable. -/
def SimpleAtoi (text : String) : Bool × Int :=
  let stripped := ((text.data.dropWhile asciiIsSpace).reverse.dropWhile asciiIsSpace).reverse
  match stripped with
  | [] => (false, 0)
  | c :: cs =>
    if c = '-' then (if cs = [] then (false, 0) else parseNegative cs 0)
    else if c = '+' then (if cs = [] then (false, 0) else parsePositive cs 0)
    else parsePositive (c :: cs) 0

/-! ## `JobBuilder` -/

/-- Modelled from the spec: query of an operation configuration by name. -/
def JobBuilder.OpConf4OpName (job : Job) (op_name : String) : Option OperatorConf :=
  job.op.find? (fun conf => conf.name = op_name)

/-- Apply `f` to the first operation named `op_name`. -/
def updateOp (op_name : String) (f : OperatorConf → Option OperatorConf) :
    List OperatorConf → Option (List OperatorConf)
  | [] => none
  | conf :: rest =>
    if conf.name = op_name then (f conf).map (fun conf' => conf' :: rest)
    else (updateOp op_name f rest).map (fun rest' => conf :: rest')

/-- Modelled from the spec: the mutable operation configuration of a name; `f`
is what the caller does through the pointer it gets. -/
def JobBuilder.MutableOpConf4OpName (job : Job) (op_name : String)
    (f : OperatorConf → Option OperatorConf) : Option Job :=
  (updateOp op_name f job.op).map (fun ops => { job with op := ops })

/-- Modelled from the spec: placement configuration by operation name. -/
def JobBuilder.ParallelConf4OpName (job : Job) (op_name : String) : Option ParallelConf :=
  MapFind job.placement op_name

/-- Modelled from the spec: insertion of operations with an explicit placement
configuration. -/
def JobBuilder.AddOps (job : Job) (parallel_conf : ParallelConf)
    (op_confs : List OperatorConf) : Job :=
  { job with
    op := job.op ++ op_confs
    placement := job.placement ++ op_confs.map (fun conf => (conf.name, parallel_conf)) }

/-- Modelled from the spec: removal of a set of operations by name. -/
def JobBuilder.RemoveOpByName (job : Job) (removing_names : List String) : Job :=
  { job with op := job.op.filter (fun conf => decide (conf.name ∉ removing_names)) }

/-- Modelled from the spec: batch axis of a blob name; `none` when the blob has
no batch-axis information (`HasBatchAxis4Lbn` is false). -/
def JobBuilder.BatchAxis4Lbn (job : Job) (lbn : String) : Option OptInt64 :=
  MapFind job.batch_axis lbn

/-- Modelled from the spec: record the batch axis of a blob name. -/
def JobBuilder.AddBatchAxis4Lbn (job : Job) (lbn : String) (axis : OptInt64) : Job :=
  { job with batch_axis := MapSet job.batch_axis lbn axis }

/-- Modelled from the spec: time shape by operation name. -/
def JobBuilder.TimeShape4OpName (job : Job) (op_name : String) : Option OpTimeShape :=
  MapFind job.time_shape op_name

/-- Modelled from the spec: record the time shape of an operation name. -/
def JobBuilder.AddTimeShape4OpName (job : Job) (op_name : String)
    (time_shape : OpTimeShape) : Job :=
  { job with time_shape := MapSet job.time_shape op_name time_shape }

/-- Modelled from the spec: record the placement signature of an operation name. -/
def JobBuilder.AddSbpSignature4OpName (job : Job) (op_name : String)
    (sbp_conf : SbpSignature) : Job :=
  { job with sbp_signature := MapSet job.sbp_signature op_name sbp_conf }

/-! ## Helpers of the pass -/

/-- Type tag of launch nodes.  Modelled from the spec: the constant is declared
`extern` and defined in another file; no theorem below depends on its value. -/
def _XrtLaunchOpType : String := "XrtLaunch"

def _ReduceSplitType : String := "ReduceSplit"

/-- Append `val` unless the field already holds it. -/
def DoNoDuplicationAdd (repeat_field : List String) (val : String) : List String :=
  if val ∈ repeat_field then repeat_field else repeat_field ++ [val]

/-- Index after the last `'_'` of an input name. -/
def GetRepeatedIndex (input : String) : Int :=
  let splits := StrSplit input '_'
  (SimpleAtoi (splits.getLastD "")).2

/-- Rewrite the blob name one input of an operation refers to. -/
def SetOpInputBlobName (ext : Externals) (op_conf : OperatorConf) (input : String)
    (blob_name : String) (fixed_blob_name : String) : Option OperatorConf :=
  match op_conf.op_type with
  | OpTypeCase.kPrintConf in_lbn =>
    let index := GetRepeatedIndex input
    if 0 ≤ index ∧ index.toNat < in_lbn.length then
      some { op_conf with
        op_type := OpTypeCase.kPrintConf (in_lbn.set index.toNat fixed_blob_name) }
    else none
  | spec_conf =>
    (ext.ReplaceStrValInPbFdOrPbRpf spec_conf input blob_name fixed_blob_name).map
      (fun spec_conf' => { op_conf with op_type := spec_conf' })

/-! ## `FoldSubgraphBuilder` -/

/-- State of the builder: the graph (whose edges the pass rewrites), the job
behind `builder_`, and the private members of the class. -/
structure FoldSubgraphBuilder where
  graph_ : XrtGraph
  builder_ : Job
  launch_nodes_ : List Nat
  folded_nodes_ : List (List XrtSubNode)
  after_allreduce_nodes_ : List Nat
  fixedup_names_ : List (String × String)
deriving DecidableEq, Repr, Inhabited

/-- Positions of the nodes whose type is the launch type, in node order. -/
def launchNodes (g : XrtGraph) : List Nat :=
  (List.range g.nodes.length).filter (fun i => (g.node i).type = _XrtLaunchOpType)

/-- Non-argument nodes of a sub-graph, in iteration order. -/
def foldedNodesOf (sub_graph : XrtSubGraph) : List XrtSubNode :=
  sub_graph.nodes.filter (fun sub_node => !sub_node.is_argument_node)

/-- The constructor: collect the launch nodes and, for each, its folded nodes;
a launch node without sub-graph fails `CHECK_NOTNULL`. -/
def FoldSubgraphBuilder.new (graph : XrtGraph) (job : Job) : Option FoldSubgraphBuilder :=
  let launch_nodes := launchNodes graph
  (launch_nodes.mapM (fun i => (graph.node i).sub_graph.map foldedNodesOf)).map
    (fun folded_nodes =>
      { graph_ := graph, builder_ := job, launch_nodes_ := launch_nodes,
        folded_nodes_ := folded_nodes, after_allreduce_nodes_ := [],
        fixedup_names_ := [] })

def FoldSubgraphBuilder.IsAfterAllReduce (b : FoldSubgraphBuilder) (node : Nat) : Bool :=
  decide (node ∈ b.after_allreduce_nodes_)

/-- Body of the callback of `InferIsAfterAllReduce` for one in-edge of `node`. -/
def InferIsAfterAllReduce.edgeStep (node : Nat) (b : FoldSubgraphBuilder) (eid : Nat) :
    FoldSubgraphBuilder :=
  match b.graph_.edges[eid]? with
  | none => b
  | some edge =>
    let start := edge.start
    if b.IsAfterAllReduce start ∨ (b.graph_.node start).type = _ReduceSplitType then
      { b with after_allreduce_nodes_ := if node ∈ b.after_allreduce_nodes_
                                         then b.after_allreduce_nodes_
                                         else b.after_allreduce_nodes_ ++ [node] }
    else b

/-- The callback of `InferIsAfterAllReduce` on one node. -/
def InferIsAfterAllReduce.visit (b : FoldSubgraphBuilder) (node : Nat) : FoldSubgraphBuilder :=
  (b.graph_.node node).in_edges.foldl (InferIsAfterAllReduce.edgeStep node) b

def FoldSubgraphBuilder.InferIsAfterAllReduce (ext : Externals) (b : FoldSubgraphBuilder) :
    FoldSubgraphBuilder :=
  (ext.TopologyVisit b.graph_).foldl InferIsAfterAllReduce.visit b

def IsMutableArgument (ext : Externals) (node : XrtSubNode) (argument : Argument) : Bool :=
  match ext.LookupMutableVars node.device node.type with
  | some mutable_vars => decide (argument.meta_data.consume_key ∈ mutable_vars)
  | none => false

/-- One iteration of the node loop of `buildFunction`. -/
def buildFunction.step (ext : Externals) (sub_graph : XrtSubGraph)
    (acc : List String × LaunchFunction) (node : XrtSubNode) :
    Option (List String × LaunchFunction) :=
  let (mutability, function) := acc
  if !node.is_argument_node then
    some (mutability, { function with node := function.node ++ [node.param] })
  else
    if node.in_edges.length = 0 ∨ node.out_edges.length = 0 then
      let afterOut := node.out_edges.foldl
        (fun (st : String × Bool) edge =>
          (edge.argument.name,
           st.2 || IsMutableArgument ext (sub_graph.nodes.getD edge.end_ default) edge.argument))
        ("", false)
      let value := node.in_edges.foldl (fun _ edge => edge.argument.name) afterOut.1
      let is_mutable := afterOut.2
      let argument_proto : LaunchArgument :=
        { name := node.name, value := value,
          device_type := ext.XrtDeviceToDeviceType node.device }
      some (if is_mutable then SetInsert mutability value else mutability,
            { function with argument := function.argument ++ [argument_proto] })
    else none

/-- The function and the set of mutable inputs built from a sub-graph. -/
def buildFunction (ext : Externals) (sub_graph : XrtSubGraph) (mutability : List String)
    (function : LaunchFunction) : Option (List String × LaunchFunction) :=
  sub_graph.nodes.foldlM (buildFunction.step ext sub_graph) (mutability, function)

/-- In-edge loop of `AddInOutBlobNames`. -/
def AddInOutBlobNames.inStep (g : XrtGraph) (launch_conf : XrtLaunchOpConf) (eid : Nat) :
    XrtLaunchOpConf :=
  match g.edges[eid]? with
  | none => launch_conf
  | some edge =>
    if !edge.is_control_edge then
      { launch_conf with in_ := DoNoDuplicationAdd launch_conf.in_ edge.argument.name }
    else launch_conf

/-- Out-edge loop of `AddInOutBlobNames`. -/
def AddInOutBlobNames.outStep (g : XrtGraph) (launch_conf : XrtLaunchOpConf) (eid : Nat) :
    Option XrtLaunchOpConf :=
  match g.edges[eid]? with
  | none => some launch_conf
  | some edge =>
    if !edge.is_control_edge then
      let splits := StrSplit edge.argument.name '/'
      if splits.length = 2 then
        some { launch_conf with out := DoNoDuplicationAdd launch_conf.out (splits.getD 1 "") }
      else none
    else some launch_conf

def AddInOutBlobNames (g : XrtGraph) (node : XrtNode) (launch_conf : XrtLaunchOpConf) :
    Option XrtLaunchOpConf :=
  node.out_edges.foldlM (AddInOutBlobNames.outStep g)
    (node.in_edges.foldl (AddInOutBlobNames.inStep g) launch_conf)

/-- Body of the loop of `BuildXrtLaunchOps` over the arguments of the function. -/
def BuildXrtLaunchOps.argStep (b : FoldSubgraphBuilder) (mutability : List String)
    (launch_conf : XrtLaunchOpConf) (arg_proto : LaunchArgument) : XrtLaunchOpConf :=
  let arg_value :=
    match MapFind b.fixedup_names_ arg_proto.value with
    | some fixed => fixed
    | none => arg_proto.value
  let conf1 :=
    if arg_proto.value ∈ mutability then
      { launch_conf with mutability := MapSet launch_conf.mutability arg_value true }
    else launch_conf
  let conf2 :=
    { conf1 with
      input_output_mapping := MapSet conf1.input_output_mapping arg_value arg_proto.value }
  match JobBuilder.BatchAxis4Lbn b.builder_ arg_value with
  | some axis => { conf2 with batch_axis := MapSet conf2.batch_axis arg_value axis }
  | none => conf2

/-- First part of the body of the loop of `BuildXrtLaunchOps` for the `i`-th
launch node: the configuration of the fused operation, up to and including
the model-update flag. -/
def BuildXrtLaunchOps.opConf (ext : Externals) (b : FoldSubgraphBuilder) (i : Nat) :
    Option OperatorConf :=
  let node_id := b.launch_nodes_.getD i 0
  let node := b.graph_.node node_id
  match node.sub_graph with
  | none => none
  | some sub_graph =>
    (AddInOutBlobNames b.graph_ node default).bind fun conf0 =>
    (buildFunction ext sub_graph [] conf0.function).map fun built =>
    let mutability := built.1
    let conf1 := { conf0 with function := built.2 }
    let conf2 := conf1.function.argument.foldl (BuildXrtLaunchOps.argStep b mutability) conf1
    let launch_conf :=
      if b.IsAfterAllReduce node_id ∧ node.out_edges.length = 0 then
        { conf2 with model_update := true }
      else conf2
    { name := node.name, device_type := ext.XrtDeviceToDeviceType node.device,
      ctrl_in_op_name := [], op_type := OpTypeCase.kXrtLaunchConf launch_conf }

/-- Body of the loop of `BuildXrtLaunchOps` for the `i`-th launch node: build
the fused operation and add it with the placement of the first folded node. -/
def BuildXrtLaunchOps.step (ext : Externals) (b : FoldSubgraphBuilder) (i : Nat) :
    Option FoldSubgraphBuilder :=
  (BuildXrtLaunchOps.opConf ext b i).bind fun op_conf =>
    match b.folded_nodes_.getD i [] with
    | [] => none
    | first :: _ =>
      (JobBuilder.ParallelConf4OpName b.builder_ first.name).map fun parallel_conf =>
        { b with builder_ := JobBuilder.AddOps b.builder_ parallel_conf [op_conf] }

def FoldSubgraphBuilder.BuildXrtLaunchOps (ext : Externals) (b : FoldSubgraphBuilder) :
    Option FoldSubgraphBuilder :=
  (List.range b.launch_nodes_.length).foldlM (BuildXrtLaunchOps.step ext) b

/-- The map from folded node names to their launch node built at the start of
`FixupControlInOpNames` (`emplace` keeps the first entry of a name). -/
def foldedOpNames (b : FoldSubgraphBuilder) : List (String × Nat) :=
  (List.range b.launch_nodes_.length).foldl
    (fun m i => (b.folded_nodes_.getD i []).foldl
      (fun m node => MapEmplace m node.name (b.launch_nodes_.getD i 0)) m)
    []

/-- The lambda `AddControlInOpName`. -/
def AddControlInOpName (g : XrtGraph) (folded_op_names : List (String × Nat))
    (conf : OperatorConf) (op_name : String) : OperatorConf :=
  let ctrl_in_op_name :=
    match MapFind folded_op_names op_name with
    | some launch => (g.node launch).name
    | none => op_name
  if conf.name ≠ ctrl_in_op_name then
    { conf with ctrl_in_op_name := DoNoDuplicationAdd conf.ctrl_in_op_name ctrl_in_op_name }
  else conf

/-- Body of the node loop of `FixupControlInOpNames`.  The pointer `op_conf`
is the first operation named like the node; each use of it is an update of
that operation. -/
def FixupControlInOpNames.step (folded_op_names : List (String × Nat))
    (b : FoldSubgraphBuilder) (node : XrtNode) : Option FoldSubgraphBuilder :=
  let add := AddControlInOpName b.graph_ folded_op_names
  match node.sub_graph with
  | none =>
    (JobBuilder.MutableOpConf4OpName b.builder_ node.name fun op_conf =>
      some (op_conf.ctrl_in_op_name.foldl add { op_conf with ctrl_in_op_name := [] })).map
      fun job => { b with builder_ := job }
  | some sub_graph =>
    (JobBuilder.MutableOpConf4OpName b.builder_ node.name some).bind fun job0 =>
    ((foldedNodesOf sub_graph).foldlM
      (fun (job : Job) sub_node =>
        (JobBuilder.OpConf4OpName job sub_node.name).bind fun folded_op_conf =>
          JobBuilder.MutableOpConf4OpName job node.name fun op_conf =>
            some (folded_op_conf.ctrl_in_op_name.foldl add op_conf))
      job0).map fun job => { b with builder_ := job }

def FoldSubgraphBuilder.FixupControlInOpNames (b : FoldSubgraphBuilder) :
    Option FoldSubgraphBuilder :=
  if b.launch_nodes_.length = b.folded_nodes_.length then
    b.graph_.nodes.foldlM (FixupControlInOpNames.step (foldedOpNames b)) b
  else none

/-- Body of the out-edge loop of `FixupInOutBlobNames`; the accumulator holds
the builder and the local set `argument_names`. -/
def FixupInOutBlobNames.edgeStep (ext : Externals) (launch_op_name : String)
    (acc : FoldSubgraphBuilder × List String) (eid : Nat) :
    Option (FoldSubgraphBuilder × List String) :=
  let (b, argument_names) := acc
  match b.graph_.edges[eid]? with
  | none => some acc
  | some edge =>
    if edge.is_control_edge then some acc
    else
      let arg := edge.argument
      let index := argument_names.length
      let inserted := decide (arg.name ∉ argument_names)
      let argument_names' := SetInsert argument_names arg.name
      if inserted ∧ (MapFind b.fixedup_names_ arg.name).isSome then none
      else
        let fixedup_names :=
          MapEmplace b.fixedup_names_ arg.name (launch_op_name ++ "/out_" ++ decimal index)
        match MapFind fixedup_names arg.name with
        | none => none
        | some fixed_blob_name =>
          let job1 :=
            match JobBuilder.BatchAxis4Lbn b.builder_ arg.name with
            | some axis => JobBuilder.AddBatchAxis4Lbn b.builder_ fixed_blob_name axis
            | none => b.builder_
          let end_node := b.graph_.node edge.end_
          let job2 :=
            if end_node.type ≠ _XrtLaunchOpType then
              JobBuilder.MutableOpConf4OpName job1 end_node.name fun op_conf =>
                SetOpInputBlobName ext op_conf arg.meta_data.consume_key arg.name
                  fixed_blob_name
            else some job1
          job2.map fun job =>
            let fixed_arg : Argument := { arg with name := fixed_blob_name }
            ({ b with
               graph_ := { b.graph_ with
                           edges := b.graph_.edges.set eid { edge with argument := fixed_arg } }
               builder_ := job
               fixedup_names_ := fixedup_names }, argument_names')

/-- Body of the launch-node loop of `FixupInOutBlobNames`. -/
def FixupInOutBlobNames.nodeStep (ext : Externals) (b : FoldSubgraphBuilder) (node_id : Nat) :
    Option FoldSubgraphBuilder :=
  let node := b.graph_.node node_id
  (node.out_edges.foldlM (FixupInOutBlobNames.edgeStep ext node.name) (b, [])).map Prod.fst

def FoldSubgraphBuilder.FixupInOutBlobNames (ext : Externals) (b : FoldSubgraphBuilder) :
    Option FoldSubgraphBuilder :=
  b.launch_nodes_.foldlM (FixupInOutBlobNames.nodeStep ext) b

/-- Body of the loop of `FixupTimeShapes`. -/
def FixupTimeShapes.step (b : FoldSubgraphBuilder) (i : Nat) : Option FoldSubgraphBuilder :=
  match b.folded_nodes_.getD i [] with
  | [] => none
  | first :: _ =>
    (JobBuilder.TimeShape4OpName b.builder_ first.name).map fun time_shape =>
      { b with builder_ := JobBuilder.AddTimeShape4OpName b.builder_
                 (b.graph_.node (b.launch_nodes_.getD i 0)).name time_shape }

def FoldSubgraphBuilder.FixupTimeShapes (b : FoldSubgraphBuilder) : Option FoldSubgraphBuilder :=
  (List.range b.launch_nodes_.length).foldlM FixupTimeShapes.step b

/-- One edge of a loop of `FixupSbpSignatures`: the attribute must be there, and
entry `slot` of it is recorded under the key. -/
def FixupSbpSignatures.edgeStep (g : XrtGraph) (key : ArgumentMetaData → String) (slot : Nat)
    (sbp_signatures : SbpSignature) (eid : Nat) : Option SbpSignature :=
  match g.edges[eid]? with
  | none => some sbp_signatures
  | some edge =>
    match edge.sbp_policy with
    | none => none
    | some policy =>
      (policy[slot]?).map fun sbp => MapSet sbp_signatures (key edge.argument.meta_data) sbp

/-- Body of the launch-node loop of `FixupSbpSignatures`. -/
def FixupSbpSignatures.step (b : FoldSubgraphBuilder) (node_id : Nat) :
    Option FoldSubgraphBuilder :=
  let node := b.graph_.node node_id
  (node.in_edges.foldlM
    (FixupSbpSignatures.edgeStep b.graph_ ArgumentMetaData.consume_key 1) []).bind fun sig1 =>
  (node.out_edges.foldlM
    (FixupSbpSignatures.edgeStep b.graph_ ArgumentMetaData.produce_key 0) sig1).map fun sig2 =>
    { b with builder_ := JobBuilder.AddSbpSignature4OpName b.builder_ node.name sig2 }

def FoldSubgraphBuilder.FixupSbpSignatures (b : FoldSubgraphBuilder) :
    Option FoldSubgraphBuilder :=
  b.launch_nodes_.foldlM FixupSbpSignatures.step b

/-- The set `removing_names` of `RemoveLaunchFoldedOps`. -/
def removingNames (b : FoldSubgraphBuilder) : List String :=
  b.launch_nodes_.foldl
    (fun removing_names node_id =>
      match (b.graph_.node node_id).sub_graph with
      | none => removing_names
      | some sub_graph =>
        (foldedNodesOf sub_graph).foldl (fun s sub_node => SetInsert s sub_node.name)
          removing_names)
    []

def FoldSubgraphBuilder.RemoveLaunchFoldedOps (b : FoldSubgraphBuilder) : FoldSubgraphBuilder :=
  { b with builder_ := JobBuilder.RemoveOpByName b.builder_ (removingNames b) }

/-- The stages of `Build`, in the order of the source. -/
def FoldSubgraphBuilder.Build (ext : Externals) (b : FoldSubgraphBuilder) :
    Option FoldSubgraphBuilder :=
  ((((some (b.InferIsAfterAllReduce ext)).bind
    (FoldSubgraphBuilder.FixupInOutBlobNames ext)).bind
    (FoldSubgraphBuilder.BuildXrtLaunchOps ext)).bind
    FoldSubgraphBuilder.FixupControlInOpNames).bind fun b4 =>
  (b4.FixupTimeShapes.bind FoldSubgraphBuilder.FixupSbpSignatures).map
    FoldSubgraphBuilder.RemoveLaunchFoldedOps

/-- `RebuildCompiledJobPass::Run` on a graph and a job. -/
def RebuildCompiledJobPass.Run (ext : Externals) (graph : XrtGraph) (job : Job) :
    Option FoldSubgraphBuilder :=
  (FoldSubgraphBuilder.new graph job).bind (FoldSubgraphBuilder.Build ext)

/-! ## Well-formed graphs and derived notions used in the statements -/

/-- The adjacency lists agree with the edge array, as the graph container
keeps them: a node lists each of its edges once, every listed id is an edge,
an out-edge of node `i` starts at `i` and an in-edge of node `i` ends at `i`. -/
def XrtGraph.WellFormed (g : XrtGraph) : Prop :=
  ∀ i, i < g.nodes.length →
    (g.node i).out_edges.Nodup ∧ (g.node i).in_edges.Nodup ∧
    (∀ e ∈ (g.node i).out_edges, (g.edges[e]?).map XrtEdge.start = some i) ∧
    (∀ e ∈ (g.node i).in_edges, (g.edges[e]?).map XrtEdge.end_ = some i)

instance (g : XrtGraph) : Decidable g.WellFormed := by
  unfold XrtGraph.WellFormed; infer_instance

/-- Argument names of the data (non-control) edges among the ids `es`, in order. -/
def dataArgNames (g : XrtGraph) (es : List Nat) : List String :=
  es.filterMap fun eid =>
    match g.edges[eid]? with
    | some edge => if edge.is_control_edge then none else some edge.argument.name
    | none => none

/-- What one data out-edge with argument name `a` does to the name table and to
the local set `argument_names` in `FixupInOutBlobNames`. -/
def nameStep (launch_op_name : String) (acc : List (String × String) × List String)
    (a : String) : Option (List (String × String) × List String) :=
  if a ∉ acc.2 ∧ (MapFind acc.1 a).isSome then none
  else some (MapEmplace acc.1 a (launch_op_name ++ "/out_" ++ decimal acc.2.length),
             SetInsert acc.2 a)

/-- Entries `(a, launch/out_k)` for the names of a list, `k` counting from `k0`. -/
def boundaryEntries (launch_op_name : String) : Nat → List String → List (String × String)
  | _, [] => []
  | k0, a :: rest =>
    (a, launch_op_name ++ "/out_" ++ decimal k0) :: boundaryEntries launch_op_name (k0 + 1) rest

/-- What `FixupInOutBlobNames` does to the job for one data out-edge once its
boundary name `fixed_blob_name` is known: the batch axis of the old name is
recorded under the new one, and the consumer's input is rewritten when the
consumer is not a launch node. -/
def rewireConsumer (ext : Externals) (g : XrtGraph) (job : Job) (edge : XrtEdge)
    (fixed_blob_name : String) : Option Job :=
  let job1 :=
    match JobBuilder.BatchAxis4Lbn job edge.argument.name with
    | some axis => JobBuilder.AddBatchAxis4Lbn job fixed_blob_name axis
    | none => job
  if (g.node edge.end_).type ≠ _XrtLaunchOpType then
    JobBuilder.MutableOpConf4OpName job1 (g.node edge.end_).name fun op_conf =>
      SetOpInputBlobName ext op_conf edge.argument.meta_data.consume_key edge.argument.name
        fixed_blob_name
  else some job1

/-- The edge `edge` with its argument renamed. -/
def renameEdge (edge : XrtEdge) (fixed_blob_name : String) : XrtEdge :=
  { edge with argument := { edge.argument with name := fixed_blob_name } }

/-- The argument of edge `i` after the out-edge loop over `es`: a data edge
among `es` carries the table's name for its old name, any other edge is as
before. -/
def fixupEdgeAt (table : List (String × String)) (es : List Nat) (i : Nat) (edge : XrtEdge) :
    XrtEdge :=
  if i ∈ es ∧ edge.is_control_edge = false then
    renameEdge edge ((MapFind table edge.argument.name).getD "")
  else edge

/-- Ids of the out-edges of the nodes `ls`, in iteration order. -/
def launchOutEdges (g : XrtGraph) (ls : List Nat) : List Nat :=
  ls.flatMap fun i => (g.node i).out_edges

/-- First-occurrence list of the data out-edge argument names of node `i`. -/
def outArgNames (g : XrtGraph) (i : Nat) : List String :=
  (dataArgNames g (g.node i).out_edges).foldl SetInsert []

/-- The entries `FixupInOutBlobNames` adds for the nodes `ls`. -/
def expectedTable (g : XrtGraph) (ls : List Nat) : List (String × String) :=
  ls.flatMap fun i => boundaryEntries (g.node i).name 0 (outArgNames g i)

/-! ## A small clustered graph used to instantiate the theorems -/

/-- A data edge with the given endpoints, argument name and keys. -/
def demoEdge (s e : Nat) (name produce_key consume_key : String) : XrtEdge :=
  { start := s, end_ := e,
    argument := { name := name, shape := [], data_type := 0,
                  meta_data := { produce_key := produce_key, consume_key := consume_key } },
    is_control_edge := false, sbp_policy := some [0, 1] }

/-- A control edge with the given endpoints. -/
def demoControlEdge (s e : Nat) : XrtEdge :=
  { start := s, end_ := e, argument := default, is_control_edge := true,
    sbp_policy := some [0, 1] }

/-- An argument node of a sub-graph. -/
def demoArgNode (name : String) (in_edges out_edges : List XrtEdge) : XrtSubNode :=
  { name := name, type := "Argument", device := 0, is_argument_node := true, param := "",
    in_edges := in_edges, out_edges := out_edges }

/-- A folded node of a sub-graph. -/
def demoFoldedNode (name : String) : XrtSubNode :=
  { name := name, type := "Relu", device := 0, is_argument_node := false,
    param := name ++ "_conf", in_edges := [], out_edges := [] }

/-- An operation with string-valued fields. -/
def demoOp (name : String) (ctrl : List String) (fields : List (String × String)) :
    OperatorConf :=
  { name := name, device_type := 0, ctrl_in_op_name := ctrl,
    op_type := OpTypeCase.kOtherConf fields }

/-- Cluster `A` folds `a1` and `a2`, cluster `B` folds `b1`.  `A` feeds `B`
and two sinks; its output `a1/y` is consumed twice. -/
def demoGraph : XrtGraph :=
  { nodes :=
      [ { name := "src", type := "Input", device := 0, in_edges := [], out_edges := [0],
          sub_graph := none },
        { name := "A", type := _XrtLaunchOpType, device := 0, in_edges := [0],
          out_edges := [1, 2, 3, 5],
          sub_graph := some ⟨[demoArgNode "arg_x" [] [demoEdge 0 1 "src/x" "out" "in"],
                              demoFoldedNode "a1", demoFoldedNode "a2",
                              demoArgNode "arg_y" [demoEdge 1 3 "a1/y" "out" "in"] []]⟩ },
        { name := "B", type := _XrtLaunchOpType, device := 0, in_edges := [1, 5],
          out_edges := [4],
          sub_graph := some ⟨[demoArgNode "arg_y" [] [demoEdge 0 1 "a1/y" "out" "in"],
                              demoFoldedNode "b1",
                              demoArgNode "arg_z" [demoEdge 1 2 "b1/z" "out" "in"] []]⟩ },
        { name := "sink", type := "Output", device := 0, in_edges := [2, 4], out_edges := [],
          sub_graph := none },
        { name := "sink2", type := "Output", device := 0, in_edges := [3], out_edges := [],
          sub_graph := none } ],
    edges :=
      [ demoEdge 0 1 "src/x" "out" "in",
        demoEdge 1 2 "a1/y" "out" "in",
        demoEdge 1 3 "a2/w" "out" "in_0",
        demoEdge 1 4 "a1/y" "out" "in",
        demoEdge 2 3 "b1/z" "out" "in_1",
        demoControlEdge 1 2 ] }

/-- The job the graph `demoGraph` was clustered from. -/
def demoJob : Job :=
  { op := [ demoOp "src" [] [],
            demoOp "a1" [] [("in", "src/x")],
            demoOp "a2" ["a1"] [("in", "a1/y")],
            demoOp "b1" ["a2", "src"] [("in", "a1/y")],
            demoOp "sink" ["b1", "a2", "src", "b1"] [("in_0", "a2/w"), ("in_1", "b1/z")],
            demoOp "sink2" ["sink"] [("in", "a1/y")] ],
    placement := [("src", ["0:cpu:0"]), ("a1", ["0:gpu:0"]), ("a2", ["0:gpu:0"]),
                  ("b1", ["0:gpu:1"]), ("sink", ["0:cpu:0"]), ("sink2", ["0:cpu:0"])],
    time_shape := [("a1", 1), ("a2", 1), ("b1", 2)],
    sbp_signature := [],
    batch_axis := [("a1/y", some 0)] }

/-- Collaborators for the demonstration: fields of other operations are
replaced where they hold the old name, nothing is mutable, and nodes are
visited in node order. -/
def demoExt : Externals :=
  { XrtDeviceToDeviceType := id,
    LookupMutableVars := fun _ _ => none,
    ReplaceStrValInPbFdOrPbRpf := fun conf input old new =>
      match conf with
      | OpTypeCase.kOtherConf fields =>
        some (OpTypeCase.kOtherConf
          (fields.map fun kv => if kv.1 = input ∧ kv.2 = old then (kv.1, new) else kv))
      | other => some other,
    TopologyVisit := fun g => List.range g.nodes.length }

/-- The builder the constructor makes for the demonstration. -/
def demoBuilder : FoldSubgraphBuilder :=
  (FoldSubgraphBuilder.new demoGraph demoJob).getD default

/-- The builder after `FixupInOutBlobNames`. -/
def demoFixed : FoldSubgraphBuilder :=
  (demoBuilder.FixupInOutBlobNames demoExt).getD default

/-- The job after rewiring, in order, the consumers of the data edges among
`es`, each with the name the table holds for the edge's argument name. -/
def rewireAll (ext : Externals) (g : XrtGraph) (table : List (String × String)) (job : Job)
    (es : List Nat) : Option Job :=
  es.foldlM
    (fun job e =>
      match g.edges[e]? with
      | none => some job
      | some edge =>
        if edge.is_control_edge then some job
        else
          match MapFind table edge.argument.name with
          | some fixed => rewireConsumer ext g job edge fixed
          | none => none)
    job

/-- The launch configuration of an operation, when it is a launch operation. -/
def OperatorConf.launchConf (op : OperatorConf) : Option XrtLaunchOpConf :=
  match op.op_type with
  | OpTypeCase.kXrtLaunchConf conf => some conf
  | _ => none

/-- A `ReduceSplit` node feeds two clusters: `U` has no out-edge, `V` has one
out-edge, a control edge to `sink`. -/
def demoReduceGraph : XrtGraph :=
  { nodes :=
      [ { name := "rs", type := _ReduceSplitType, device := 0, in_edges := [],
          out_edges := [0, 1], sub_graph := none },
        { name := "U", type := _XrtLaunchOpType, device := 0, in_edges := [0], out_edges := [],
          sub_graph := some ⟨[demoArgNode "arg_g" [] [demoEdge 0 1 "rs/g0" "out" "in"],
                              demoFoldedNode "u1"]⟩ },
        { name := "V", type := _XrtLaunchOpType, device := 0, in_edges := [1], out_edges := [2],
          sub_graph := some ⟨[demoArgNode "arg_g" [] [demoEdge 0 1 "rs/g1" "out" "in"],
                              demoFoldedNode "v1"]⟩ },
        { name := "sink", type := "Output", device := 0, in_edges := [2], out_edges := [],
          sub_graph := none } ],
    edges :=
      [ demoEdge 0 1 "rs/g0" "out_0" "in",
        demoEdge 0 2 "rs/g1" "out_1" "in",
        demoControlEdge 2 3 ] }

/-- The job the graph `demoReduceGraph` was clustered from. -/
def demoReduceJob : Job :=
  { op := [ demoOp "rs" [] [],
            demoOp "u1" [] [("in", "rs/g0")],
            demoOp "v1" [] [("in", "rs/g1")],
            demoOp "sink" ["v1"] [] ],
    placement := [("rs", ["0:cpu:0"]), ("u1", ["0:gpu:0"]), ("v1", ["0:gpu:0"]),
                  ("sink", ["0:cpu:0"])],
    time_shape := [("u1", 1), ("v1", 1)],
    sbp_signature := [],
    batch_axis := [] }

/-- The builder for `demoReduceGraph` after `InferIsAfterAllReduce` and
`FixupInOutBlobNames`. -/
def demoReduceFixed : FoldSubgraphBuilder :=
  ((((FoldSubgraphBuilder.new demoReduceGraph demoReduceJob).getD default).InferIsAfterAllReduce
    demoExt).FixupInOutBlobNames demoExt).getD default

/-- The builder for `demoReduceGraph` after `BuildXrtLaunchOps`. -/
def demoReduceBuilt : FoldSubgraphBuilder :=
  (demoReduceFixed.BuildXrtLaunchOps demoExt).getD default

/-! ## `InferIsAfterAllReduce` -/

/-- Start nodes of the in-edges of node `n`, in iteration order. -/
def XrtGraph.predecessors (g : XrtGraph) (n : Nat) : List Nat :=
  (g.node n).in_edges.filterMap fun e => (g.edges[e]?).map XrtEdge.start

/-- What the specification asks of `algorithm::TopologyVisit`: every node is
visited exactly once, and all predecessors of a node are visited before it. -/
def IsTopologicalOrder (g : XrtGraph) (order : List Nat) : Prop :=
  order.Nodup ∧ (∀ n, n < g.nodes.length → n ∈ order) ∧
  ∀ i, i < order.length → ∀ s ∈ g.predecessors (order.getD i 0), s ∈ order.take i

instance (g : XrtGraph) (order : List Nat) : Decidable (IsTopologicalOrder g order) := by
  unfold IsTopologicalOrder; infer_instance

/-- A node that makes its successors tagged: it is tagged or it is a
`ReduceSplit` node. -/
def tagSource (g : XrtGraph) (tagged : List Nat) (s : Nat) : Prop :=
  s ∈ tagged ∨ (g.node s).type = _ReduceSplitType

/-- Invariant of the traversal, `pre` being the nodes visited so far and
`tagged` the tags so far: only visited nodes are tagged; a visited node is
tagged exactly when one of its predecessors is a tag source; predecessors of
visited nodes are visited; a tagged node is reached from a `ReduceSplit` node. -/
def TagInv (g : XrtGraph) (pre tagged : List Nat) : Prop :=
  (∀ x ∈ tagged, x ∈ pre) ∧
  (∀ x ∈ pre, (x ∈ tagged ↔ ∃ s ∈ g.predecessors x, tagSource g tagged s)) ∧
  (∀ x ∈ pre, ∀ s ∈ g.predecessors x, s ∈ pre) ∧
  (∀ x ∈ tagged, ∃ s, (g.node s).type = _ReduceSplitType ∧
    Relation.TransGen (fun u v => u ∈ g.predecessors v) s x)

/-- The builder the constructor makes for `demoReduceGraph`. -/
def demoReduceNew : FoldSubgraphBuilder :=
  (FoldSubgraphBuilder.new demoReduceGraph demoReduceJob).getD default

/-- Names and control-predecessor lists of the operations of a job, in order. -/
def opKeys (job : Job) : List (String × List String) :=
  job.op.map fun op => (op.name, op.ctrl_in_op_name)

/-- Members and parts of the job that `FixupInOutBlobNames` leaves as they are. -/
def FixupFrame (b b' : FoldSubgraphBuilder) : Prop :=
  b'.graph_.nodes = b.graph_.nodes ∧ b'.launch_nodes_ = b.launch_nodes_ ∧
  b'.folded_nodes_ = b.folded_nodes_ ∧
  b'.after_allreduce_nodes_ = b.after_allreduce_nodes_ ∧
  opKeys b'.builder_ = opKeys b.builder_ ∧ b'.builder_.placement = b.builder_.placement ∧
  b'.builder_.time_shape = b.builder_.time_shape ∧
  b'.builder_.sbp_signature = b.builder_.sbp_signature

/-! ## `FixupControlInOpNames` -/

/-- The name `AddControlInOpName` considers for `op_name`: the name of the
launch node that folds it, or `op_name` itself. -/
def rewrittenName (g : XrtGraph) (folded_op_names : List (String × Nat)) (op_name : String) :
    String :=
  match MapFind folded_op_names op_name with
  | some launch => (g.node launch).name
  | none => op_name

/-- First-occurrence de-duplication: every entry is kept where it first occurs
and dropped where it occurs again. -/
def dedupFirst : List String → List String
  | [] => []
  | a :: l => a :: (dedupFirst l).filter (fun x => decide (x ≠ a))

/-- Names, device types and type-specific parts of the operations of a job. -/
def opShapes (job : Job) : List (String × DeviceType × OpTypeCase) :=
  job.op.map fun op => (op.name, op.device_type, op.op_type)

/-- The fused operation's configuration after the loop over the folded nodes
`subs` of a launch node named `nm`: the control-predecessor names of each
folded operation are added in turn.  A folded operation is looked up with
`look`, except one named `nm`, which is the operation being built itself. -/
def launchCtrlFold (g : XrtGraph) (m : List (String × Nat))
    (look : String → Option OperatorConf) (nm : String) :
    OperatorConf → List XrtSubNode → Option OperatorConf
  | conf, [] => some conf
  | conf, sub_node :: rest =>
    match (if sub_node.name = nm then some conf else look sub_node.name) with
    | none => none
    | some folded_op_conf =>
      launchCtrlFold g m look nm
        (folded_op_conf.ctrl_in_op_name.foldl (AddControlInOpName g m) conf) rest

/-- Members and parts of the job that `FixupControlInOpNames` leaves as they
are: everything but the control-predecessor lists of the operations. -/
def ControlFrame (b b' : FoldSubgraphBuilder) : Prop :=
  b' = { b with builder_ := { b.builder_ with op := b'.builder_.op } } ∧
  opShapes b'.builder_ = opShapes b.builder_

/-- The pairs (folded node name, launch node) in the order in which
`FixupControlInOpNames` offers them to its map. -/
def foldedPairs (b : FoldSubgraphBuilder) : List (String × Nat) :=
  (List.range b.launch_nodes_.length).flatMap fun i =>
    (b.folded_nodes_.getD i []).map fun node => (node.name, b.launch_nodes_.getD i 0)

/-- The demonstration builder after `BuildXrtLaunchOps`. -/
def demoBuilt : FoldSubgraphBuilder :=
  (demoFixed.BuildXrtLaunchOps demoExt).getD default

/-- The demonstration builder after `FixupControlInOpNames`. -/
def demoControlled : FoldSubgraphBuilder :=
  demoBuilt.FixupControlInOpNames.getD default

/-- Members and parts of the job that `FixupTimeShapes` and `FixupSbpSignatures`
leave as they are. -/
def TableFrame (b b' : FoldSubgraphBuilder) : Prop :=
  b'.graph_ = b.graph_ ∧ b'.launch_nodes_ = b.launch_nodes_ ∧
  b'.folded_nodes_ = b.folded_nodes_ ∧
  b'.after_allreduce_nodes_ = b.after_allreduce_nodes_ ∧
  b'.fixedup_names_ = b.fixedup_names_ ∧ b'.builder_.op = b.builder_.op

/-- The two builders have the same nodes, launch nodes and folded nodes. -/
def SameClusters (b b' : FoldSubgraphBuilder) : Prop :=
  b'.graph_.nodes = b.graph_.nodes ∧ b'.launch_nodes_ = b.launch_nodes_ ∧
  b'.folded_nodes_ = b.folded_nodes_

/-- The demonstration run of the whole pass. -/
def demoBuiltAll : FoldSubgraphBuilder :=
  (demoBuilder.Build demoExt).getD default

/-- The second `'/'`-separated piece of an argument name, as `AddInOutBlobNames`
takes it. -/
def secondSegment (name : String) : String := (StrSplit name '/').getD 1 ""

/-- The value of the argument built for an argument node: the name on its last
edge, in-edges being read after out-edges; empty for a node without edges. -/
def argValue (node : XrtSubNode) : String :=
  node.in_edges.foldl (fun _ edge => edge.argument.name)
    (node.out_edges.foldl (fun _ edge => edge.argument.name) "")

/-- Whether some out-edge of the argument node has a consumer whose
`"MutableVars"` attribute holds the edge's consume key. -/
def hasMutableOutEdge (ext : Externals) (sub_graph : XrtSubGraph) (node : XrtSubNode) : Bool :=
  node.out_edges.any fun edge =>
    IsMutableArgument ext (sub_graph.nodes.getD edge.end_ default) edge.argument

/-- The argument `buildFunction` adds for an argument node. -/
def launchArgumentOf (ext : Externals) (node : XrtSubNode) : LaunchArgument :=
  { name := node.name, value := argValue node,
    device_type := ext.XrtDeviceToDeviceType node.device }

/-- An argument node has edges on one side only. -/
def oneSided (node : XrtSubNode) : Prop :=
  node.in_edges.length = 0 ∨ node.out_edges.length = 0

instance (node : XrtSubNode) : Decidable (oneSided node) := by
  unfold oneSided; infer_instance

/-- The values of the argument nodes among `l` that have a mutable out-edge. -/
def mutableValues (ext : Externals) (sub_graph : XrtSubGraph) (l : List XrtSubNode) :
    List String :=
  (l.filter fun n => n.is_argument_node && hasMutableOutEdge ext sub_graph n).map argValue

/-- Collaborators for which the operation type `Relu` declares its input `in`
mutable. -/
def demoMutableExt : Externals :=
  { demoExt with
    LookupMutableVars := fun _ type => if type = "Relu" then some ["in"] else none }

/-- The sub-graph of the launch node `A` of the demonstration graph. -/
def demoSubGraph : XrtSubGraph := ((demoGraph.node 1).sub_graph).getD default

/-! ## The argument maps of a fused operation -/

/-- The parts of a launch configuration other than its name lists and its
model-update flag. -/
def sameMaps (conf conf' : XrtLaunchOpConf) : Prop :=
  conf'.function = conf.function ∧ conf'.mutability = conf.mutability ∧
  conf'.input_output_mapping = conf.input_output_mapping ∧ conf'.batch_axis = conf.batch_axis

/-- A print operation with three input slots. -/
def demoPrintOp : OperatorConf :=
  { name := "print", device_type := 0, ctrl_in_op_name := [],
    op_type := OpTypeCase.kPrintConf ["a1/y", "a2/w", "b1/z"] }

/-! ## `FixupSbpSignatures` -/

/-- The key and the entry `slot` of the placement attribute of each edge among
`es` that has one, in order. -/
def sbpPairs (g : XrtGraph) (key : ArgumentMetaData → String) (slot : Nat) (es : List Nat) :
    List (String × SbpParallel) :=
  es.filterMap fun eid =>
    (g.edges[eid]?).bind fun edge =>
      (edge.sbp_policy.bind fun policy => policy[slot]?).map fun sbp =>
        (key edge.argument.meta_data, sbp)

/-- The signature of a node: the pairs of its in-edges (consume key, entry 1)
and then of its out-edges (produce key, entry 0), written one after the other
into an empty map, a later pair replacing an earlier one with the same key. -/
def sbpSignatureOf (g : XrtGraph) (node : XrtNode) : SbpSignature :=
  (sbpPairs g ArgumentMetaData.consume_key 1 node.in_edges ++
    sbpPairs g ArgumentMetaData.produce_key 0 node.out_edges).foldl
    (fun m kv => MapSet m kv.1 kv.2) []

/-- Every edge among `es` has the placement attribute, with an entry `slot`. -/
def hasPolicy (g : XrtGraph) (slot : Nat) (es : List Nat) : Prop :=
  ∀ e ∈ es, ∀ edge, g.edges[e]? = some edge →
    ∃ policy, edge.sbp_policy = some policy ∧ slot < policy.length

instance (g : XrtGraph) (slot : Nat) (es : List Nat) : Decidable (hasPolicy g slot es) := by
  unfold hasPolicy
  exact List.decidableBAll _ _

/-- A launch node with two in-edges that have the same consume key and
different placement policies. -/
def sbpClashGraph : XrtGraph :=
  { nodes :=
      [ { name := "src", type := "Input", device := 0, in_edges := [], out_edges := [0, 1],
          sub_graph := none },
        { name := "A", type := _XrtLaunchOpType, device := 0, in_edges := [0, 1],
          out_edges := [],
          sub_graph := some ⟨[demoArgNode "arg_x" [] [demoEdge 0 2 "src/x" "out_0" "in"],
                              demoArgNode "arg_y" [] [demoEdge 1 3 "src/y" "out_1" "in"],
                              demoFoldedNode "a1", demoFoldedNode "a2"]⟩ } ],
    edges :=
      [ demoEdge 0 1 "src/x" "out_0" "in",
        { demoEdge 0 1 "src/y" "out_1" "in" with sbp_policy := some [0, 2] } ] }

/-- The builder the constructor makes for `sbpClashGraph`. -/
def sbpClashBuilder : FoldSubgraphBuilder :=
  (FoldSubgraphBuilder.new sbpClashGraph default).getD default

/-- Two launch nodes whose data out-edges carry the same argument name. -/
def dupNameGraph : XrtGraph :=
  { nodes :=
      [ { name := "A", type := _XrtLaunchOpType, device := 0, in_edges := [], out_edges := [0],
          sub_graph := some ⟨[demoFoldedNode "a1"]⟩ },
        { name := "B", type := _XrtLaunchOpType, device := 0, in_edges := [], out_edges := [1],
          sub_graph := some ⟨[demoFoldedNode "b1"]⟩ },
        { name := "sink", type := "Output", device := 0, in_edges := [0, 1], out_edges := [],
          sub_graph := none } ],
    edges := [demoEdge 0 2 "x/y" "out" "in_0", demoEdge 1 2 "x/y" "out" "in_1"] }

/-- The builder the constructor makes for `dupNameGraph`. -/
def dupNameBuilder : FoldSubgraphBuilder :=
  (FoldSubgraphBuilder.new dupNameGraph
    { op := [demoOp "a1" [] [], demoOp "b1" [] [],
             demoOp "sink" [] [("in_0", "x/y"), ("in_1", "x/y")]],
      placement := [], time_shape := [], sbp_signature := [], batch_axis := [] }).getD default

/-- A launch node whose name contains `'/'`, with one data out-edge. -/
def slashGraph : XrtGraph :=
  { nodes :=
      [ { name := "A/1", type := _XrtLaunchOpType, device := 0, in_edges := [],
          out_edges := [0],
          sub_graph := some ⟨[demoFoldedNode "a1",
                              demoArgNode "arg_y" [demoEdge 0 1 "a1/y" "out" "in"] []]⟩ },
        { name := "sink", type := "Output", device := 0, in_edges := [0], out_edges := [],
          sub_graph := none } ],
    edges := [demoEdge 0 1 "a1/y" "out" "in"] }

/-- The job of `slashGraph`. -/
def slashJob : Job :=
  { op := [demoOp "a1" [] [], demoOp "sink" [] [("in", "a1/y")]],
    placement := [("a1", ["0:gpu:0"]), ("sink", ["0:cpu:0"])],
    time_shape := [("a1", 1)],
    sbp_signature := [],
    batch_axis := [] }

/-- The builder the constructor makes for `slashGraph`. -/
def slashBuilder : FoldSubgraphBuilder :=
  (FoldSubgraphBuilder.new slashGraph slashJob).getD default

/-- The builder for `slashGraph` after the name fix-up. -/
def slashFixed : FoldSubgraphBuilder :=
  ((slashBuilder.InferIsAfterAllReduce demoExt).FixupInOutBlobNames demoExt).getD default

/-- The blob name the input `input` of an operation refers to, read the way
`SetOpInputBlobName` writes it: slot `GetRepeatedIndex input` of the `in` list
of a print operation, the string field named `input` of any other operation
that is not a launch operation. -/
def inputRef (op_conf : OperatorConf) (input : String) : Option String :=
  match op_conf.op_type with
  | OpTypeCase.kPrintConf in_lbn =>
    if 0 ≤ GetRepeatedIndex input then in_lbn[(GetRepeatedIndex input).toNat]? else none
  | OpTypeCase.kOtherConf spec_conf => MapFind spec_conf input
  | OpTypeCase.kXrtLaunchConf _ => none

/-- Whether two input names address the same input of an operation, the way
`SetOpInputBlobName` addresses inputs: by the index after the last `'_'` for a
print operation, by the field name for any other operation. -/
def sameInput (op_conf : OperatorConf) (input input' : String) : Bool :=
  match op_conf.op_type with
  | OpTypeCase.kPrintConf _ => decide (GetRepeatedIndex input = GetRepeatedIndex input')
  | _ => decide (input = input')

/-- Modelled from the spec: the replacement `ReplaceStrValInPbFdOrPbRpf` makes
in the string fields of an operation: the field named `fd_name` that holds
`old_val` holds `new_val` afterwards, and nothing else changes. -/
def replaceStrVal (fields : List (String × String)) (fd_name old_val new_val : String) :
    List (String × String) :=
  fields.map fun kv => if kv.1 = fd_name ∧ kv.2 = old_val then (kv.1, new_val) else kv

/-- Modelled from the spec: what `ReplaceStrValInPbFdOrPbRpf` returns for an
operation with string fields, when it returns. -/
def Externals.ReplacesStrVal (ext : Externals) : Prop :=
  ∀ (fields : List (String × String)) (fd_name old_val new_val : String) (conf : OpTypeCase),
    ext.ReplaceStrValInPbFdOrPbRpf (OpTypeCase.kOtherConf fields) fd_name old_val new_val =
        some conf →
      conf = OpTypeCase.kOtherConf (replaceStrVal fields fd_name old_val new_val)

/-! # Theorems -/

/-! ## Maps and sets: basic facts -/

theorem MapFind_append {β : Type} (m1 m2 : List (String × β)) (key : String) :
    MapFind (m1 ++ m2) key = (MapFind m1 key).orElse (fun _ => MapFind m2 key) := by
  induction m1 with
  | nil => simp [MapFind]
  | cons kv rest ih =>
    obtain ⟨k, v⟩ := kv
    by_cases h : k = key
    · simp [MapFind, h]
    · simp [MapFind, h, ih]

theorem MapFind_eq_none_iff {β : Type} (m : List (String × β)) (key : String) :
    MapFind m key = none ↔ key ∉ m.map Prod.fst := by
  induction m with
  | nil => simp [MapFind]
  | cons kv rest ih =>
    obtain ⟨k, v⟩ := kv
    by_cases h : k = key
    · simp [MapFind, h]
    · have h2 : ¬ key = k := fun e => h e.symm
      simp [MapFind, h, h2, ih]

theorem MapFind_mem {β : Type} (m : List (String × β)) (key : String) (v : β)
    (h : MapFind m key = some v) : (key, v) ∈ m := by
  induction m with
  | nil => simp [MapFind] at h
  | cons kv rest ih =>
    obtain ⟨k, w⟩ := kv
    by_cases hk : k = key
    · simp [MapFind, hk] at h
      simp [hk, h]
    · simp [MapFind, hk] at h
      exact List.mem_cons_of_mem _ (ih h)

theorem MapFind_of_mem_nodup {β : Type} (m : List (String × β)) (key : String) (v : β)
    (hnd : (m.map Prod.fst).Nodup) (h : (key, v) ∈ m) : MapFind m key = some v := by
  induction m with
  | nil => simp at h
  | cons kv rest ih =>
    obtain ⟨k, w⟩ := kv
    simp only [List.map_cons, List.nodup_cons] at hnd
    rcases List.mem_cons.1 h with h1 | h1
    · cases h1
      simp [MapFind]
    · have hk : k ≠ key := by
        intro e
        subst e
        exact hnd.1 (List.mem_map.2 ⟨(k, v), h1, rfl⟩)
      simp [MapFind, hk, ih hnd.2 h1]

theorem SetInsert_mem (s : List String) (val x : String) :
    x ∈ SetInsert s val ↔ x ∈ s ∨ x = val := by
  unfold SetInsert
  by_cases h : val ∈ s
  · simp only [h, if_true]
    constructor
    · exact Or.inl
    · rintro (h1 | h1)
      · exact h1
      · exact h1 ▸ h
  · simp [h]

theorem SetInsert_nodup (s : List String) (val : String) (h : s.Nodup) :
    (SetInsert s val).Nodup := by
  unfold SetInsert
  by_cases hv : val ∈ s
  · simpa [hv] using h
  · simp only [hv, if_false]
    exact List.Nodup.append h (List.nodup_singleton _) (by simpa using hv)

theorem foldl_SetInsert_mem (names s : List String) (x : String) :
    x ∈ names.foldl SetInsert s ↔ x ∈ s ∨ x ∈ names := by
  induction names generalizing s with
  | nil => simp
  | cons a rest ih =>
    simp only [List.foldl_cons, ih, SetInsert_mem, List.mem_cons]
    tauto

theorem foldl_SetInsert_nodup (names s : List String) (h : s.Nodup) :
    (names.foldl SetInsert s).Nodup := by
  induction names generalizing s with
  | nil => simpa using h
  | cons a rest ih => exact ih _ (SetInsert_nodup s a h)

/-- The set built by inserting the names of a list one by one has as many
elements as the list has distinct names. -/
theorem foldl_SetInsert_length (names : List String) :
    (names.foldl SetInsert []).length = names.dedup.length := by
  have hnd := foldl_SetInsert_nodup names [] List.nodup_nil
  have hperm : (names.foldl SetInsert []).Perm names.dedup := by
    rw [List.perm_ext_iff_of_nodup hnd (List.nodup_dedup _)]
    intro x
    simp [foldl_SetInsert_mem]
  exact hperm.length_eq

theorem foldl_SetInsert_extends (names s : List String) :
    ∃ t, names.foldl SetInsert s = s ++ t := by
  induction names generalizing s with
  | nil => exact ⟨[], by simp⟩
  | cons a rest ih =>
    obtain ⟨t, ht⟩ := ih (SetInsert s a)
    simp only [List.foldl_cons, ht]
    unfold SetInsert
    by_cases h : a ∈ s
    · exact ⟨t, by simp [h]⟩
    · exact ⟨a :: t, by simp [h]⟩

/-! ## The name table built by `FixupInOutBlobNames` -/

theorem boundaryEntries_append (launch : String) (k0 : Nat) (s t : List String) :
    boundaryEntries launch k0 (s ++ t) =
      boundaryEntries launch k0 s ++ boundaryEntries launch (k0 + s.length) t := by
  induction s generalizing k0 with
  | nil => simp [boundaryEntries]
  | cons a rest ih =>
    have h1 : k0 + 1 + rest.length = k0 + (rest.length + 1) := by omega
    have h2 := ih (k0 + 1)
    rw [h1] at h2
    show (a, _) :: boundaryEntries launch (k0 + 1) (rest ++ t) = _
    rw [h2]
    simp [boundaryEntries]

theorem boundaryEntries_keys (launch : String) (k0 : Nat) (s : List String) :
    (boundaryEntries launch k0 s).map Prod.fst = s := by
  induction s generalizing k0 with
  | nil => simp [boundaryEntries]
  | cons a rest ih => simp [boundaryEntries, ih]

/-- The pure loop over the data out-edge names of one launch node: on success
the set is the first-occurrence list of the names, and the table has grown by
one entry per new name, numbered by position in the set. -/
theorem nameLoop_spec (launch : String) (names : List String) :
    ∀ (t0 : List (String × String)) (seen : List String)
      (res : List (String × String) × List String),
      names.foldlM (nameStep launch) (t0 ++ boundaryEntries launch 0 seen, seen) = some res →
      res.2 = names.foldl SetInsert seen ∧
      res.1 = t0 ++ boundaryEntries launch 0 res.2 ∧
      ∀ a ∈ res.2, a ∉ seen → MapFind t0 a = none := by
  induction names with
  | nil =>
    intro t0 seen res h
    simp only [List.foldlM_nil, Option.pure_def, Option.some.injEq] at h
    subst h
    exact ⟨rfl, rfl, fun a h1 h2 => absurd h1 h2⟩
  | cons a rest ih =>
    intro t0 seen res h
    simp only [List.foldlM_cons, Option.bind_eq_bind] at h
    by_cases hmem : a ∈ seen
    · have hfind : (MapFind (t0 ++ boundaryEntries launch 0 seen) a).isSome = true := by
        rw [Option.isSome_iff_ne_none, Ne, MapFind_eq_none_iff]
        simp [boundaryEntries_keys, hmem]
      have hstep : nameStep launch (t0 ++ boundaryEntries launch 0 seen, seen) a =
          some (t0 ++ boundaryEntries launch 0 seen, seen) := by
        obtain ⟨v, hv⟩ := Option.isSome_iff_exists.1 hfind
        simp [nameStep, hmem, MapEmplace, hv, SetInsert]
      rw [hstep] at h
      have := ih t0 seen res h
      simpa [List.foldl_cons, SetInsert, hmem] using this
    · by_cases hfind : (MapFind (t0 ++ boundaryEntries launch 0 seen) a).isSome = true
      · simp [nameStep, hmem, hfind] at h
      · have hnone : MapFind (t0 ++ boundaryEntries launch 0 seen) a = none := by
          simpa using hfind
        have hstep : nameStep launch (t0 ++ boundaryEntries launch 0 seen, seen) a =
            some (t0 ++ boundaryEntries launch 0 (seen ++ [a]), seen ++ [a]) := by
          simp [nameStep, hmem, MapEmplace, hnone, SetInsert, boundaryEntries_append,
            boundaryEntries]
        rw [hstep] at h
        obtain ⟨h1, h2, h3⟩ := ih t0 (seen ++ [a]) res h
        refine ⟨by simpa [List.foldl_cons, SetInsert, hmem] using h1, h2, ?_⟩
        intro x hx hxs
        by_cases hxa : x = a
        · subst hxa
          rw [MapFind_append] at hnone
          cases hf : MapFind t0 x with
          | none => rfl
          | some v => simp [hf] at hnone
        · exact h3 x hx (by simp [hxs, hxa])

/-- One iteration of the out-edge loop, case by case. -/
theorem edgeStep_cases (ext : Externals) (launch : String) (b b' : FoldSubgraphBuilder)
    (seen seen' : List String) (eid : Nat)
    (h : FixupInOutBlobNames.edgeStep ext launch (b, seen) eid = some (b', seen')) :
    ((b.graph_.edges[eid]? = none ∨
        ∃ edge, b.graph_.edges[eid]? = some edge ∧ edge.is_control_edge = true) ∧
      b' = b ∧ seen' = seen) ∨
    (∃ edge fixed job, b.graph_.edges[eid]? = some edge ∧ edge.is_control_edge = false ∧
      nameStep launch (b.fixedup_names_, seen) edge.argument.name =
        some (b'.fixedup_names_, seen') ∧
      MapFind b'.fixedup_names_ edge.argument.name = some fixed ∧
      rewireConsumer ext b.graph_ b.builder_ edge fixed = some job ∧
      b' = { b with
             graph_ := { b.graph_ with edges := b.graph_.edges.set eid (renameEdge edge fixed) }
             builder_ := job
             fixedup_names_ := b'.fixedup_names_ }) := by
  unfold FixupInOutBlobNames.edgeStep at h
  simp only at h
  cases hedge : b.graph_.edges[eid]? with
  | none =>
    simp only [hedge, Option.some.injEq, Prod.mk.injEq] at h
    exact Or.inl ⟨Or.inl rfl, h.1.symm, h.2.symm⟩
  | some edge =>
    simp only [hedge] at h
    cases hc : edge.is_control_edge with
    | true =>
      simp only [hc, if_true, Option.some.injEq, Prod.mk.injEq] at h
      exact Or.inl ⟨Or.inr ⟨edge, rfl, hc⟩, h.1.symm, h.2.symm⟩
    | false =>
      simp only [hc, Bool.false_eq_true, if_false] at h
      right
      by_cases hchk : decide (edge.argument.name ∉ seen) = true ∧
          (MapFind b.fixedup_names_ edge.argument.name).isSome = true
      · rw [if_pos hchk] at h
        exact absurd h (by simp)
      · rw [if_neg hchk] at h
        cases hfind : MapFind (MapEmplace b.fixedup_names_ edge.argument.name
            (launch ++ "/out_" ++ decimal seen.length)) edge.argument.name with
        | none => simp [hfind] at h
        | some fixed =>
          simp only [hfind, Option.map_eq_some'] at h
          obtain ⟨job, hjob, hb⟩ := h
          simp only [Prod.mk.injEq] at hb
          obtain ⟨hb1, hb2⟩ := hb
          have hfix : b'.fixedup_names_ = MapEmplace b.fixedup_names_ edge.argument.name
              (launch ++ "/out_" ++ decimal seen.length) := by rw [← hb1]
          refine ⟨edge, fixed, job, rfl, hc, ?_, ?_, ?_, ?_⟩
          · have hchk' : ¬ (edge.argument.name ∉ seen ∧
                (MapFind b.fixedup_names_ edge.argument.name).isSome = true) := by
              simpa using hchk
            simp only [nameStep, hchk', if_false, hfix, hb2]
          · rw [hfix, hfind]
          · unfold rewireConsumer
            exact hjob
          · rw [← hb1]
            simp [renameEdge, hc]

theorem MapEmplace_mono {β : Type} (m : List (String × β)) (key : String) (val : β)
    (a : String) (v : β) (h : MapFind m a = some v) :
    MapFind (MapEmplace m key val) a = some v := by
  unfold MapEmplace
  cases hk : MapFind m key with
  | some w => exact h
  | none => simp [MapFind_append, h]

theorem nameStep_mono (launch : String) (acc res : List (String × String) × List String)
    (x a v : String) (h : nameStep launch acc x = some res) (hv : MapFind acc.1 a = some v) :
    MapFind res.1 a = some v := by
  unfold nameStep at h
  split at h
  · exact absurd h (by simp)
  · simp only [Option.some.injEq] at h
    subst h
    exact MapEmplace_mono _ _ _ _ _ hv

/-- The out-edge loop of one launch node: its effect on the table is the pure
loop over the old names, no member other than the edges, the job and the table
changes, entries of the table are kept, and each edge is rewritten as
`fixupEdgeAt` says. -/
theorem edgeLoop_spec (ext : Externals) (launch : String) (es : List Nat) :
    ∀ (b b' : FoldSubgraphBuilder) (seen seen' : List String),
      es.foldlM (FixupInOutBlobNames.edgeStep ext launch) (b, seen) = some (b', seen') →
      es.Nodup →
      (dataArgNames b.graph_ es).foldlM (nameStep launch) (b.fixedup_names_, seen) =
        some (b'.fixedup_names_, seen') ∧
      b'.graph_.nodes = b.graph_.nodes ∧ b'.launch_nodes_ = b.launch_nodes_ ∧
      b'.folded_nodes_ = b.folded_nodes_ ∧
      b'.after_allreduce_nodes_ = b.after_allreduce_nodes_ ∧
      (∀ a v, MapFind b.fixedup_names_ a = some v → MapFind b'.fixedup_names_ a = some v) ∧
      (∀ i, b'.graph_.edges[i]? =
        (b.graph_.edges[i]?).map (fixupEdgeAt b'.fixedup_names_ es i)) := by
  induction es with
  | nil =>
    intro b b' seen seen' h _
    simp only [List.foldlM_nil, Option.pure_def, Option.some.injEq, Prod.mk.injEq] at h
    obtain ⟨h1, h2⟩ := h
    subst h1 h2
    refine ⟨rfl, rfl, rfl, rfl, rfl, fun _ _ h => h, ?_⟩
    intro i
    cases b.graph_.edges[i]? <;> simp [fixupEdgeAt]
  | cons e rest ih =>
    intro b b' seen seen' h hnd
    simp only [List.foldlM_cons, Option.bind_eq_bind] at h
    cases hstep : FixupInOutBlobNames.edgeStep ext launch (b, seen) e with
    | none => simp [hstep] at h
    | some mid =>
      obtain ⟨b1, seen1⟩ := mid
      rw [hstep] at h
      simp only [Option.some_bind] at h
      have hnd' := List.nodup_cons.1 hnd
      obtain ⟨ih1, ih2, ih3, ih4, ih5, ih6, ih7⟩ := ih b1 b' seen1 seen' h hnd'.2
      rcases edgeStep_cases ext launch b b1 seen seen1 e hstep with
        ⟨hskip, hb, hs⟩ | ⟨edge, fixed, job, hedge, hc, hname, hfixed, _, hb⟩
      · subst hb hs
        have hnames : dataArgNames b1.graph_ (e :: rest) = dataArgNames b1.graph_ rest := by
          rcases hskip with hnone | ⟨edge, hedge, hc⟩
          · simp [dataArgNames, hnone]
          · simp [dataArgNames, hedge, hc]
        refine ⟨by rw [hnames]; exact ih1, ih2, ih3, ih4, ih5, ih6, ?_⟩
        intro i
        rw [ih7 i]
        cases hi : b1.graph_.edges[i]? with
        | none => rfl
        | some edge' =>
          simp only [Option.map_some', Option.some.injEq, fixupEdgeAt]
          by_cases hie : i = e
          · subst hie
            rcases hskip with hnone | ⟨edge, hedge, hc⟩
            · rw [hnone] at hi
              exact absurd hi (by simp)
            · rw [hedge] at hi
              cases hi
              simp [hc]
          · simp [hie]
      · have hgn : b1.graph_.nodes = b.graph_.nodes := by rw [hb]
        have hge : b1.graph_.edges = b.graph_.edges.set e (renameEdge edge fixed) := by rw [hb]
        have hother : ∀ i, i ≠ e → b1.graph_.edges[i]? = b.graph_.edges[i]? := by
          intro i hi
          rw [hge, List.getElem?_set_ne (Ne.symm hi)]
        have hnames : dataArgNames b.graph_ (e :: rest) =
            edge.argument.name :: dataArgNames b1.graph_ rest := by
          have h1 : dataArgNames b1.graph_ rest = dataArgNames b.graph_ rest := by
            unfold dataArgNames
            apply List.filterMap_congr
            intro x hx
            rw [hother x (fun hxe => hnd'.1 (hxe ▸ hx))]
          rw [h1]
          simp [dataArgNames, hedge, hc]
        refine ⟨?_, by rw [ih2, hgn], by rw [ih3, hb], by rw [ih4, hb], by rw [ih5, hb], ?_, ?_⟩
        · rw [hnames]
          simp only [List.foldlM_cons, Option.bind_eq_bind, hname, Option.some_bind]
          exact ih1
        · intro a v hav
          exact ih6 a v (nameStep_mono launch _ _ _ a v hname hav)
        · intro i
          rw [ih7 i]
          by_cases hie : i = e
          · subst hie
            have hlt : i < b.graph_.edges.length := (List.getElem?_eq_some_iff.1 hedge).1
            rw [hge, List.getElem?_set_self hlt, hedge]
            simp only [Option.map_some', Option.some.injEq, fixupEdgeAt]
            have hfin := ih6 _ _ hfixed
            simp [hnd'.1, hc, hfin, renameEdge]
          · rw [hother i hie]
            cases hi : b.graph_.edges[i]? with
            | none => rfl
            | some edge' =>
              simp [fixupEdgeAt, hie]

theorem MapEmplace_self_isSome {β : Type} (m : List (String × β)) (key : String) (val : β) :
    (MapFind (MapEmplace m key val) key).isSome = true := by
  unfold MapEmplace
  cases hk : MapFind m key with
  | some w => simp [hk]
  | none => simp [MapFind_append, hk, MapFind]

theorem nameLoop_mono (launch : String) (names : List String) :
    ∀ (acc res : List (String × String) × List String) (a v : String),
      names.foldlM (nameStep launch) acc = some res → MapFind acc.1 a = some v →
      MapFind res.1 a = some v := by
  induction names with
  | nil =>
    intro acc res a v h hv
    simp only [List.foldlM_nil, Option.pure_def, Option.some.injEq] at h
    subst h
    exact hv
  | cons x rest ih =>
    intro acc res a v h hv
    simp only [List.foldlM_cons, Option.bind_eq_bind] at h
    cases hstep : nameStep launch acc x with
    | none => simp [hstep] at h
    | some mid =>
      rw [hstep] at h
      exact ih mid res a v h (nameStep_mono launch acc mid x a v hstep hv)

/-- Every name the pure loop has gone through has an entry afterwards. -/
theorem nameLoop_keys (launch : String) (names : List String) :
    ∀ (acc res : List (String × String) × List String),
      names.foldlM (nameStep launch) acc = some res →
      ∀ a ∈ names, (MapFind res.1 a).isSome = true := by
  induction names with
  | nil => intro acc res _ a ha; simp at ha
  | cons x rest ih =>
    intro acc res h a ha
    simp only [List.foldlM_cons, Option.bind_eq_bind] at h
    cases hstep : nameStep launch acc x with
    | none => simp [hstep] at h
    | some mid =>
      rw [hstep] at h
      rcases List.mem_cons.1 ha with hax | hrest
      · subst hax
        have h1 : (MapFind mid.1 a).isSome = true := by
          unfold nameStep at hstep
          split at hstep
          · exact absurd hstep (by simp)
          · simp only [Option.some.injEq] at hstep
            subst hstep
            exact MapEmplace_self_isSome _ _ _
        obtain ⟨v, hv⟩ := Option.isSome_iff_exists.1 h1
        rw [nameLoop_mono launch rest mid res a v h hv]
        rfl
      · exact ih mid res h a hrest

theorem node_congr (g1 g2 : XrtGraph) (h : g1.nodes = g2.nodes) (i : Nat) :
    g1.node i = g2.node i := by
  unfold XrtGraph.node
  rw [h]

theorem dataArgNames_congr (g1 g2 : XrtGraph) (es : List Nat)
    (h : ∀ e ∈ es, g1.edges[e]? = g2.edges[e]?) : dataArgNames g1 es = dataArgNames g2 es := by
  unfold dataArgNames
  apply List.filterMap_congr
  intro x hx
  rw [h x hx]

theorem mem_dataArgNames (g : XrtGraph) (es : List Nat) (e : Nat) (edge : XrtEdge)
    (he : e ∈ es) (hedge : g.edges[e]? = some edge) (hc : edge.is_control_edge = false) :
    edge.argument.name ∈ dataArgNames g es := by
  unfold dataArgNames
  rw [List.mem_filterMap]
  exact ⟨e, he, by simp [hedge, hc]⟩

/-- The launch-node loop of `FixupInOutBlobNames` on nodes whose out-edge lists
share no edge: the table grows by `expectedTable`, whose keys are new and
pairwise distinct; only edges, job and table change; each edge is rewritten as
`fixupEdgeAt` says. -/
theorem nodeLoop_spec (ext : Externals) (ls : List Nat) :
    ∀ (b b' : FoldSubgraphBuilder),
      ls.foldlM (FixupInOutBlobNames.nodeStep ext) b = some b' →
      (launchOutEdges b.graph_ ls).Nodup →
      b'.fixedup_names_ = b.fixedup_names_ ++ expectedTable b.graph_ ls ∧
      (∀ a ∈ (expectedTable b.graph_ ls).map Prod.fst, MapFind b.fixedup_names_ a = none) ∧
      ((expectedTable b.graph_ ls).map Prod.fst).Nodup ∧
      b'.graph_.nodes = b.graph_.nodes ∧ b'.launch_nodes_ = b.launch_nodes_ ∧
      b'.folded_nodes_ = b.folded_nodes_ ∧
      b'.after_allreduce_nodes_ = b.after_allreduce_nodes_ ∧
      (∀ a v, MapFind b.fixedup_names_ a = some v → MapFind b'.fixedup_names_ a = some v) ∧
      (∀ i, b'.graph_.edges[i]? =
        (b.graph_.edges[i]?).map
          (fixupEdgeAt b'.fixedup_names_ (launchOutEdges b.graph_ ls) i)) := by
  induction ls with
  | nil =>
    intro b b' h _
    simp only [List.foldlM_nil, Option.pure_def, Option.some.injEq] at h
    subst h
    refine ⟨by simp [expectedTable], by simp [expectedTable], by simp [expectedTable],
      rfl, rfl, rfl, rfl, fun _ _ h => h, ?_⟩
    intro i
    cases b.graph_.edges[i]? <;> simp [fixupEdgeAt, launchOutEdges]
  | cons l rest ih =>
    intro b b' h hnd
    simp only [List.foldlM_cons, Option.bind_eq_bind] at h
    cases hstep : FixupInOutBlobNames.nodeStep ext b l with
    | none => simp [hstep] at h
    | some b1 =>
      rw [hstep] at h
      simp only [Option.some_bind] at h
      unfold FixupInOutBlobNames.nodeStep at hstep
      simp only [Option.map_eq_some'] at hstep
      obtain ⟨⟨b1', seen1⟩, hloop, hb1⟩ := hstep
      simp only at hb1
      subst hb1
      have hnd2 : (b.graph_.node l).out_edges.Nodup ∧ (launchOutEdges b.graph_ rest).Nodup ∧
          ∀ e ∈ (b.graph_.node l).out_edges, e ∉ launchOutEdges b.graph_ rest := by
        have := List.nodup_append.1 (by simpa [launchOutEdges] using hnd)
        exact ⟨this.1, this.2.1, fun e he1 he2 => this.2.2 he1 he2⟩
      obtain ⟨e1, e2, e3, e4, e5, e6, e7⟩ :=
        edgeLoop_spec ext (b.graph_.node l).name (b.graph_.node l).out_edges b b1' [] seen1
          hloop hnd2.1
      have hpure := nameLoop_spec (b.graph_.node l).name
        (dataArgNames b.graph_ (b.graph_.node l).out_edges) b.fixedup_names_ []
        (b1'.fixedup_names_, seen1) (by simpa [boundaryEntries] using e1)
      obtain ⟨p1, p2, p3⟩ := hpure
      simp only at p1 p2 p3
      have hseen : seen1 = outArgNames b.graph_ l := p1
      have hout : launchOutEdges b1'.graph_ rest = launchOutEdges b.graph_ rest := by
        unfold launchOutEdges
        apply List.flatMap_congr
        intro i _
        rw [node_congr _ _ e2]
      have hunch : ∀ e ∈ launchOutEdges b.graph_ rest, b1'.graph_.edges[e]? = b.graph_.edges[e]? := by
        intro e he
        rw [e7 e]
        cases hx : b.graph_.edges[e]? with
        | none => rfl
        | some edge =>
          have : e ∉ (b.graph_.node l).out_edges := fun h1 => hnd2.2.2 e h1 he
          simp [fixupEdgeAt, this]
      have hnames : ∀ i ∈ rest, outArgNames b1'.graph_ i = outArgNames b.graph_ i := by
        intro i hi
        unfold outArgNames
        rw [node_congr _ _ e2]
        rw [dataArgNames_congr b1'.graph_ b.graph_]
        intro e he
        exact hunch e (by
          unfold launchOutEdges
          exact List.mem_flatMap.2 ⟨i, hi, he⟩)
      have htab : expectedTable b1'.graph_ rest = expectedTable b.graph_ rest := by
        unfold expectedTable
        apply List.flatMap_congr
        intro i hi
        rw [node_congr _ _ e2, hnames i hi]
      obtain ⟨i1, i2, i3, i4, i5, i6, i7, i8, i9⟩ := ih b1' b' h (by rw [hout]; exact hnd2.2.1)
      rw [htab] at i1 i2 i3
      rw [hout] at i9
      have hhead : expectedTable b.graph_ (l :: rest) =
          boundaryEntries (b.graph_.node l).name 0 (outArgNames b.graph_ l) ++
            expectedTable b.graph_ rest := by
        simp [expectedTable]
      have hseen_nd : (outArgNames b.graph_ l).Nodup :=
        foldl_SetInsert_nodup _ _ List.nodup_nil
      refine ⟨?_, ?_, ?_, by rw [i4, e2], by rw [i5, e3], by rw [i6, e4], by rw [i7, e5],
        fun a v hav => i8 a v (e6 a v hav), ?_⟩
      · rw [i1, p2, hseen, hhead, List.append_assoc]
      · intro a ha
        rw [hhead, List.map_append, List.mem_append, boundaryEntries_keys] at ha
        rcases ha with ha | ha
        · exact p3 a (hseen ▸ ha) (by simp)
        · have := i2 a ha
          rw [p2, MapFind_append] at this
          cases hf : MapFind b.fixedup_names_ a with
          | none => rfl
          | some v => simp [hf] at this
      · rw [hhead, List.map_append, boundaryEntries_keys]
        refine List.Nodup.append hseen_nd i3 ?_
        intro a ha1 ha2
        have := i2 a ha2
        rw [p2, MapFind_append, hseen] at this
        have hk : MapFind (boundaryEntries (b.graph_.node l).name 0 (outArgNames b.graph_ l)) a
            ≠ none := by
          rw [Ne, MapFind_eq_none_iff, boundaryEntries_keys]
          exact fun h => h ha1
        cases hf : MapFind b.fixedup_names_ a with
        | none => simp [hf] at this; exact hk this
        | some v => simp [hf] at this
      · intro i
        rw [i9 i, e7 i]
        cases hx : b.graph_.edges[i]? with
        | none => rfl
        | some edge =>
          simp only [Option.map_some', Option.some.injEq]
          by_cases hi1 : i ∈ (b.graph_.node l).out_edges
          · have hi2 : i ∉ launchOutEdges b.graph_ rest := hnd2.2.2 i hi1
            have hmem : i ∈ launchOutEdges b.graph_ (l :: rest) := by
              simp [launchOutEdges, hi1]
            cases hc : edge.is_control_edge with
            | true => simp [fixupEdgeAt, hc, renameEdge]
            | false =>
              have hkey := nameLoop_keys _ _ _ _ e1 edge.argument.name
                (mem_dataArgNames _ _ i edge hi1 hx hc)
              obtain ⟨v, hv⟩ := Option.isSome_iff_exists.1 hkey
              simp only at hv
              have hv' := i8 _ _ hv
              simp [fixupEdgeAt, hc, hi1, hi2, hmem, hv, hv', renameEdge]
          · have hmem : i ∈ launchOutEdges b.graph_ (l :: rest) ↔
                i ∈ launchOutEdges b.graph_ rest := by
              simp [launchOutEdges, hi1]
            simp [fixupEdgeAt, hi1, hmem]

theorem node_eq_of_lt (g : XrtGraph) (i : Nat) (h : i < g.nodes.length) :
    g.nodes[i]? = some (g.node i) := by
  unfold XrtGraph.node
  simp [List.getD_eq_getElem?_getD, List.getElem?_eq_getElem h]

theorem mem_launchNodes (g : XrtGraph) (i : Nat) :
    i ∈ launchNodes g ↔ i < g.nodes.length ∧ (g.node i).type = _XrtLaunchOpType := by
  simp [launchNodes, List.mem_range]

theorem launchNodes_nodup (g : XrtGraph) : (launchNodes g).Nodup :=
  List.Nodup.filter _ (List.nodup_range _)

/-- In a well-formed graph the out-edge lists of the launch nodes share no edge. -/
theorem launchOutEdges_nodup (g : XrtGraph) (hwf : g.WellFormed) :
    (launchOutEdges g (launchNodes g)).Nodup := by
  unfold launchOutEdges
  rw [List.nodup_flatMap]
  constructor
  · intro i hi
    exact (hwf i ((mem_launchNodes g i).1 hi).1).1
  · refine List.Pairwise.imp_of_mem ?_ (launchNodes_nodup g)
    intro i j hi hj hij
    intro e he1 he2
    have h1 := (hwf i ((mem_launchNodes g i).1 hi).1).2.2.1 e he1
    have h2 := (hwf j ((mem_launchNodes g j).1 hj).1).2.2.1 e he2
    rw [h1] at h2
    exact hij (Option.some.inj h2)

theorem mem_expectedTable (g : XrtGraph) (ls : List Nat) (l : Nat) (hl : l ∈ ls)
    (s t : List String) (a : String) (hs : outArgNames g l = s ++ a :: t) :
    (a, (g.node l).name ++ "/out_" ++ decimal s.length) ∈ expectedTable g ls := by
  unfold expectedTable
  rw [List.mem_flatMap]
  refine ⟨l, hl, ?_⟩
  rw [hs, boundaryEntries_append]
  simp [boundaryEntries]

/-- The first-occurrence list of `pre ++ a :: post`, when `a` is not in `pre`,
has `a` right after the first-occurrence list of `pre`. -/
theorem foldl_SetInsert_split (pre post : List String) (a : String) (h : a ∉ pre) :
    ∃ t, (pre ++ a :: post).foldl SetInsert [] = pre.foldl SetInsert [] ++ a :: t := by
  rw [List.foldl_append, List.foldl_cons]
  have hns : a ∉ pre.foldl SetInsert [] := by
    rw [foldl_SetInsert_mem]
    simp [h]
  obtain ⟨t, ht⟩ := foldl_SetInsert_extends post (SetInsert (pre.foldl SetInsert []) a)
  refine ⟨t, ?_⟩
  rw [ht]
  simp [SetInsert, hns]

/-- C1. `FixupInOutBlobNames` names boundary outputs by ordinal.  Let the
builder have an empty name table and the launch nodes of a well-formed graph,
and let the pass return.  For a launch node `L` and an argument name `a` on a
data out-edge of `L`, write the data out-edge names of `L`, in iteration order,
as `pre ++ a :: post` with `a` not in `pre`; the number `k` of distinct names
in `pre` is the ordinal of `a`, and the table maps `a` to
`L.name ++ "/out_" ++ decimal k`. -/
theorem C1_boundary_name_by_ordinal (ext : Externals) (b b' : FoldSubgraphBuilder)
    (hwf : b.graph_.WellFormed) (hlaunch : b.launch_nodes_ = launchNodes b.graph_)
    (hempty : b.fixedup_names_ = [])
    (hrun : b.FixupInOutBlobNames ext = some b')
    (L : Nat) (hL : L ∈ b.launch_nodes_) (pre post : List String) (a : String)
    (hsplit : dataArgNames b.graph_ (b.graph_.node L).out_edges = pre ++ a :: post)
    (hfirst : a ∉ pre) :
    MapFind b'.fixedup_names_ a =
      some ((b.graph_.node L).name ++ "/out_" ++ decimal pre.dedup.length) := by
  unfold FoldSubgraphBuilder.FixupInOutBlobNames at hrun
  have hnd : (launchOutEdges b.graph_ b.launch_nodes_).Nodup := by
    rw [hlaunch]
    exact launchOutEdges_nodup _ hwf
  obtain ⟨h1, _, h3, _⟩ := nodeLoop_spec ext b.launch_nodes_ b b' hrun hnd
  rw [hempty, List.nil_append] at h1
  obtain ⟨t, ht⟩ := foldl_SetInsert_split pre post a hfirst
  have hmem := mem_expectedTable b.graph_ b.launch_nodes_ L hL (pre.foldl SetInsert []) t a
    (by unfold outArgNames; rw [hsplit, ht])
  rw [foldl_SetInsert_length] at hmem
  rw [h1]
  exact MapFind_of_mem_nodup _ _ _ h3 hmem

/-- C1 at the demonstration graph: `a2/w` is the second distinct output name of
`A`, after `a1/y`, and is mapped to `A/out_1`. -/
theorem C1_boundary_name_by_ordinal_witness :
    MapFind demoFixed.fixedup_names_ "a2/w" = some "A/out_1" :=
  C1_boundary_name_by_ordinal demoExt demoBuilder demoFixed (by decide) (by decide) (by decide)
    (by decide) 1 (by decide) ["a1/y"] ["a1/y"] "a2/w" (by decide) (by decide)

theorem rewireAll_nil (ext : Externals) (g : XrtGraph) (table : List (String × String))
    (job : Job) : rewireAll ext g table job [] = some job := rfl

theorem rewireAll_append (ext : Externals) (g : XrtGraph) (table : List (String × String))
    (job : Job) (es1 es2 : List Nat) :
    rewireAll ext g table job (es1 ++ es2) =
      (rewireAll ext g table job es1).bind fun job1 => rewireAll ext g table job1 es2 := by
  unfold rewireAll
  rw [List.foldlM_append]
  rfl

theorem rewireConsumer_congr (ext : Externals) (g1 g2 : XrtGraph) (h : g1.nodes = g2.nodes)
    (job : Job) (edge : XrtEdge) (fixed : String) :
    rewireConsumer ext g1 job edge fixed = rewireConsumer ext g2 job edge fixed := by
  unfold rewireConsumer
  rw [node_congr g1 g2 h]

theorem rewireAll_congr (ext : Externals) (g1 g2 : XrtGraph) (table : List (String × String))
    (es : List Nat) (hn : g1.nodes = g2.nodes)
    (he : ∀ e ∈ es, g1.edges[e]? = g2.edges[e]?) (job : Job) :
    rewireAll ext g1 table job es = rewireAll ext g2 table job es := by
  induction es generalizing job with
  | nil => rfl
  | cons e rest ih =>
    have h1 : rewireAll ext g1 table job (e :: rest) =
        (rewireAll ext g1 table job [e]).bind fun j => rewireAll ext g1 table j rest :=
      rewireAll_append ext g1 table job [e] rest
    have h2 : rewireAll ext g2 table job (e :: rest) =
        (rewireAll ext g2 table job [e]).bind fun j => rewireAll ext g2 table j rest :=
      rewireAll_append ext g2 table job [e] rest
    have h3 : rewireAll ext g1 table job [e] = rewireAll ext g2 table job [e] := by
      unfold rewireAll
      simp only [List.foldlM_cons, List.foldlM_nil]
      rw [he e (List.mem_cons_self _ _)]
      cases g2.edges[e]? with
      | none => rfl
      | some edge =>
        simp only
        cases edge.is_control_edge with
        | true => rfl
        | false =>
          simp only [Bool.false_eq_true, if_false]
          cases MapFind table edge.argument.name with
          | none => rfl
          | some fixed => simp only [rewireConsumer_congr ext g1 g2 hn]
    rw [h1, h2, h3]
    cases rewireAll ext g2 table job [e] with
    | none => rfl
    | some j =>
      exact ih (fun x hx => he x (List.mem_cons_of_mem _ hx)) j

/-- The job after the out-edge loop of one launch node is the job after
rewiring the consumers with the names of any table that extends the final one. -/
theorem edgeLoop_job (ext : Externals) (launch : String) (es : List Nat) :
    ∀ (b b' : FoldSubgraphBuilder) (seen seen' : List String)
      (table : List (String × String)),
      es.foldlM (FixupInOutBlobNames.edgeStep ext launch) (b, seen) = some (b', seen') →
      es.Nodup →
      (∀ a v, MapFind b'.fixedup_names_ a = some v → MapFind table a = some v) →
      rewireAll ext b.graph_ table b.builder_ es = some b'.builder_ := by
  induction es with
  | nil =>
    intro b b' seen seen' table h _ _
    simp only [List.foldlM_nil, Option.pure_def, Option.some.injEq, Prod.mk.injEq] at h
    rw [← h.1]
    rfl
  | cons e rest ih =>
    intro b b' seen seen' table h hnd htab
    simp only [List.foldlM_cons, Option.bind_eq_bind] at h
    cases hstep : FixupInOutBlobNames.edgeStep ext launch (b, seen) e with
    | none => simp [hstep] at h
    | some mid =>
      obtain ⟨b1, seen1⟩ := mid
      rw [hstep] at h
      simp only [Option.some_bind] at h
      have hnd' := List.nodup_cons.1 hnd
      have hrest := ih b1 b' seen1 seen' table h hnd'.2 htab
      obtain ⟨_, _, _, _, _, mono, _⟩ := edgeLoop_spec ext launch rest b1 b' seen1 seen' h hnd'.2
      have happ := rewireAll_append ext b.graph_ table b.builder_ [e] rest
      simp only [List.singleton_append] at happ
      rw [happ]
      rcases edgeStep_cases ext launch b b1 seen seen1 e hstep with
        ⟨hskip, hb, _⟩ | ⟨edge, fixed, job, hedge, hc, _, hfixed, hjob, hb⟩
      · subst hb
        have hone : rewireAll ext b1.graph_ table b1.builder_ [e] = some b1.builder_ := by
          unfold rewireAll
          rcases hskip with hnone | ⟨edge, hedge, hc⟩
          · simp [hnone]
          · simp [hedge, hc]
        rw [hone]
        exact hrest
      · have hone : rewireAll ext b.graph_ table b.builder_ [e] = some job := by
          unfold rewireAll
          simp [hedge, hc, htab _ _ (mono _ _ hfixed), hjob]
        rw [hone]
        simp only [Option.some_bind]
        have hb1 : b1.builder_ = job := by rw [hb]
        have hgn : b1.graph_.nodes = b.graph_.nodes := by rw [hb]
        have hge : b1.graph_.edges = b.graph_.edges.set e (renameEdge edge fixed) := by rw [hb]
        rw [← hb1, ← rewireAll_congr ext b1.graph_ b.graph_ table rest hgn]
        · exact hrest
        · intro x hx
          have hxe : e ≠ x := fun hxe => hnd'.1 (hxe ▸ hx)
          rw [hge, List.getElem?_set_ne hxe]

/-- The job after the launch-node loop is the job after rewiring, in order, the
consumers of all data out-edges of the nodes with the names of the final table. -/
theorem nodeLoop_job (ext : Externals) (ls : List Nat) :
    ∀ (b b' : FoldSubgraphBuilder) (table : List (String × String)),
      ls.foldlM (FixupInOutBlobNames.nodeStep ext) b = some b' →
      (launchOutEdges b.graph_ ls).Nodup →
      (∀ a v, MapFind b'.fixedup_names_ a = some v → MapFind table a = some v) →
      rewireAll ext b.graph_ table b.builder_ (launchOutEdges b.graph_ ls) =
        some b'.builder_ := by
  induction ls with
  | nil =>
    intro b b' table h _ _
    simp only [List.foldlM_nil, Option.pure_def, Option.some.injEq] at h
    subst h
    rfl
  | cons l rest ih =>
    intro b b' table h hnd htab
    simp only [List.foldlM_cons, Option.bind_eq_bind] at h
    cases hstep : FixupInOutBlobNames.nodeStep ext b l with
    | none => simp [hstep] at h
    | some b1 =>
      rw [hstep] at h
      simp only [Option.some_bind] at h
      unfold FixupInOutBlobNames.nodeStep at hstep
      simp only [Option.map_eq_some'] at hstep
      obtain ⟨⟨b1', seen1⟩, hloop, hb1⟩ := hstep
      simp only at hb1
      subst hb1
      have hnd2 : (b.graph_.node l).out_edges.Nodup ∧ (launchOutEdges b.graph_ rest).Nodup ∧
          ∀ e ∈ (b.graph_.node l).out_edges, e ∉ launchOutEdges b.graph_ rest := by
        have := List.nodup_append.1 (by simpa [launchOutEdges] using hnd)
        exact ⟨this.1, this.2.1, fun e he1 he2 => this.2.2 he1 he2⟩
      obtain ⟨_, e2, _, _, _, _, e7⟩ :=
        edgeLoop_spec ext (b.graph_.node l).name (b.graph_.node l).out_edges b b1' [] seen1
          hloop hnd2.1
      have hout : launchOutEdges b1'.graph_ rest = launchOutEdges b.graph_ rest := by
        unfold launchOutEdges
        apply List.flatMap_congr
        intro i _
        rw [node_congr _ _ e2]
      obtain ⟨_, _, _, _, _, _, _, mono, _⟩ :=
        nodeLoop_spec ext rest b1' b' h (by rw [hout]; exact hnd2.2.1)
      have hhead := edgeLoop_job ext (b.graph_.node l).name (b.graph_.node l).out_edges b b1'
        [] seen1 table hloop hnd2.1 (fun a v hav => htab a v (mono a v hav))
      have hrest := ih b1' b' table h (by rw [hout]; exact hnd2.2.1) htab
      have hsplit : launchOutEdges b.graph_ (l :: rest) =
          (b.graph_.node l).out_edges ++ launchOutEdges b.graph_ rest := by
        simp [launchOutEdges]
      rw [hsplit, rewireAll_append, hhead]
      simp only [Option.some_bind]
      rw [hout] at hrest
      rw [← rewireAll_congr ext b1'.graph_ b.graph_ table _ e2]
      · exact hrest
      · intro e he
        rw [e7 e]
        cases hx : b.graph_.edges[e]? with
        | none => rfl
        | some edge =>
          have : e ∉ (b.graph_.node l).out_edges := fun h1 => hnd2.2.2 e h1 he
          simp [fixupEdgeAt, this]

theorem mem_expectedTable_keys (g : XrtGraph) (ls : List Nat) (a : String) :
    a ∈ (expectedTable g ls).map Prod.fst ↔ ∃ l ∈ ls, a ∈ outArgNames g l := by
  induction ls with
  | nil => simp [expectedTable]
  | cons l rest ih =>
    have hhead : expectedTable g (l :: rest) =
        boundaryEntries (g.node l).name 0 (outArgNames g l) ++ expectedTable g rest := by
      simp [expectedTable]
    rw [hhead, List.map_append, List.mem_append, boundaryEntries_keys, ih]
    simp

theorem mem_outArgNames (g : XrtGraph) (l : Nat) (a : String) :
    a ∈ outArgNames g l ↔ a ∈ dataArgNames g (g.node l).out_edges := by
  unfold outArgNames
  rw [foldl_SetInsert_mem]
  simp

theorem mem_launchOutEdges (g : XrtGraph) (ls : List Nat) (l e : Nat) (hl : l ∈ ls)
    (he : e ∈ (g.node l).out_edges) : e ∈ launchOutEdges g ls := by
  unfold launchOutEdges
  exact List.mem_flatMap.2 ⟨l, hl, he⟩

/-! ## Decimal text and boundary names -/

theorem digitChar_inj (a b : Nat) (ha : a < 10) (hb : b < 10)
    (h : Char.ofNat (48 + a) = Char.ofNat (48 + b)) : a = b := by
  interval_cases a <;> interval_cases b <;> first | rfl | (exact absurd h (by decide))

theorem digitChar_ne_underscore (a : Nat) (ha : a < 10) : Char.ofNat (48 + a) ≠ '_' := by
  interval_cases a <;> decide

theorem digitChar_ne_slash (a : Nat) (ha : a < 10) : Char.ofNat (48 + a) ≠ '/' := by
  interval_cases a <;> decide

theorem decimalDigits_ne_nil (fuel n : Nat) (h : 0 < fuel) : decimalDigits fuel n ≠ [] := by
  cases fuel with
  | zero => omega
  | succ f =>
    unfold decimalDigits
    split <;> simp

/-- Every character of a decimal text is a digit character. -/
theorem decimalDigits_digit (fuel : Nat) :
    ∀ n, ∀ c ∈ decimalDigits fuel n, ∃ d, d < 10 ∧ c = Char.ofNat (48 + d) := by
  induction fuel with
  | zero => intro n c hc; simp [decimalDigits] at hc
  | succ f ih =>
    intro n c hc
    unfold decimalDigits at hc
    split at hc
    · rename_i hlt
      simp only [List.mem_singleton] at hc
      exact ⟨n, hlt, hc⟩
    · rcases List.mem_append.1 hc with h1 | h1
      · exact ih _ c h1
      · simp only [List.mem_singleton] at h1
        exact ⟨n % 10, Nat.mod_lt _ (by omega), h1⟩

theorem decimalDigits_inj (f : Nat) :
    ∀ (g n m : Nat), n < f → m < g → decimalDigits f n = decimalDigits g m → n = m := by
  induction f with
  | zero => intro g n m hn; omega
  | succ f ih =>
    intro g n m hn hm h
    cases g with
    | zero => omega
    | succ g =>
      unfold decimalDigits at h
      by_cases h1 : n < 10
      · by_cases h2 : m < 10
        · simp only [h1, h2, if_true, List.cons.injEq, and_true] at h
          exact digitChar_inj n m h1 h2 h
        · simp only [h1, h2, if_true, if_false] at h
          have hlen := congrArg List.length h
          simp only [List.length_singleton, List.length_append] at hlen
          have hne := decimalDigits_ne_nil g (m / 10) (by omega)
          have : (decimalDigits g (m / 10)).length ≠ 0 := fun h0 =>
            hne (List.length_eq_zero.1 h0)
          omega
      · by_cases h2 : m < 10
        · simp only [h1, h2, if_true, if_false] at h
          have hlen := congrArg List.length h
          simp only [List.length_singleton, List.length_append] at hlen
          have hne := decimalDigits_ne_nil f (n / 10) (by omega)
          have : (decimalDigits f (n / 10)).length ≠ 0 := fun h0 =>
            hne (List.length_eq_zero.1 h0)
          omega
        · simp only [h1, h2, if_false] at h
          obtain ⟨h3, h4⟩ := List.append_inj' h rfl
          simp only [List.cons.injEq, and_true] at h4
          have e1 := ih g (n / 10) (m / 10) (by omega) (by omega) h3
          have e2 := digitChar_inj (n % 10) (m % 10) (Nat.mod_lt _ (by omega))
            (Nat.mod_lt _ (by omega)) h4
          omega

theorem decimal_inj (n m : Nat) (h : decimal n = decimal m) : n = m := by
  unfold decimal at h
  exact decimalDigits_inj (n + 1) (m + 1) n m (by omega) (by omega) (congrArg String.data h)

/-- Two texts that end with the same character followed by tails without that
character agree before and after it. -/
theorem split_at_last (c : Char) :
    ∀ (u u' d d' : List Char), c ∉ d → c ∉ d' → u ++ c :: d = u' ++ c :: d' →
      u = u' ∧ d = d' := by
  intro u
  induction u with
  | nil =>
    intro u' d d' hd hd' h
    cases u' with
    | nil =>
      simp only [List.nil_append, List.cons.injEq, true_and] at h
      exact ⟨rfl, h⟩
    | cons x rest =>
      simp only [List.nil_append, List.cons_append, List.cons.injEq] at h
      exact absurd (h.2 ▸ (by simp : c ∈ rest ++ c :: d')) hd
  | cons y more ih =>
    intro u' d d' hd hd' h
    cases u' with
    | nil =>
      simp only [List.nil_append, List.cons_append, List.cons.injEq] at h
      exact absurd (h.2 ▸ (by simp : c ∈ more ++ c :: d)) hd'
    | cons x rest =>
      simp only [List.cons_append, List.cons.injEq] at h
      obtain ⟨e1, e2⟩ := ih rest d d' hd hd' h.2
      exact ⟨by rw [h.1, e1], e2⟩

theorem underscore_not_mem_decimal (k : Nat) : '_' ∉ (decimal k).data := by
  intro h
  obtain ⟨d, hd, hc⟩ := decimalDigits_digit (k + 1) k '_' h
  exact digitChar_ne_underscore d hd hc.symm

/-- The boundary name determines the launch name and the ordinal. -/
theorem boundary_name_inj (n1 n2 : String) (k1 k2 : Nat)
    (h : n1 ++ "/out_" ++ decimal k1 = n2 ++ "/out_" ++ decimal k2) : n1 = n2 ∧ k1 = k2 := by
  have hdata := congrArg String.data h
  simp only [String.data_append] at hdata
  have hd1 : n1.data ++ ['/', 'o', 'u', 't', '_'] ++ (decimal k1).data =
      (n1.data ++ ['/', 'o', 'u', 't']) ++ '_' :: (decimal k1).data := by simp
  have hd2 : n2.data ++ ['/', 'o', 'u', 't', '_'] ++ (decimal k2).data =
      (n2.data ++ ['/', 'o', 'u', 't']) ++ '_' :: (decimal k2).data := by simp
  rw [hd1, hd2] at hdata
  obtain ⟨e1, e2⟩ := split_at_last '_' _ _ _ _ (underscore_not_mem_decimal k1)
    (underscore_not_mem_decimal k2) hdata
  have e3 := List.append_cancel_right e1
  exact ⟨String.ext e3, decimal_inj k1 k2 (String.ext e2)⟩

theorem mem_boundaryEntries (launch : String) (s : List String) :
    ∀ (k0 : Nat) (a r : String), (a, r) ∈ boundaryEntries launch k0 s →
      ∃ j, s[j]? = some a ∧ r = launch ++ "/out_" ++ decimal (k0 + j) := by
  induction s with
  | nil => intro k0 a r h; simp [boundaryEntries] at h
  | cons x rest ih =>
    intro k0 a r h
    simp only [boundaryEntries, List.mem_cons, Prod.mk.injEq] at h
    rcases h with ⟨h1, h2⟩ | h
    · exact ⟨0, by simp [h1], by simpa using h2⟩
    · obtain ⟨j, hj1, hj2⟩ := ih (k0 + 1) a r h
      refine ⟨j + 1, by simpa using hj1, ?_⟩
      rw [hj2]
      have : k0 + 1 + j = k0 + (j + 1) := by omega
      rw [this]

theorem mem_expectedTable_elim (g : XrtGraph) (ls : List Nat) (a r : String)
    (h : (a, r) ∈ expectedTable g ls) :
    ∃ l ∈ ls, ∃ j, (outArgNames g l)[j]? = some a ∧
      r = (g.node l).name ++ "/out_" ++ decimal j := by
  unfold expectedTable at h
  obtain ⟨l, hl, hmem⟩ := List.mem_flatMap.1 h
  obtain ⟨j, hj1, hj2⟩ := mem_boundaryEntries _ _ 0 a r hmem
  exact ⟨l, hl, j, hj1, by simpa using hj2⟩

/-- C3. Global uniqueness of boundary names.  Let the builder have an empty
name table and the launch nodes of a well-formed graph, let the names of the
launch nodes be pairwise distinct, and let `FixupInOutBlobNames` return.  Then
the name table is injective: two argument names with the same rewritten name
are the same name.  Nothing is assumed about the characters of the launch
names. -/
theorem C3_name_table_injective (ext : Externals) (b b' : FoldSubgraphBuilder)
    (hwf : b.graph_.WellFormed) (hlaunch : b.launch_nodes_ = launchNodes b.graph_)
    (hempty : b.fixedup_names_ = [])
    (hnames : ∀ l1 ∈ b.launch_nodes_, ∀ l2 ∈ b.launch_nodes_,
      (b.graph_.node l1).name = (b.graph_.node l2).name → l1 = l2)
    (hrun : b.FixupInOutBlobNames ext = some b')
    (a1 a2 r : String) (h1 : MapFind b'.fixedup_names_ a1 = some r)
    (h2 : MapFind b'.fixedup_names_ a2 = some r) : a1 = a2 := by
  unfold FoldSubgraphBuilder.FixupInOutBlobNames at hrun
  have hnd : (launchOutEdges b.graph_ b.launch_nodes_).Nodup := by
    rw [hlaunch]
    exact launchOutEdges_nodup _ hwf
  obtain ⟨ht, _⟩ := nodeLoop_spec ext b.launch_nodes_ b b' hrun hnd
  rw [hempty, List.nil_append] at ht
  rw [ht] at h1 h2
  obtain ⟨l1, hl1, j1, hj1, hr1⟩ := mem_expectedTable_elim _ _ _ _ (MapFind_mem _ _ _ h1)
  obtain ⟨l2, hl2, j2, hj2, hr2⟩ := mem_expectedTable_elim _ _ _ _ (MapFind_mem _ _ _ h2)
  obtain ⟨e1, e2⟩ := boundary_name_inj _ _ _ _ (hr1.symm.trans hr2)
  have hl := hnames l1 hl1 l2 hl2 e1
  subst hl e2
  rw [hj1] at hj2
  exact Option.some.inj hj2

/-- C3 at the demonstration graph, whose launch nodes are `A` and `B`. -/
theorem C3_name_table_injective_witness :
    MapFind demoFixed.fixedup_names_ "a2/w" = some "A/out_1" ∧ "a2/w" = "a2/w" :=
  ⟨by decide,
   C3_name_table_injective demoExt demoBuilder demoFixed (by decide) (by decide) (by decide)
    (by decide) (by decide) "a2/w" "a2/w" "A/out_1" (by decide) (by decide)⟩

/-! ## `BuildXrtLaunchOps` -/

theorem inStep_frame (g : XrtGraph) (conf : XrtLaunchOpConf) (eid : Nat) :
    (AddInOutBlobNames.inStep g conf eid).out = conf.out ∧
    (AddInOutBlobNames.inStep g conf eid).model_update = conf.model_update := by
  unfold AddInOutBlobNames.inStep
  cases g.edges[eid]? with
  | none => exact ⟨rfl, rfl⟩
  | some edge =>
    simp only
    split <;> exact ⟨rfl, rfl⟩

theorem inLoop_frame (g : XrtGraph) (es : List Nat) (conf : XrtLaunchOpConf) :
    (es.foldl (AddInOutBlobNames.inStep g) conf).out = conf.out ∧
    (es.foldl (AddInOutBlobNames.inStep g) conf).model_update = conf.model_update := by
  induction es generalizing conf with
  | nil => exact ⟨rfl, rfl⟩
  | cons e rest ih =>
    simp only [List.foldl_cons]
    obtain ⟨h1, h2⟩ := ih (AddInOutBlobNames.inStep g conf e)
    obtain ⟨h3, h4⟩ := inStep_frame g conf e
    exact ⟨h1.trans h3, h2.trans h4⟩

theorem outStep_frame (g : XrtGraph) (conf conf' : XrtLaunchOpConf) (eid : Nat)
    (h : AddInOutBlobNames.outStep g conf eid = some conf') :
    conf'.in_ = conf.in_ ∧ conf'.model_update = conf.model_update := by
  unfold AddInOutBlobNames.outStep at h
  cases hedge : g.edges[eid]? with
  | none =>
    simp only [hedge, Option.some.injEq] at h
    subst h
    exact ⟨rfl, rfl⟩
  | some edge =>
    simp only [hedge] at h
    split at h
    · split at h
      · simp only [Option.some.injEq] at h
        subst h
        exact ⟨rfl, rfl⟩
      · exact absurd h (by simp)
    · simp only [Option.some.injEq] at h
      subst h
      exact ⟨rfl, rfl⟩

theorem outLoop_frame (g : XrtGraph) (es : List Nat) :
    ∀ (conf conf' : XrtLaunchOpConf),
      es.foldlM (AddInOutBlobNames.outStep g) conf = some conf' →
      conf'.in_ = conf.in_ ∧ conf'.model_update = conf.model_update := by
  induction es with
  | nil =>
    intro conf conf' h
    simp only [List.foldlM_nil, Option.pure_def, Option.some.injEq] at h
    subst h
    exact ⟨rfl, rfl⟩
  | cons e rest ih =>
    intro conf conf' h
    simp only [List.foldlM_cons, Option.bind_eq_bind] at h
    cases hstep : AddInOutBlobNames.outStep g conf e with
    | none => simp [hstep] at h
    | some mid =>
      rw [hstep] at h
      obtain ⟨h1, h2⟩ := ih mid conf' h
      obtain ⟨h3, h4⟩ := outStep_frame g conf mid e hstep
      exact ⟨h1.trans h3, h2.trans h4⟩

theorem argStep_frame (b : FoldSubgraphBuilder) (mutability : List String)
    (conf : XrtLaunchOpConf) (arg_proto : LaunchArgument) :
    (BuildXrtLaunchOps.argStep b mutability conf arg_proto).in_ = conf.in_ ∧
    (BuildXrtLaunchOps.argStep b mutability conf arg_proto).out = conf.out ∧
    (BuildXrtLaunchOps.argStep b mutability conf arg_proto).function = conf.function ∧
    (BuildXrtLaunchOps.argStep b mutability conf arg_proto).model_update =
      conf.model_update := by
  unfold BuildXrtLaunchOps.argStep
  simp only
  split <;> split <;> exact ⟨rfl, rfl, rfl, rfl⟩

theorem argLoop_frame (b : FoldSubgraphBuilder) (mutability : List String)
    (args : List LaunchArgument) (conf : XrtLaunchOpConf) :
    (args.foldl (BuildXrtLaunchOps.argStep b mutability) conf).in_ = conf.in_ ∧
    (args.foldl (BuildXrtLaunchOps.argStep b mutability) conf).out = conf.out ∧
    (args.foldl (BuildXrtLaunchOps.argStep b mutability) conf).function = conf.function ∧
    (args.foldl (BuildXrtLaunchOps.argStep b mutability) conf).model_update =
      conf.model_update := by
  induction args generalizing conf with
  | nil => exact ⟨rfl, rfl, rfl, rfl⟩
  | cons a rest ih =>
    simp only [List.foldl_cons]
    obtain ⟨h1, h2, h3, h4⟩ := ih (BuildXrtLaunchOps.argStep b mutability conf a)
    obtain ⟨h5, h6, h7, h8⟩ := argStep_frame b mutability conf a
    exact ⟨h1.trans h5, h2.trans h6, h3.trans h7, h4.trans h8⟩

/-- The fused operation built for the `i`-th launch node: its name, its empty
control-predecessor list, the name lists `AddInOutBlobNames` produced, and its
model-update flag. -/
theorem opConf_spec (ext : Externals) (b : FoldSubgraphBuilder) (i : Nat) (op : OperatorConf)
    (h : BuildXrtLaunchOps.opConf ext b i = some op) :
    op.name = (b.graph_.node (b.launch_nodes_.getD i 0)).name ∧
    op.ctrl_in_op_name = [] ∧
    ∃ conf conf0, op.op_type = OpTypeCase.kXrtLaunchConf conf ∧
      AddInOutBlobNames b.graph_ (b.graph_.node (b.launch_nodes_.getD i 0)) default =
        some conf0 ∧
      conf.in_ = conf0.in_ ∧ conf.out = conf0.out ∧
      (conf.model_update = true ↔
        (b.launch_nodes_.getD i 0 ∈ b.after_allreduce_nodes_ ∧
          (b.graph_.node (b.launch_nodes_.getD i 0)).out_edges = [])) := by
  unfold BuildXrtLaunchOps.opConf at h
  generalize b.launch_nodes_.getD i 0 = nid at h ⊢
  cases hsub : (b.graph_.node nid).sub_graph with
  | none => simp [hsub] at h
  | some sub_graph =>
    cases hconf0 : AddInOutBlobNames b.graph_ (b.graph_.node nid) default with
    | none => simp [hsub, hconf0] at h
    | some conf0 =>
      simp only [hsub, hconf0, Option.some_bind, Option.map_eq_some'] at h
      obtain ⟨built, _, hop⟩ := h
      have hmu0 : conf0.model_update = false := by
        unfold AddInOutBlobNames at hconf0
        have h1 := (outLoop_frame _ _ _ _ hconf0).2
        have h2 := (inLoop_frame b.graph_ (b.graph_.node nid).in_edges default).2
        rw [h1, h2]
        rfl
      obtain ⟨f1, f2, _, f4⟩ := argLoop_frame b built.1 built.2.argument
        { conf0 with function := built.2 }
      subst hop
      refine ⟨rfl, rfl, _, conf0, rfl, rfl, ?_, ?_, ?_⟩
      · split
        · exact f1
        · exact f1
      · split
        · exact f2
        · exact f2
      · by_cases hc : b.IsAfterAllReduce nid = true ∧
            (b.graph_.node nid).out_edges.length = 0
        · rw [if_pos hc]
          simp only [true_iff]
          exact ⟨by simpa [FoldSubgraphBuilder.IsAfterAllReduce] using hc.1,
            List.length_eq_zero.1 hc.2⟩
        · rw [if_neg hc]
          have hf := f4.trans hmu0
          constructor
          · intro hm
            rw [hf] at hm
            exact absurd hm (by simp)
          · intro hcon
            exact absurd ⟨by simpa [FoldSubgraphBuilder.IsAfterAllReduce] using hcon.1,
              by simp [hcon.2]⟩ hc

theorem argStep_congr (b1 b2 : FoldSubgraphBuilder)
    (hf : b1.fixedup_names_ = b2.fixedup_names_)
    (hb : b1.builder_.batch_axis = b2.builder_.batch_axis) :
    BuildXrtLaunchOps.argStep b1 = BuildXrtLaunchOps.argStep b2 := by
  funext mutability conf arg_proto
  unfold BuildXrtLaunchOps.argStep JobBuilder.BatchAxis4Lbn
  rw [hf, hb]

theorem opConf_congr (ext : Externals) (b1 b2 : FoldSubgraphBuilder) (i : Nat)
    (hg : b1.graph_ = b2.graph_) (hl : b1.launch_nodes_ = b2.launch_nodes_)
    (ha : b1.after_allreduce_nodes_ = b2.after_allreduce_nodes_)
    (hf : b1.fixedup_names_ = b2.fixedup_names_)
    (hb : b1.builder_.batch_axis = b2.builder_.batch_axis) :
    BuildXrtLaunchOps.opConf ext b1 i = BuildXrtLaunchOps.opConf ext b2 i := by
  unfold BuildXrtLaunchOps.opConf FoldSubgraphBuilder.IsAfterAllReduce
  rw [hg, hl, ha, argStep_congr b1 b2 hf hb]

theorem buildStep_spec (ext : Externals) (b b' : FoldSubgraphBuilder) (i : Nat)
    (h : BuildXrtLaunchOps.step ext b i = some b') :
    ∃ op parallel_conf, BuildXrtLaunchOps.opConf ext b i = some op ∧
      b' = { b with builder_ := JobBuilder.AddOps b.builder_ parallel_conf [op] } := by
  unfold BuildXrtLaunchOps.step at h
  cases hop : BuildXrtLaunchOps.opConf ext b i with
  | none => simp [hop] at h
  | some op =>
    simp only [hop, Option.some_bind] at h
    split at h
    · exact absurd h (by simp)
    · simp only [Option.map_eq_some'] at h
      obtain ⟨pc, _, hb⟩ := h
      exact ⟨op, pc, rfl, hb.symm⟩

/-- The loop of `BuildXrtLaunchOps`: nothing but the job changes, the tables of
the job other than the placement stay, and the operation list grows by the
fused operations of the launch nodes, in order. -/
theorem buildLoop_spec (ext : Externals) (is : List Nat) :
    ∀ (b b' : FoldSubgraphBuilder),
      is.foldlM (BuildXrtLaunchOps.step ext) b = some b' →
      b'.graph_ = b.graph_ ∧ b'.launch_nodes_ = b.launch_nodes_ ∧
      b'.folded_nodes_ = b.folded_nodes_ ∧
      b'.after_allreduce_nodes_ = b.after_allreduce_nodes_ ∧
      b'.fixedup_names_ = b.fixedup_names_ ∧
      b'.builder_.batch_axis = b.builder_.batch_axis ∧
      b'.builder_.time_shape = b.builder_.time_shape ∧
      b'.builder_.sbp_signature = b.builder_.sbp_signature ∧
      ∃ ops, List.Forall₂ (fun i op => BuildXrtLaunchOps.opConf ext b i = some op) is ops ∧
        b'.builder_.op = b.builder_.op ++ ops := by
  induction is with
  | nil =>
    intro b b' h
    simp only [List.foldlM_nil, Option.pure_def, Option.some.injEq] at h
    subst h
    exact ⟨rfl, rfl, rfl, rfl, rfl, rfl, rfl, rfl, [], List.Forall₂.nil, by simp⟩
  | cons i rest ih =>
    intro b b' h
    simp only [List.foldlM_cons, Option.bind_eq_bind] at h
    cases hstep : BuildXrtLaunchOps.step ext b i with
    | none => simp [hstep] at h
    | some b1 =>
      rw [hstep] at h
      simp only [Option.some_bind] at h
      obtain ⟨op, pc, hop, hb1⟩ := buildStep_spec ext b b1 i hstep
      obtain ⟨i1, i2, i3, i4, i5, i6, i7, i8, ops, hall, hops⟩ := ih b1 b' h
      have g1 : b1.graph_ = b.graph_ := by rw [hb1]
      have g2 : b1.launch_nodes_ = b.launch_nodes_ := by rw [hb1]
      have g3 : b1.folded_nodes_ = b.folded_nodes_ := by rw [hb1]
      have g4 : b1.after_allreduce_nodes_ = b.after_allreduce_nodes_ := by rw [hb1]
      have g5 : b1.fixedup_names_ = b.fixedup_names_ := by rw [hb1]
      have g6 : b1.builder_.batch_axis = b.builder_.batch_axis := by rw [hb1]; rfl
      have g7 : b1.builder_.time_shape = b.builder_.time_shape := by rw [hb1]; rfl
      have g8 : b1.builder_.sbp_signature = b.builder_.sbp_signature := by rw [hb1]; rfl
      have g9 : b1.builder_.op = b.builder_.op ++ [op] := by rw [hb1]; rfl
      refine ⟨i1.trans g1, i2.trans g2, i3.trans g3, i4.trans g4, i5.trans g5, i6.trans g6,
        i7.trans g7, i8.trans g8, op :: ops, ?_, ?_⟩
      · refine List.Forall₂.cons hop ?_
        refine List.Forall₂.imp ?_ hall
        intro j o hj
        rw [← opConf_congr ext b1 b j g1 g2 g4 g5 g6]
        exact hj
      · rw [hops, g9]
        simp

theorem forall2_range_get {α : Type} (P : Nat → α → Prop) (n : Nat) (l : List α)
    (h : List.Forall₂ P (List.range n) l) (i : Nat) (hi : i < n) :
    ∃ x, l[i]? = some x ∧ P i x := by
  have hlen : (List.range n).length = l.length := h.length_eq
  rw [List.length_range] at hlen
  have hil : i < l.length := by omega
  refine ⟨l[i], List.getElem?_eq_getElem hil, ?_⟩
  have := List.Forall₂.get h (by simpa using hi) hil
  simpa using this

/-- The fused operation `BuildXrtLaunchOps` adds for the `i`-th launch node
is the `i`-th operation after the ones the job had. -/
theorem buildXrtLaunchOps_get (ext : Externals) (b b' : FoldSubgraphBuilder)
    (h : b.BuildXrtLaunchOps ext = some b') (i : Nat) (hi : i < b.launch_nodes_.length) :
    ∃ op, b'.builder_.op[b.builder_.op.length + i]? = some op ∧
      BuildXrtLaunchOps.opConf ext b i = some op := by
  unfold FoldSubgraphBuilder.BuildXrtLaunchOps at h
  obtain ⟨_, _, _, _, _, _, _, _, ops, hall, hops⟩ := buildLoop_spec ext _ b b' h
  obtain ⟨op, hget, hop⟩ := forall2_range_get _ _ _ hall i hi
  refine ⟨op, ?_, hop⟩
  rw [hops, List.getElem?_append_right (by omega)]
  simpa using hget

/-- C9, as amended. `BuildXrtLaunchOps` sets `model_update` on the fused
operation of the `i`-th launch node `L` if and only if `L` is tagged
after-all-reduce and `L` has no out-edge at all, control edges included. -/
theorem C9_model_update_flag (ext : Externals) (b b' : FoldSubgraphBuilder)
    (h : b.BuildXrtLaunchOps ext = some b') (i : Nat) (hi : i < b.launch_nodes_.length) :
    ∃ op conf, b'.builder_.op[b.builder_.op.length + i]? = some op ∧
      op.name = (b.graph_.node (b.launch_nodes_.getD i 0)).name ∧
      op.op_type = OpTypeCase.kXrtLaunchConf conf ∧
      (conf.model_update = true ↔
        (b.launch_nodes_.getD i 0 ∈ b.after_allreduce_nodes_ ∧
          (b.graph_.node (b.launch_nodes_.getD i 0)).out_edges = [])) := by
  obtain ⟨op, hget, hop⟩ := buildXrtLaunchOps_get ext b b' h i hi
  obtain ⟨h1, _, conf, _, h3, _, _, _, h7⟩ := opConf_spec ext b i op hop
  exact ⟨op, conf, hget, h1, h3, h7⟩

/-- C9 at the graph `demoReduceGraph`: the cluster `U`, downstream of the
`ReduceSplit` node and without out-edges, gets the flag. -/
theorem C9_model_update_flag_witness :
    ((demoReduceBuilt.builder_.op[4]?).bind OperatorConf.launchConf).map
        XrtLaunchOpConf.model_update = some true ∧
    ∃ op conf, demoReduceBuilt.builder_.op[demoReduceFixed.builder_.op.length + 0]? = some op ∧
      op.name = (demoReduceFixed.graph_.node (demoReduceFixed.launch_nodes_.getD 0 0)).name ∧
      op.op_type = OpTypeCase.kXrtLaunchConf conf ∧
      (conf.model_update = true ↔
        (demoReduceFixed.launch_nodes_.getD 0 0 ∈ demoReduceFixed.after_allreduce_nodes_ ∧
          (demoReduceFixed.graph_.node (demoReduceFixed.launch_nodes_.getD 0 0)).out_edges
            = [])) :=
  ⟨by decide, C9_model_update_flag demoExt demoReduceFixed demoReduceBuilt (by decide) 0
    (by decide)⟩

/-- C9 as stated fails: on `demoReduceGraph` the pass completes, the cluster `V`
(node 2) is tagged after-all-reduce and has no data out-edge, its only
out-edge being a control edge, and yet its fused operation does not get the
model-update flag. -/
theorem C9_counterexample :
    (RebuildCompiledJobPass.Run demoExt demoReduceGraph demoReduceJob).map
        (fun b => decide (2 ∈ b.after_allreduce_nodes_)) = some true ∧
    dataArgNames demoReduceGraph (demoReduceGraph.node 2).out_edges = [] ∧
    (demoReduceGraph.node 2).out_edges = [2] ∧
    ((RebuildCompiledJobPass.Run demoExt demoReduceGraph demoReduceJob).bind fun b =>
        ((JobBuilder.OpConf4OpName b.builder_ "V").bind OperatorConf.launchConf).map
          XrtLaunchOpConf.model_update) = some false := by
  decide

theorem inferEdgeLoop_spec (n : Nat) (es : List Nat) :
    ∀ (b : FoldSubgraphBuilder),
      (es.foldl (InferIsAfterAllReduce.edgeStep n) b).graph_ = b.graph_ ∧
      ∀ x, x ∈ (es.foldl (InferIsAfterAllReduce.edgeStep n) b).after_allreduce_nodes_ ↔
        x ∈ b.after_allreduce_nodes_ ∨
          (x = n ∧ ∃ s ∈ es.filterMap (fun e => (b.graph_.edges[e]?).map XrtEdge.start),
            tagSource b.graph_ b.after_allreduce_nodes_ s) := by
  induction es with
  | nil => intro b; simp
  | cons e rest ih =>
    intro b
    simp only [List.foldl_cons]
    obtain ⟨ihg, iht⟩ := ih (InferIsAfterAllReduce.edgeStep n b e)
    have hstep : (InferIsAfterAllReduce.edgeStep n b e).graph_ = b.graph_ ∧
        ∀ x, x ∈ (InferIsAfterAllReduce.edgeStep n b e).after_allreduce_nodes_ ↔
          x ∈ b.after_allreduce_nodes_ ∨
            (x = n ∧ ∃ s ∈ ((b.graph_.edges[e]?).map XrtEdge.start).toList,
              tagSource b.graph_ b.after_allreduce_nodes_ s) := by
      unfold InferIsAfterAllReduce.edgeStep
      cases hedge : b.graph_.edges[e]? with
      | none => simp
      | some edge =>
        simp only [Option.map_some', Option.toList_some, List.mem_singleton, exists_eq_left]
        by_cases hc : b.IsAfterAllReduce edge.start = true ∨
            (b.graph_.node edge.start).type = _ReduceSplitType
        · have hts : tagSource b.graph_ b.after_allreduce_nodes_ edge.start := by
            simpa [tagSource, FoldSubgraphBuilder.IsAfterAllReduce] using hc
          rw [if_pos hc]
          refine ⟨rfl, fun x => ?_⟩
          by_cases hn : n ∈ b.after_allreduce_nodes_
          · simp only [hn, if_true]
            constructor
            · exact Or.inl
            · rintro (h | ⟨h, _⟩)
              · exact h
              · exact h ▸ hn
          · simp only [hn, if_false, List.mem_append, List.mem_singleton]
            constructor
            · rintro (h | h)
              · exact Or.inl h
              · exact Or.inr ⟨h, hts⟩
            · rintro (h | ⟨h, _⟩)
              · exact Or.inl h
              · exact Or.inr h
        · have hts : ¬ tagSource b.graph_ b.after_allreduce_nodes_ edge.start := by
            simpa [tagSource, FoldSubgraphBuilder.IsAfterAllReduce] using hc
          rw [if_neg hc]
          refine ⟨rfl, fun x => ?_⟩
          simp [hts]
    obtain ⟨hsg, hst⟩ := hstep
    refine ⟨ihg.trans hsg, fun x => ?_⟩
    rw [iht x, hsg]
    have hmono : ∀ s, tagSource b.graph_ b.after_allreduce_nodes_ s →
        tagSource b.graph_ (InferIsAfterAllReduce.edgeStep n b e).after_allreduce_nodes_ s := by
      intro s hs
      rcases hs with h | h
      · exact Or.inl ((hst s).2 (Or.inl h))
      · exact Or.inr h
    constructor
    · rintro (h | ⟨hx, s, hs, hts⟩)
      · rcases (hst x).1 h with h1 | ⟨h1, s, hs, hts⟩
        · exact Or.inl h1
        · refine Or.inr ⟨h1, s, ?_, hts⟩
          rw [List.filterMap_cons]
          cases hedge : b.graph_.edges[e]? with
          | none => simp [hedge] at hs
          | some edge =>
            simp only [hedge, Option.map_some', Option.toList_some, List.mem_singleton] at hs
            simp [hs]
      · rcases hts with h1 | h1
        · rcases (hst s).1 h1 with h2 | ⟨_, s', hs', hts'⟩
          · refine Or.inr ⟨hx, s, ?_, Or.inl h2⟩
            rw [List.filterMap_cons]
            cases (b.graph_.edges[e]?).map XrtEdge.start with
            | none => exact hs
            | some _ => exact List.mem_cons_of_mem _ hs
          · refine Or.inr ⟨hx, s', ?_, hts'⟩
            rw [List.filterMap_cons]
            cases hedge : b.graph_.edges[e]? with
            | none => simp [hedge] at hs'
            | some edge =>
              simp only [hedge, Option.map_some', Option.toList_some, List.mem_singleton] at hs'
              simp [hs']
        · refine Or.inr ⟨hx, s, ?_, Or.inr h1⟩
          rw [List.filterMap_cons]
          cases (b.graph_.edges[e]?).map XrtEdge.start with
          | none => exact hs
          | some _ => exact List.mem_cons_of_mem _ hs
    · rintro (h | ⟨hx, s, hs, hts⟩)
      · exact Or.inl ((hst x).2 (Or.inl h))
      · rw [List.filterMap_cons] at hs
        cases hedge : b.graph_.edges[e]? with
        | none =>
          simp only [hedge, Option.map_none'] at hs
          exact Or.inr ⟨hx, s, hs, hmono s hts⟩
        | some edge =>
          simp only [hedge, Option.map_some', List.mem_cons] at hs
          rcases hs with h1 | h1
          · refine Or.inl ((hst x).2 (Or.inr ⟨hx, s, ?_, hts⟩))
            simp [hedge, h1]
          · exact Or.inr ⟨hx, s, h1, hmono s hts⟩

/-- One call of the callback: the graph is untouched, and the node becomes
tagged exactly when one of its predecessors is a tag source; other tags stay. -/
theorem inferVisit_spec (b : FoldSubgraphBuilder) (n : Nat) :
    (InferIsAfterAllReduce.visit b n).graph_ = b.graph_ ∧
    ∀ x, x ∈ (InferIsAfterAllReduce.visit b n).after_allreduce_nodes_ ↔
      x ∈ b.after_allreduce_nodes_ ∨
        (x = n ∧ ∃ s ∈ b.graph_.predecessors n,
          tagSource b.graph_ b.after_allreduce_nodes_ s) := by
  unfold InferIsAfterAllReduce.visit
  exact inferEdgeLoop_spec n (b.graph_.node n).in_edges b

theorem tagInv_step (b : FoldSubgraphBuilder) (pre : List Nat) (n : Nat)
    (hinv : TagInv b.graph_ pre b.after_allreduce_nodes_) (hn : n ∉ pre)
    (hpred : ∀ s ∈ b.graph_.predecessors n, s ∈ pre) :
    TagInv b.graph_ (pre ++ [n]) (InferIsAfterAllReduce.visit b n).after_allreduce_nodes_ := by
  obtain ⟨ha, hb, hc, hd⟩ := hinv
  obtain ⟨_, hv⟩ := inferVisit_spec b n
  have hnT : n ∉ b.after_allreduce_nodes_ := fun h => hn (ha n h)
  have hsrc : ∀ s, s ∈ pre →
      (tagSource b.graph_ (InferIsAfterAllReduce.visit b n).after_allreduce_nodes_ s ↔
        tagSource b.graph_ b.after_allreduce_nodes_ s) := by
    intro s hs
    unfold tagSource
    rw [hv s]
    constructor
    · rintro ((h | ⟨h, _⟩) | h)
      · exact Or.inl h
      · exact absurd (h ▸ hs) hn
      · exact Or.inr h
    · rintro (h | h)
      · exact Or.inl (Or.inl h)
      · exact Or.inr h
  refine ⟨?_, ?_, ?_, ?_⟩
  · intro x hx
    rcases (hv x).1 hx with h | ⟨h, _⟩
    · exact List.mem_append_left _ (ha x h)
    · simp [h]
  · intro x hx
    rcases List.mem_append.1 hx with hxp | hxn
    · have hxne : x ≠ n := fun h => hn (h ▸ hxp)
      rw [hv x]
      constructor
      · rintro (h | ⟨h, _⟩)
        · obtain ⟨s, hs, hts⟩ := (hb x hxp).1 h
          exact ⟨s, hs, (hsrc s (hc x hxp s hs)).2 hts⟩
        · exact absurd h hxne
      · rintro ⟨s, hs, hts⟩
        exact Or.inl ((hb x hxp).2 ⟨s, hs, (hsrc s (hc x hxp s hs)).1 hts⟩)
    · simp only [List.mem_singleton] at hxn
      subst hxn
      rw [hv x]
      constructor
      · rintro (h | ⟨_, s, hs, hts⟩)
        · exact absurd h hnT
        · exact ⟨s, hs, (hsrc s (hpred s hs)).2 hts⟩
      · rintro ⟨s, hs, hts⟩
        exact Or.inr ⟨rfl, s, hs, (hsrc s (hpred s hs)).1 hts⟩
  · intro x hx s hs
    rcases List.mem_append.1 hx with hxp | hxn
    · exact List.mem_append_left _ (hc x hxp s hs)
    · simp only [List.mem_singleton] at hxn
      subst hxn
      exact List.mem_append_left _ (hpred s hs)
  · intro x hx
    rcases (hv x).1 hx with h | ⟨h, s, hs, hts⟩
    · exact hd x h
    · subst h
      rcases hts with h1 | h1
      · obtain ⟨r, hr, hpath⟩ := hd s h1
        exact ⟨r, hr, Relation.TransGen.tail hpath hs⟩
      · exact ⟨s, h1, Relation.TransGen.single hs⟩

theorem inferLoop_spec (rest : List Nat) :
    ∀ (pre : List Nat) (b : FoldSubgraphBuilder),
      TagInv b.graph_ pre b.after_allreduce_nodes_ → (pre ++ rest).Nodup →
      (∀ i, i < rest.length → ∀ s ∈ b.graph_.predecessors (rest.getD i 0),
        s ∈ pre ++ rest.take i) →
      (rest.foldl InferIsAfterAllReduce.visit b).graph_ = b.graph_ ∧
      TagInv b.graph_ (pre ++ rest)
        (rest.foldl InferIsAfterAllReduce.visit b).after_allreduce_nodes_ := by
  induction rest with
  | nil =>
    intro pre b hinv _ _
    simpa using hinv
  | cons n rest ih =>
    intro pre b hinv hnd htopo
    simp only [List.foldl_cons]
    have hg := (inferVisit_spec b n).1
    have hn : n ∉ pre := by
      intro h
      have := List.nodup_append.1 hnd
      exact this.2.2 h (List.mem_cons_self _ _)
    have hpred : ∀ s ∈ b.graph_.predecessors n, s ∈ pre := by
      intro s hs
      have := htopo 0 (by simp) s (by simpa using hs)
      simpa using this
    have hinv' := tagInv_step b pre n hinv hn hpred
    rw [← hg] at hinv'
    have := ih (pre ++ [n]) (InferIsAfterAllReduce.visit b n) hinv'
      (by simpa using hnd)
      (by
        intro i hi s hs
        rw [hg] at hs
        have := htopo (i + 1) (by simpa using hi) s (by simpa using hs)
        simpa using this)
    rw [hg] at this
    simpa using this

/-- C10. After-all-reduce tagging is the stated fixed point.  Let no node be
tagged at the start and let the traversal visit every node once, predecessors
first.  After `InferIsAfterAllReduce` a node `n` is tagged if and only if some
in-edge of `n` starts at a node that is tagged or whose type is `ReduceSplit`;
and `n` is tagged if and only if some `ReduceSplit` node reaches `n` along a
path of at least one edge. -/
theorem C10_after_allreduce_fixed_point (ext : Externals) (b : FoldSubgraphBuilder)
    (hempty : b.after_allreduce_nodes_ = [])
    (htopo : IsTopologicalOrder b.graph_ (ext.TopologyVisit b.graph_)) (n : Nat) :
    (n ∈ (b.InferIsAfterAllReduce ext).after_allreduce_nodes_ ↔
      ∃ e ∈ (b.graph_.node n).in_edges, ∃ edge, b.graph_.edges[e]? = some edge ∧
        (edge.start ∈ (b.InferIsAfterAllReduce ext).after_allreduce_nodes_ ∨
          (b.graph_.node edge.start).type = _ReduceSplitType)) ∧
    (n ∈ (b.InferIsAfterAllReduce ext).after_allreduce_nodes_ ↔
      ∃ s, (b.graph_.node s).type = _ReduceSplitType ∧
        Relation.TransGen (fun u v => u ∈ b.graph_.predecessors v) s n) := by
  obtain ⟨hnd, hall, hord⟩ := htopo
  have hinv0 : TagInv b.graph_ [] b.after_allreduce_nodes_ := by
    rw [hempty]
    exact ⟨by simp, by simp, by simp, by simp⟩
  obtain ⟨_, ha, hb, hc, hd⟩ := inferLoop_spec (ext.TopologyVisit b.graph_) [] b hinv0
    (by simpa using hnd) (by simpa using hord)
  simp only [List.nil_append] at ha hb hc hd
  have hfix : ∀ m, m ∈ (b.InferIsAfterAllReduce ext).after_allreduce_nodes_ ↔
      ∃ s ∈ b.graph_.predecessors m,
        tagSource b.graph_ (b.InferIsAfterAllReduce ext).after_allreduce_nodes_ s := by
    intro m
    by_cases hm : m ∈ ext.TopologyVisit b.graph_
    · exact hb m hm
    · have hge : ¬ m < b.graph_.nodes.length := fun h => hm (hall m h)
      have hnode : b.graph_.node m = default := by
        unfold XrtGraph.node
        rw [List.getD_eq_default _ _ (by omega)]
      have hpred : b.graph_.predecessors m = [] := by
        unfold XrtGraph.predecessors
        rw [hnode]
        rfl
      constructor
      · intro h
        exact absurd (ha m h) hm
      · rintro ⟨s, hs, _⟩
        rw [hpred] at hs
        exact absurd hs (by simp)
  constructor
  · rw [hfix n]
    unfold XrtGraph.predecessors tagSource
    constructor
    · rintro ⟨s, hs, hts⟩
      obtain ⟨e, he, hes⟩ := List.mem_filterMap.1 hs
      cases hedge : b.graph_.edges[e]? with
      | none => simp [hedge] at hes
      | some edge =>
        simp only [hedge, Option.map_some', Option.some.injEq] at hes
        exact ⟨e, he, edge, hedge, hes ▸ hts⟩
    · rintro ⟨e, he, edge, hedge, hts⟩
      exact ⟨edge.start, List.mem_filterMap.2 ⟨e, he, by simp [hedge]⟩, hts⟩
  · constructor
    · exact hd n
    · rintro ⟨s, hs, hpath⟩
      induction hpath with
      | single h => exact (hfix _).2 ⟨s, h, Or.inr hs⟩
      | tail _ h ih => exact (hfix _).2 ⟨_, h, Or.inl ih⟩

/-- C10 at `demoReduceGraph`, visited in node order: the cluster `U` (node 1)
is tagged, and the two characterisations hold for it. -/
theorem C10_after_allreduce_fixed_point_witness :
    (demoReduceNew.InferIsAfterAllReduce demoExt).after_allreduce_nodes_ = [1, 2, 3] ∧
    ((1 ∈ (demoReduceNew.InferIsAfterAllReduce demoExt).after_allreduce_nodes_ ↔
      ∃ e ∈ (demoReduceNew.graph_.node 1).in_edges, ∃ edge,
        demoReduceNew.graph_.edges[e]? = some edge ∧
        (edge.start ∈ (demoReduceNew.InferIsAfterAllReduce demoExt).after_allreduce_nodes_ ∨
          (demoReduceNew.graph_.node edge.start).type = _ReduceSplitType)) ∧
    (1 ∈ (demoReduceNew.InferIsAfterAllReduce demoExt).after_allreduce_nodes_ ↔
      ∃ s, (demoReduceNew.graph_.node s).type = _ReduceSplitType ∧
        Relation.TransGen (fun u v => u ∈ demoReduceNew.graph_.predecessors v) s 1)) :=
  ⟨by decide,
   C10_after_allreduce_fixed_point demoExt demoReduceNew (by decide) (by decide) 1⟩

/-! ## What each stage leaves untouched -/

/-- Decomposition of a successful update of the first operation of a name. -/
theorem updateOp_eq_some (op_name : String) (f : OperatorConf → Option OperatorConf)
    (ops ops' : List OperatorConf) (h : updateOp op_name f ops = some ops') :
    ∃ pre conf conf' post, ops = pre ++ conf :: post ∧ (∀ x ∈ pre, x.name ≠ op_name) ∧
      conf.name = op_name ∧ f conf = some conf' ∧ ops' = pre ++ conf' :: post := by
  induction ops generalizing ops' with
  | nil => simp [updateOp] at h
  | cons c rest ih =>
    unfold updateOp at h
    by_cases hc : c.name = op_name
    · simp only [hc, if_true, Option.map_eq_some'] at h
      obtain ⟨c', hf, hops⟩ := h
      exact ⟨[], c, c', rest, rfl, by simp, hc, hf, by simp [hops]⟩
    · simp only [hc, if_false, Option.map_eq_some'] at h
      obtain ⟨rest', hrest, hops⟩ := h
      obtain ⟨pre, conf, conf', post, h1, h2, h3, h4, h5⟩ := ih rest' hrest
      refine ⟨c :: pre, conf, conf', post, by simp [h1], ?_, h3, h4, by simp [← hops, h5]⟩
      intro x hx
      rcases List.mem_cons.1 hx with hx | hx
      · exact hx ▸ hc
      · exact h2 x hx

theorem SetOpInputBlobName_keys (ext : Externals) (op op' : OperatorConf)
    (input blob_name fixed : String)
    (h : SetOpInputBlobName ext op input blob_name fixed = some op') :
    op'.name = op.name ∧ op'.ctrl_in_op_name = op.ctrl_in_op_name := by
  unfold SetOpInputBlobName at h
  split at h
  · dsimp only at h
    split at h
    · simp only [Option.some.injEq] at h
      subst h
      exact ⟨rfl, rfl⟩
    · exact absurd h (by simp)
  · simp only [Option.map_eq_some'] at h
    obtain ⟨t, _, ht⟩ := h
    subst ht
    exact ⟨rfl, rfl⟩

theorem rewireConsumer_frame (ext : Externals) (g : XrtGraph) (job job' : Job)
    (edge : XrtEdge) (fixed : String) (h : rewireConsumer ext g job edge fixed = some job') :
    opKeys job' = opKeys job ∧ job'.placement = job.placement ∧
    job'.time_shape = job.time_shape ∧ job'.sbp_signature = job.sbp_signature := by
  unfold rewireConsumer at h
  simp only at h
  have hj1 : ∀ j1 : Job, j1 = (match JobBuilder.BatchAxis4Lbn job edge.argument.name with
      | some axis => JobBuilder.AddBatchAxis4Lbn job fixed axis
      | none => job) →
      j1.op = job.op ∧ j1.placement = job.placement ∧
      j1.time_shape = job.time_shape ∧ j1.sbp_signature = job.sbp_signature := by
    intro j1 hj
    cases hax : JobBuilder.BatchAxis4Lbn job edge.argument.name with
    | none => rw [hax] at hj; subst hj; exact ⟨rfl, rfl, rfl, rfl⟩
    | some axis => rw [hax] at hj; subst hj; exact ⟨rfl, rfl, rfl, rfl⟩
  generalize hgen : (match JobBuilder.BatchAxis4Lbn job edge.argument.name with
      | some axis => JobBuilder.AddBatchAxis4Lbn job fixed axis
      | none => job) = j1 at h
  obtain ⟨k1, k2, k3, k4⟩ := hj1 j1 hgen.symm
  split at h
  · unfold JobBuilder.MutableOpConf4OpName at h
    simp only [Option.map_eq_some'] at h
    obtain ⟨ops, hup, hjob⟩ := h
    subst hjob
    obtain ⟨pre, conf, conf', post, e1, _, _, e4, e5⟩ := updateOp_eq_some _ _ _ _ hup
    obtain ⟨n1, n2⟩ := SetOpInputBlobName_keys ext conf conf' _ _ _ e4
    refine ⟨?_, k2, k3, k4⟩
    unfold opKeys
    simp only
    rw [e5, ← k1, e1]
    simp [n1, n2]
  · simp only [Option.some.injEq] at h
    subst h
    exact ⟨by unfold opKeys; rw [k1], k2, k3, k4⟩

theorem fixupFrame_refl (b : FoldSubgraphBuilder) : FixupFrame b b :=
  ⟨rfl, rfl, rfl, rfl, rfl, rfl, rfl, rfl⟩

theorem fixupFrame_trans {b1 b2 b3 : FoldSubgraphBuilder} (h12 : FixupFrame b1 b2)
    (h23 : FixupFrame b2 b3) : FixupFrame b1 b3 := by
  obtain ⟨a1, a2, a3, a4, a5, a6, a7, a8⟩ := h12
  obtain ⟨c1, c2, c3, c4, c5, c6, c7, c8⟩ := h23
  exact ⟨c1.trans a1, c2.trans a2, c3.trans a3, c4.trans a4, c5.trans a5, c6.trans a6,
    c7.trans a7, c8.trans a8⟩

theorem edgeStep_frame (ext : Externals) (launch : String) (b b' : FoldSubgraphBuilder)
    (seen seen' : List String) (eid : Nat)
    (h : FixupInOutBlobNames.edgeStep ext launch (b, seen) eid = some (b', seen')) :
    FixupFrame b b' := by
  rcases edgeStep_cases ext launch b b' seen seen' eid h with
    ⟨_, hb, _⟩ | ⟨edge, fixed, job, _, _, _, _, hjob, hb⟩
  · rw [hb]
    exact fixupFrame_refl b
  · obtain ⟨k1, k2, k3, k4⟩ := rewireConsumer_frame ext _ _ _ _ _ hjob
    rw [hb]
    exact ⟨rfl, rfl, rfl, rfl, k1, k2, k3, k4⟩

theorem edgeLoop_frame (ext : Externals) (launch : String) (es : List Nat) :
    ∀ (b b' : FoldSubgraphBuilder) (seen seen' : List String),
      es.foldlM (FixupInOutBlobNames.edgeStep ext launch) (b, seen) = some (b', seen') →
      FixupFrame b b' := by
  induction es with
  | nil =>
    intro b b' seen seen' h
    simp only [List.foldlM_nil, Option.pure_def, Option.some.injEq, Prod.mk.injEq] at h
    rw [← h.1]
    exact fixupFrame_refl b
  | cons e rest ih =>
    intro b b' seen seen' h
    simp only [List.foldlM_cons, Option.bind_eq_bind] at h
    cases hstep : FixupInOutBlobNames.edgeStep ext launch (b, seen) e with
    | none => simp [hstep] at h
    | some mid =>
      obtain ⟨b1, seen1⟩ := mid
      rw [hstep] at h
      exact fixupFrame_trans (edgeStep_frame ext launch b b1 seen seen1 e hstep) (ih b1 b' seen1 seen' h)

theorem fixupInOutBlobNames_frame (ext : Externals) (b b' : FoldSubgraphBuilder)
    (h : b.FixupInOutBlobNames ext = some b') : FixupFrame b b' := by
  unfold FoldSubgraphBuilder.FixupInOutBlobNames at h
  generalize b.launch_nodes_ = ls at h
  induction ls generalizing b with
  | nil =>
    simp only [List.foldlM_nil, Option.pure_def, Option.some.injEq] at h
    rw [← h]
    exact fixupFrame_refl b
  | cons l rest ih =>
    simp only [List.foldlM_cons, Option.bind_eq_bind] at h
    cases hstep : FixupInOutBlobNames.nodeStep ext b l with
    | none => simp [hstep] at h
    | some b1 =>
      rw [hstep] at h
      unfold FixupInOutBlobNames.nodeStep at hstep
      simp only [Option.map_eq_some'] at hstep
      obtain ⟨⟨b1', seen1⟩, hloop, hb1⟩ := hstep
      simp only at hb1
      subst hb1
      exact fixupFrame_trans (edgeLoop_frame ext _ _ b b1' [] seen1 hloop) (ih b1' h)

theorem inferEdgeStep_frame (n : Nat) (b : FoldSubgraphBuilder) (e : Nat) :
    (InferIsAfterAllReduce.edgeStep n b e).graph_ = b.graph_ ∧
    (InferIsAfterAllReduce.edgeStep n b e).builder_ = b.builder_ ∧
    (InferIsAfterAllReduce.edgeStep n b e).launch_nodes_ = b.launch_nodes_ ∧
    (InferIsAfterAllReduce.edgeStep n b e).folded_nodes_ = b.folded_nodes_ ∧
    (InferIsAfterAllReduce.edgeStep n b e).fixedup_names_ = b.fixedup_names_ := by
  unfold InferIsAfterAllReduce.edgeStep
  cases b.graph_.edges[e]? with
  | none => exact ⟨rfl, rfl, rfl, rfl, rfl⟩
  | some edge =>
    simp only
    split <;> exact ⟨rfl, rfl, rfl, rfl, rfl⟩

theorem inferVisit_frame (n : Nat) (b : FoldSubgraphBuilder) :
    (InferIsAfterAllReduce.visit b n).graph_ = b.graph_ ∧
    (InferIsAfterAllReduce.visit b n).builder_ = b.builder_ ∧
    (InferIsAfterAllReduce.visit b n).launch_nodes_ = b.launch_nodes_ ∧
    (InferIsAfterAllReduce.visit b n).folded_nodes_ = b.folded_nodes_ ∧
    (InferIsAfterAllReduce.visit b n).fixedup_names_ = b.fixedup_names_ := by
  unfold InferIsAfterAllReduce.visit
  generalize (b.graph_.node n).in_edges = es
  induction es generalizing b with
  | nil => exact ⟨rfl, rfl, rfl, rfl, rfl⟩
  | cons e more ihe =>
    simp only [List.foldl_cons]
    obtain ⟨j1, j2, j3, j4, j5⟩ := ihe (InferIsAfterAllReduce.edgeStep n b e)
    obtain ⟨k1, k2, k3, k4, k5⟩ := inferEdgeStep_frame n b e
    exact ⟨j1.trans k1, j2.trans k2, j3.trans k3, j4.trans k4, j5.trans k5⟩

/-- `InferIsAfterAllReduce` changes the set of tagged nodes only. -/
theorem inferIsAfterAllReduce_frame (ext : Externals) (b : FoldSubgraphBuilder) :
    (b.InferIsAfterAllReduce ext).graph_ = b.graph_ ∧
    (b.InferIsAfterAllReduce ext).builder_ = b.builder_ ∧
    (b.InferIsAfterAllReduce ext).launch_nodes_ = b.launch_nodes_ ∧
    (b.InferIsAfterAllReduce ext).folded_nodes_ = b.folded_nodes_ ∧
    (b.InferIsAfterAllReduce ext).fixedup_names_ = b.fixedup_names_ := by
  unfold FoldSubgraphBuilder.InferIsAfterAllReduce
  generalize ext.TopologyVisit b.graph_ = order
  induction order generalizing b with
  | nil => exact ⟨rfl, rfl, rfl, rfl, rfl⟩
  | cons n rest ih =>
    simp only [List.foldl_cons]
    obtain ⟨i1, i2, i3, i4, i5⟩ := ih (InferIsAfterAllReduce.visit b n)
    obtain ⟨v1, v2, v3, v4, v5⟩ := inferVisit_frame n b
    exact ⟨i1.trans v1, i2.trans v2, i3.trans v3, i4.trans v4, i5.trans v5⟩

theorem AddControlInOpName_eq (g : XrtGraph) (m : List (String × Nat)) (conf : OperatorConf)
    (op_name : String) :
    AddControlInOpName g m conf op_name =
      if conf.name ≠ rewrittenName g m op_name then
        { conf with
          ctrl_in_op_name := SetInsert conf.ctrl_in_op_name (rewrittenName g m op_name) }
      else conf := rfl

theorem foldl_SetInsert_eq (l : List String) :
    ∀ s : List String,
      l.foldl SetInsert s = s ++ (dedupFirst l).filter (fun x => decide (x ∉ s)) := by
  induction l with
  | nil => intro s; simp [dedupFirst]
  | cons a r ih =>
    intro s
    simp only [List.foldl_cons, dedupFirst, ih]
    by_cases ha : a ∈ s
    · have h1 : SetInsert s a = s := by simp [SetInsert, ha]
      rw [h1, List.filter_cons]
      simp only [ha, not_true_eq_false, decide_False, Bool.false_eq_true, if_false,
        List.filter_filter]
      congr 1
      apply List.filter_congr
      intro x _
      by_cases hx : x ∈ s
      · simp [hx]
      · have : x ≠ a := fun h => hx (h ▸ ha)
        simp [hx, this]
    · have h1 : SetInsert s a = s ++ [a] := by simp [SetInsert, ha]
      rw [h1, List.filter_cons]
      simp only [ha, not_false_eq_true, decide_True, if_true, List.filter_filter,
        List.append_assoc, List.singleton_append]
      congr 2
      apply List.filter_congr
      intro x _
      by_cases hx : x ∈ s <;> by_cases hxa : x = a <;> simp [hx, hxa]

theorem foldl_SetInsert_nil (l : List String) : l.foldl SetInsert [] = dedupFirst l := by
  rw [foldl_SetInsert_eq]
  simp

theorem dedupFirst_filter (p : String → Bool) (l : List String) :
    dedupFirst (l.filter p) = (dedupFirst l).filter p := by
  induction l with
  | nil => rfl
  | cons a r ih =>
    by_cases hp : p a = true
    · simp only [List.filter_cons, hp, if_true, dedupFirst, ih, List.filter_filter]
      congr 1
      apply List.filter_congr
      intro x _
      exact Bool.and_comm _ _
    · simp only [List.filter_cons, hp, if_false, dedupFirst, ih, List.filter_filter,
        Bool.false_eq_true]
      apply List.filter_congr
      intro x _
      by_cases hx : x = a
      · subst hx
        simp [hp]
      · simp [hx]

theorem dedupFirst_mem (l : List String) (x : String) : x ∈ dedupFirst l ↔ x ∈ l := by
  rw [← foldl_SetInsert_nil, foldl_SetInsert_mem]
  simp

theorem dedupFirst_nodup (l : List String) : (dedupFirst l).Nodup := by
  rw [← foldl_SetInsert_nil]
  exact foldl_SetInsert_nodup l [] List.nodup_nil

theorem dedupFirst_sublist (l : List String) : (dedupFirst l).Sublist l := by
  induction l with
  | nil => exact List.Sublist.slnil
  | cons a r ih =>
    unfold dedupFirst
    exact List.Sublist.cons₂ a ((List.filter_sublist _).trans ih)

/-- The effect of adding a list of names with `AddControlInOpName`: only the
control-predecessor list changes, and it grows by the rewritten names other
than the operation's own, without duplicates. -/
theorem addLoop_spec (g : XrtGraph) (m : List (String × Nat)) (names : List String) :
    ∀ conf : OperatorConf,
      (names.foldl (AddControlInOpName g m) conf).name = conf.name ∧
      (names.foldl (AddControlInOpName g m) conf).device_type = conf.device_type ∧
      (names.foldl (AddControlInOpName g m) conf).op_type = conf.op_type ∧
      (names.foldl (AddControlInOpName g m) conf).ctrl_in_op_name =
        ((names.map (rewrittenName g m)).filter (fun x => decide (x ≠ conf.name))).foldl
          SetInsert conf.ctrl_in_op_name := by
  induction names with
  | nil => intro conf; exact ⟨rfl, rfl, rfl, rfl⟩
  | cons a r ih =>
    intro conf
    simp only [List.foldl_cons, List.map_cons]
    obtain ⟨h1, h2, h3, h4⟩ := ih (AddControlInOpName g m conf a)
    by_cases hc : conf.name ≠ rewrittenName g m a
    · have hadd : AddControlInOpName g m conf a =
          { conf with
            ctrl_in_op_name := SetInsert conf.ctrl_in_op_name (rewrittenName g m a) } := by
        rw [AddControlInOpName_eq, if_pos hc]
      rw [hadd] at h1 h2 h3 h4 ⊢
      refine ⟨h1, h2, h3, ?_⟩
      rw [h4, List.filter_cons]
      have : decide (rewrittenName g m a ≠ conf.name) = true := by
        simpa using fun h => hc h.symm
      simp [this]
    · have hadd : AddControlInOpName g m conf a = conf := by
        rw [AddControlInOpName_eq, if_neg hc]
      rw [hadd] at h1 h2 h3 h4 ⊢
      refine ⟨h1, h2, h3, ?_⟩
      rw [h4, List.filter_cons]
      have : decide (rewrittenName g m a ≠ conf.name) = false := by
        simpa using (not_not.1 hc).symm
      simp [this]

theorem updateOp_find (op_name : String) (f : OperatorConf → Option OperatorConf)
    (ops ops' : List OperatorConf) (h : updateOp op_name f ops = some ops')
    (hf : ∀ c c', f c = some c' → c'.name = c.name ∧ c'.device_type = c.device_type ∧
      c'.op_type = c.op_type) :
    (∀ nm2, nm2 ≠ op_name →
      ops'.find? (fun conf => conf.name = nm2) = ops.find? (fun conf => conf.name = nm2)) ∧
    (∃ c c', ops.find? (fun conf => conf.name = op_name) = some c ∧ f c = some c' ∧
      ops'.find? (fun conf => conf.name = op_name) = some c') ∧
    ops'.map (fun op => (op.name, op.device_type, op.op_type)) =
      ops.map (fun op => (op.name, op.device_type, op.op_type)) := by
  obtain ⟨pre, c, c', post, h1, h2, h3, h4, h5⟩ := updateOp_eq_some _ _ _ _ h
  obtain ⟨n1, n2, n3⟩ := hf c c' h4
  have hpre : ∀ nm, nm = op_name → pre.find? (fun conf => decide (conf.name = nm)) = none := by
    intro nm hnm
    rw [List.find?_eq_none]
    intro x hx
    simpa [hnm] using h2 x hx
  refine ⟨?_, ⟨c, c', ?_, h4, ?_⟩, ?_⟩
  · intro nm2 hne
    rw [h5, h1, List.find?_append, List.find?_append]
    congr 1
    have e1 : ¬ c.name = nm2 := fun h => hne (h.symm.trans h3)
    have e2 : ¬ c'.name = nm2 := by rw [n1]; exact e1
    simp [List.find?_cons, e1, e2]
  · rw [h1, List.find?_append, hpre _ rfl]
    simp [List.find?_cons, h3]
  · rw [h5, List.find?_append, hpre _ rfl]
    simp [List.find?_cons, n1, h3]
  · rw [h5, h1]
    simp [n1, n2, n3]

theorem mutableOpConf_spec (job job' : Job) (op_name : String)
    (f : OperatorConf → Option OperatorConf)
    (h : JobBuilder.MutableOpConf4OpName job op_name f = some job')
    (hf : ∀ c c', f c = some c' → c'.name = c.name ∧ c'.device_type = c.device_type ∧
      c'.op_type = c.op_type) :
    job' = { job with op := job'.op } ∧
    (∀ nm2, nm2 ≠ op_name →
      JobBuilder.OpConf4OpName job' nm2 = JobBuilder.OpConf4OpName job nm2) ∧
    (∃ c c', JobBuilder.OpConf4OpName job op_name = some c ∧ f c = some c' ∧
      JobBuilder.OpConf4OpName job' op_name = some c') ∧
    opShapes job' = opShapes job := by
  unfold JobBuilder.MutableOpConf4OpName at h
  simp only [Option.map_eq_some'] at h
  obtain ⟨ops, hup, hjob⟩ := h
  subst hjob
  obtain ⟨h1, h2, h3⟩ := updateOp_find _ _ _ _ hup hf
  exact ⟨rfl, h1, h2, h3⟩

theorem addLoop_shape (g : XrtGraph) (m : List (String × Nat)) (names : List String)
    (c0 c c' : OperatorConf)
    (hc0 : c0.name = c.name ∧ c0.device_type = c.device_type ∧ c0.op_type = c.op_type)
    (h : some (names.foldl (AddControlInOpName g m) c0) = some c') :
    c'.name = c.name ∧ c'.device_type = c.device_type ∧ c'.op_type = c.op_type := by
  simp only [Option.some.injEq] at h
  subst h
  obtain ⟨h1, h2, h3, _⟩ := addLoop_spec g m names c0
  exact ⟨h1.trans hc0.1, h2.trans hc0.2.1, h3.trans hc0.2.2⟩

/-- The loop over the folded nodes of a launch node named `nm`: only the
operation registered under `nm` changes, and it becomes what `launchCtrlFold`
computes from it. -/
theorem launchInner_spec (g : XrtGraph) (m : List (String × Nat)) (nm : String)
    (look : String → Option OperatorConf) (subs : List XrtSubNode) :
    ∀ (job job' : Job) (c : OperatorConf),
      subs.foldlM
        (fun (job : Job) sub_node =>
          (JobBuilder.OpConf4OpName job sub_node.name).bind fun folded_op_conf =>
            JobBuilder.MutableOpConf4OpName job nm fun op_conf =>
              some (folded_op_conf.ctrl_in_op_name.foldl (AddControlInOpName g m) op_conf))
        job = some job' →
      JobBuilder.OpConf4OpName job nm = some c →
      (∀ nm2, nm2 ≠ nm → JobBuilder.OpConf4OpName job nm2 = look nm2) →
      job' = { job with op := job'.op } ∧
      (∀ nm2, nm2 ≠ nm → JobBuilder.OpConf4OpName job' nm2 = look nm2) ∧
      (∃ c', launchCtrlFold g m look nm c subs = some c' ∧
        JobBuilder.OpConf4OpName job' nm = some c') ∧
      opShapes job' = opShapes job := by
  induction subs with
  | nil =>
    intro job job' c h hc hlook
    simp only [List.foldlM_nil, Option.pure_def, Option.some.injEq] at h
    subst h
    exact ⟨rfl, hlook, ⟨c, rfl, hc⟩, rfl⟩
  | cons sub rest ih =>
    intro job job' c h hc hlook
    simp only [List.foldlM_cons, Option.bind_eq_bind] at h
    cases hfc : JobBuilder.OpConf4OpName job sub.name with
    | none => simp [hfc] at h
    | some fc =>
      simp only [hfc, Option.some_bind] at h
      cases hmid : JobBuilder.MutableOpConf4OpName job nm (fun op_conf =>
          some (fc.ctrl_in_op_name.foldl (AddControlInOpName g m) op_conf)) with
      | none => simp [hmid] at h
      | some job1 =>
        simp only [hmid, Option.some_bind] at h
        obtain ⟨m1, m2, ⟨c0, c1, m3, m4, m5⟩, m6⟩ := mutableOpConf_spec job job1 nm _ hmid
          (fun x x' hx => addLoop_shape g m _ x x x' ⟨rfl, rfl, rfl⟩ hx)
        rw [hc] at m3
        cases m3
        simp only [Option.some.injEq] at m4
        obtain ⟨i1, i2, ⟨c', i3, i4⟩, i5⟩ := ih job1 job' c1 h m5
          (fun nm2 hne => (m2 nm2 hne).trans (hlook nm2 hne))
        refine ⟨?_, i2, ⟨c', ?_, i4⟩, i5.trans m6⟩
        · rw [i1, m1]
        · unfold launchCtrlFold
          by_cases hs : sub.name = nm
          · have : fc = c := by
              rw [hs, hc] at hfc
              exact (Option.some.inj hfc).symm
            subst this
            simp only [hs, if_true]
            rw [m4]
            exact i3
          · have : look sub.name = some fc := by rw [← hlook _ hs, hfc]
            simp only [hs, if_false, this]
            rw [m4]
            exact i3

/-- One iteration of the node loop of `FixupControlInOpNames`: only the
operation list of the job changes, and in it only the control-predecessor list
of the operation registered under the node's name.  For a node without
sub-graph the list is rebuilt from the old one; for a node with a sub-graph the
names declared by its folded operations are added. -/
theorem fixupControlStep_spec (m : List (String × Nat)) (b b' : FoldSubgraphBuilder)
    (node : XrtNode) (h : FixupControlInOpNames.step m b node = some b') :
    b' = { b with builder_ := { b.builder_ with op := b'.builder_.op } } ∧
    (∀ nm2, nm2 ≠ node.name →
      JobBuilder.OpConf4OpName b'.builder_ nm2 = JobBuilder.OpConf4OpName b.builder_ nm2) ∧
    opShapes b'.builder_ = opShapes b.builder_ ∧
    ∃ c c', JobBuilder.OpConf4OpName b.builder_ node.name = some c ∧
      JobBuilder.OpConf4OpName b'.builder_ node.name = some c' ∧
      (node.sub_graph = none →
        c' = c.ctrl_in_op_name.foldl (AddControlInOpName b.graph_ m)
          { c with ctrl_in_op_name := [] }) ∧
      (∀ sg, node.sub_graph = some sg →
        launchCtrlFold b.graph_ m (JobBuilder.OpConf4OpName b.builder_) node.name c
          (foldedNodesOf sg) = some c') := by
  unfold FixupControlInOpNames.step at h
  cases hsub : node.sub_graph with
  | none =>
    simp only [hsub, Option.map_eq_some'] at h
    obtain ⟨job, hjob, hb⟩ := h
    obtain ⟨m1, m2, ⟨c, c', m3, m4, m5⟩, m6⟩ := mutableOpConf_spec _ _ _ _ hjob
      (fun x x' hx => addLoop_shape b.graph_ m _ { x with ctrl_in_op_name := [] } x x'
        ⟨rfl, rfl, rfl⟩ hx)
    subst hb
    refine ⟨by rw [m1], m2, m6, c, c', m3, m5, ?_, ?_⟩
    · intro _
      exact (Option.some.inj m4).symm
    · intro sg hsg
      exact absurd hsg (by simp)
  | some sg =>
    simp only [hsub] at h
    cases hj0 : JobBuilder.MutableOpConf4OpName b.builder_ node.name some with
    | none => simp [hj0] at h
    | some job0 =>
      simp only [hj0, Option.some_bind, Option.map_eq_some'] at h
      obtain ⟨job, hjob, hb⟩ := h
      obtain ⟨z1, z2, ⟨c, c0, z3, z4, z5⟩, z6⟩ := mutableOpConf_spec _ _ _ _ hj0
        (fun x x' hx => by
          simp only [Option.some.injEq] at hx
          subst hx
          exact ⟨rfl, rfl, rfl⟩)
      simp only [Option.some.injEq] at z4
      subst z4
      obtain ⟨i1, i2, ⟨c', i3, i4⟩, i5⟩ := launchInner_spec b.graph_ m node.name
        (JobBuilder.OpConf4OpName b.builder_) (foldedNodesOf sg) job0 job c hjob z5 z2
      subst hb
      refine ⟨?_, i2, i5.trans z6, c, c', z3, i4, ?_, ?_⟩
      · simp only
        rw [i1, z1]
      · intro hn
        exact absurd hn (by simp)
      · intro sg' hsg'
        cases hsg'
        exact i3

theorem controlFrame_trans {b1 b2 b3 : FoldSubgraphBuilder} (h12 : ControlFrame b1 b2)
    (h23 : ControlFrame b2 b3) : ControlFrame b1 b3 := by
  obtain ⟨a1, a2⟩ := h12
  obtain ⟨c1, c2⟩ := h23
  refine ⟨?_, c2.trans a2⟩
  rw [c1, a1]

theorem fixupControlLoop_frame (m : List (String × Nat)) (nodes : List XrtNode) :
    ∀ (b b' : FoldSubgraphBuilder),
      nodes.foldlM (FixupControlInOpNames.step m) b = some b' → ControlFrame b b' := by
  induction nodes with
  | nil =>
    intro b b' h
    simp only [List.foldlM_nil, Option.pure_def, Option.some.injEq] at h
    subst h
    exact ⟨rfl, rfl⟩
  | cons n rest ih =>
    intro b b' h
    simp only [List.foldlM_cons, Option.bind_eq_bind] at h
    cases hstep : FixupControlInOpNames.step m b n with
    | none => simp [hstep] at h
    | some b1 =>
      rw [hstep] at h
      obtain ⟨s1, _, s3, _⟩ := fixupControlStep_spec m b b1 n hstep
      exact controlFrame_trans ⟨s1, s3⟩ (ih b1 b' h)

theorem fixupControlInOpNames_frame (b b' : FoldSubgraphBuilder)
    (h : b.FixupControlInOpNames = some b') : ControlFrame b b' := by
  unfold FoldSubgraphBuilder.FixupControlInOpNames at h
  split at h
  · exact fixupControlLoop_frame _ _ b b' h
  · exact absurd h (by simp)

theorem MapFind_foldl_emplace {β : Type} (pairs : List (String × β)) :
    ∀ (m0 : List (String × β)) (x : String),
      MapFind (pairs.foldl (fun m kv => MapEmplace m kv.1 kv.2) m0) x =
        (MapFind m0 x).orElse (fun _ => MapFind pairs x) := by
  induction pairs with
  | nil => intro m0 x; cases h : MapFind m0 x <;> simp [MapFind, h]
  | cons kv rest ih =>
    intro m0 x
    obtain ⟨k, v⟩ := kv
    simp only [List.foldl_cons, ih]
    unfold MapEmplace
    cases hk : MapFind m0 k with
    | some w =>
      simp only
      cases hx : MapFind m0 x with
      | some u => simp
      | none =>
        have hne : k ≠ x := by
          intro h
          rw [h, hx] at hk
          exact absurd hk (by simp)
        simp [MapFind, hne]
    | none =>
      simp only [MapFind_append]
      cases hx : MapFind m0 x with
      | some u => simp
      | none =>
        by_cases hkx : k = x
        · simp [MapFind, hkx]
        · simp [MapFind, hkx]

theorem foldl_flatMap_emplace {α β : Type} (l : List α) (f : α → List (String × β)) :
    ∀ m0 : List (String × β),
      l.foldl (fun m a => (f a).foldl (fun m kv => MapEmplace m kv.1 kv.2) m) m0 =
        (l.flatMap f).foldl (fun m kv => MapEmplace m kv.1 kv.2) m0 := by
  induction l with
  | nil => intro m0; rfl
  | cons a rest ih =>
    intro m0
    simp only [List.foldl_cons, List.flatMap_cons, List.foldl_append, ih]

/-- Looking a name up in the map of `FixupControlInOpNames` gives the launch
node of the first pair with that name. -/
theorem foldedOpNames_find (b : FoldSubgraphBuilder) (x : String) :
    MapFind (foldedOpNames b) x = MapFind (foldedPairs b) x := by
  have h : foldedOpNames b =
      (foldedPairs b).foldl (fun m kv => MapEmplace m kv.1 kv.2) [] := by
    unfold foldedOpNames foldedPairs
    rw [← foldl_flatMap_emplace]
    congr 1
    funext m i
    rw [List.foldl_map]
  rw [h, MapFind_foldl_emplace]
  simp [MapFind]

theorem mem_foldedPairs (b : FoldSubgraphBuilder) (x : String) (l : Nat) :
    (x, l) ∈ foldedPairs b ↔
      ∃ i, i < b.launch_nodes_.length ∧ l = b.launch_nodes_.getD i 0 ∧
        ∃ node ∈ b.folded_nodes_.getD i [], node.name = x := by
  unfold foldedPairs
  simp only [List.mem_flatMap, List.mem_range, List.mem_map, Prod.mk.injEq]
  constructor
  · rintro ⟨i, hi, node, hnode, h1, h2⟩
    exact ⟨i, hi, h2.symm, node, hnode, h1⟩
  · rintro ⟨i, hi, h2, node, hnode, h1⟩
    exact ⟨i, hi, node, hnode, h1, h2.symm⟩

/-- A name that no launch node folds is rewritten to itself; a folded name is
rewritten to the name of a launch node that folds it. -/
theorem rewrittenName_spec (b : FoldSubgraphBuilder) (x : String) :
    ((∀ i, i < b.launch_nodes_.length → ∀ node ∈ b.folded_nodes_.getD i [], node.name ≠ x) →
      rewrittenName b.graph_ (foldedOpNames b) x = x) ∧
    ((∃ i, i < b.launch_nodes_.length ∧ ∃ node ∈ b.folded_nodes_.getD i [], node.name = x) →
      ∃ i, i < b.launch_nodes_.length ∧ (∃ node ∈ b.folded_nodes_.getD i [], node.name = x) ∧
        rewrittenName b.graph_ (foldedOpNames b) x =
          (b.graph_.node (b.launch_nodes_.getD i 0)).name) := by
  unfold rewrittenName
  rw [foldedOpNames_find]
  constructor
  · intro h
    cases hf : MapFind (foldedPairs b) x with
    | none => rfl
    | some l =>
      obtain ⟨i, hi, _, node, hnode, hname⟩ := (mem_foldedPairs b x l).1 (MapFind_mem _ _ _ hf)
      exact absurd hname (h i hi node hnode)
  · rintro ⟨i, hi, node, hnode, hname⟩
    cases hf : MapFind (foldedPairs b) x with
    | none =>
      rw [MapFind_eq_none_iff] at hf
      exfalso
      apply hf
      exact List.mem_map.2 ⟨(x, b.launch_nodes_.getD i 0),
        (mem_foldedPairs b x _).2 ⟨i, hi, rfl, node, hnode, hname⟩, rfl⟩
    | some l =>
      obtain ⟨j, hj, hl, hex⟩ := (mem_foldedPairs b x l).1 (MapFind_mem _ _ _ hf)
      exact ⟨j, hj, hex, by rw [hl]⟩

theorem fixupControlLoop_lookup_other (m : List (String × Nat)) (nodes : List XrtNode)
    (nm : String) :
    ∀ (b b' : FoldSubgraphBuilder),
      nodes.foldlM (FixupControlInOpNames.step m) b = some b' →
      (∀ x ∈ nodes, x.name ≠ nm) →
      JobBuilder.OpConf4OpName b'.builder_ nm = JobBuilder.OpConf4OpName b.builder_ nm := by
  induction nodes with
  | nil =>
    intro b b' h _
    simp only [List.foldlM_nil, Option.pure_def, Option.some.injEq] at h
    subst h
    rfl
  | cons n rest ih =>
    intro b b' h hne
    simp only [List.foldlM_cons, Option.bind_eq_bind] at h
    cases hstep : FixupControlInOpNames.step m b n with
    | none => simp [hstep] at h
    | some b1 =>
      rw [hstep] at h
      obtain ⟨_, s2, _, _⟩ := fixupControlStep_spec m b b1 n hstep
      rw [ih b1 b' h (fun x hx => hne x (List.mem_cons_of_mem _ hx))]
      exact s2 nm (fun e => hne n (List.mem_cons_self _ _) e.symm)

theorem opConf4OpName_name (job : Job) (nm : String) (c : OperatorConf)
    (h : JobBuilder.OpConf4OpName job nm = some c) : c.name = nm := by
  unfold JobBuilder.OpConf4OpName at h
  simpa using List.find?_some h

/-- C7. Control-predecessor rewrite of a regular node.  Let
`FixupControlInOpNames` return, and let `n` be a node of the outer graph
without sub-graph whose name no other node of the outer graph has.  Then the
control-predecessor list of the operation of `n` is afterwards the
first-occurrence de-duplication of the old list with every name rewritten
(a folded name to the name of its launch node, any other name to itself),
with the entries equal to the name of `n` removed; nothing else of the
operation changes, the list has no duplicates, and it is a sub-list of the
rewritten old list, so the order of the surviving entries is kept. -/
theorem C7_regular_node_control_rewrite (b b' : FoldSubgraphBuilder)
    (hrun : b.FixupControlInOpNames = some b')
    (pre post : List XrtNode) (n : XrtNode) (hnodes : b.graph_.nodes = pre ++ n :: post)
    (hreg : n.sub_graph = none) (huniq : ∀ x ∈ pre ++ post, x.name ≠ n.name) :
    ∃ c, JobBuilder.OpConf4OpName b.builder_ n.name = some c ∧
      JobBuilder.OpConf4OpName b'.builder_ n.name =
        some { c with
          ctrl_in_op_name :=
            (dedupFirst (c.ctrl_in_op_name.map (rewrittenName b.graph_ (foldedOpNames b)))).filter
              fun x => decide (x ≠ n.name) } ∧
      ((dedupFirst (c.ctrl_in_op_name.map (rewrittenName b.graph_ (foldedOpNames b)))).filter
        fun x => decide (x ≠ n.name)).Nodup ∧
      ((dedupFirst (c.ctrl_in_op_name.map (rewrittenName b.graph_ (foldedOpNames b)))).filter
        fun x => decide (x ≠ n.name)).Sublist
        (c.ctrl_in_op_name.map (rewrittenName b.graph_ (foldedOpNames b))) := by
  unfold FoldSubgraphBuilder.FixupControlInOpNames at hrun
  split at hrun
  · rw [hnodes, List.foldlM_append] at hrun
    simp only [Option.bind_eq_bind] at hrun
    cases h1 : pre.foldlM (FixupControlInOpNames.step (foldedOpNames b)) b with
    | none => simp [h1] at hrun
    | some b1 =>
      simp only [h1, Option.some_bind, List.foldlM_cons, Option.bind_eq_bind] at hrun
      cases h2 : FixupControlInOpNames.step (foldedOpNames b) b1 n with
      | none => simp [h2] at hrun
      | some b2 =>
        simp only [h2, Option.some_bind] at hrun
        have l1 := fixupControlLoop_lookup_other _ pre n.name b b1 h1
          (fun x hx => huniq x (List.mem_append_left _ hx))
        have l3 := fixupControlLoop_lookup_other _ post n.name b2 b' hrun
          (fun x hx => huniq x (List.mem_append_right _ hx))
        have hg : b1.graph_ = b.graph_ := by
          have := (fixupControlLoop_frame _ pre b b1 h1).1
          rw [this]
        obtain ⟨_, _, _, c, c', s4, s5, s6, _⟩ := fixupControlStep_spec _ b1 b2 n h2
        have hc' := s6 hreg
        rw [hg] at hc'
        obtain ⟨a1, a2, a3, a4⟩ := addLoop_spec b.graph_ (foldedOpNames b) c.ctrl_in_op_name
          { c with ctrl_in_op_name := [] }
        rw [← hc'] at a1 a2 a3 a4
        have hname : c.name = n.name := opConf4OpName_name _ _ _ s4
        simp only at a1 a2 a3 a4
        have hctrl : c'.ctrl_in_op_name =
            (dedupFirst (c.ctrl_in_op_name.map (rewrittenName b.graph_ (foldedOpNames b)))).filter
              fun x => decide (x ≠ n.name) := by
          rw [a4, foldl_SetInsert_nil, dedupFirst_filter, hname]
        refine ⟨c, l1 ▸ s4, ?_, ?_, ?_⟩
        · rw [l3, s5]
          congr 1
          cases c'
          simp only at a1 a2 a3 hctrl
          simp [a1, a2, a3, hctrl]
        · exact List.Nodup.filter _ (dedupFirst_nodup _)
        · exact (List.filter_sublist _).trans (dedupFirst_sublist _)
  · exact absurd hrun (by simp)

/-- C7 at the demonstration graph: the operation `sink` declared the control
predecessors `b1, a2, src, b1`; afterwards it has `B, A, src`. -/
theorem C7_regular_node_control_rewrite_witness :
    (JobBuilder.OpConf4OpName demoControlled.builder_ "sink").map
        OperatorConf.ctrl_in_op_name = some ["B", "A", "src"] ∧
    ∃ c, JobBuilder.OpConf4OpName demoBuilt.builder_ (demoGraph.node 3).name = some c ∧
      JobBuilder.OpConf4OpName demoControlled.builder_ (demoGraph.node 3).name =
        some { c with
          ctrl_in_op_name :=
            (dedupFirst (c.ctrl_in_op_name.map
              (rewrittenName demoBuilt.graph_ (foldedOpNames demoBuilt)))).filter
              fun x => decide (x ≠ (demoGraph.node 3).name) } ∧
      ((dedupFirst (c.ctrl_in_op_name.map
        (rewrittenName demoBuilt.graph_ (foldedOpNames demoBuilt)))).filter
        fun x => decide (x ≠ (demoGraph.node 3).name)).Nodup ∧
      ((dedupFirst (c.ctrl_in_op_name.map
        (rewrittenName demoBuilt.graph_ (foldedOpNames demoBuilt)))).filter
        fun x => decide (x ≠ (demoGraph.node 3).name)).Sublist
        (c.ctrl_in_op_name.map (rewrittenName demoBuilt.graph_ (foldedOpNames demoBuilt))) :=
  ⟨by decide,
   C7_regular_node_control_rewrite demoBuilt demoControlled (by decide)
    (demoGraph.nodes.take 3) (demoGraph.nodes.drop 4) (demoGraph.node 3) (by decide)
    (by decide) (by decide)⟩

/-! ## The constructor, the last stages, and `Build` as a whole -/

theorem mapM_option_forall2 {α β : Type} (f : α → Option β) (l : List α) :
    ∀ r : List β, l.mapM f = some r → List.Forall₂ (fun a x => f a = some x) l r := by
  induction l with
  | nil =>
    intro r h
    simp only [List.mapM_nil, Option.pure_def, Option.some.injEq] at h
    subst h
    exact List.Forall₂.nil
  | cons a rest ih =>
    intro r h
    rw [List.mapM_cons] at h
    cases ha : f a with
    | none =>
      rw [ha] at h
      exact absurd h (by simp)
    | some x =>
      rw [ha] at h
      cases hr : rest.mapM f with
      | none =>
        rw [hr] at h
        exact absurd h (by simp)
      | some xs =>
        rw [hr] at h
        simp only [Option.pure_def, Option.bind_eq_bind, Option.some_bind,
          Option.some.injEq] at h
        subst h
        exact List.Forall₂.cons ha (ih xs hr)

/-- What the constructor builds. -/
theorem new_spec (g : XrtGraph) (job : Job) (b0 : FoldSubgraphBuilder)
    (h : FoldSubgraphBuilder.new g job = some b0) :
    b0.graph_ = g ∧ b0.builder_ = job ∧ b0.launch_nodes_ = launchNodes g ∧
    b0.after_allreduce_nodes_ = [] ∧ b0.fixedup_names_ = [] ∧
    List.Forall₂ (fun i folded => ∃ sg, (g.node i).sub_graph = some sg ∧
      folded = foldedNodesOf sg) (launchNodes g) b0.folded_nodes_ := by
  unfold FoldSubgraphBuilder.new at h
  simp only [Option.map_eq_some'] at h
  obtain ⟨folded, hf, hb⟩ := h
  subst hb
  refine ⟨rfl, rfl, rfl, rfl, rfl, ?_⟩
  refine List.Forall₂.imp ?_ (mapM_option_forall2 _ _ _ hf)
  intro i fo hi
  simp only [Option.map_eq_some'] at hi
  obtain ⟨sg, h1, h2⟩ := hi
  exact ⟨sg, h1, h2.symm⟩

theorem mem_foldl_insert_names (subs : List XrtSubNode) :
    ∀ (acc : List String) (x : String),
      x ∈ subs.foldl (fun s sub_node => SetInsert s sub_node.name) acc ↔
        x ∈ acc ∨ ∃ sub ∈ subs, sub.name = x := by
  induction subs with
  | nil => intro acc x; simp
  | cons a rest ih =>
    intro acc x
    simp only [List.foldl_cons, ih, SetInsert_mem, List.mem_cons, exists_eq_or_imp]
    constructor
    · rintro ((h | h) | h)
      · exact Or.inl h
      · exact Or.inr (Or.inl h.symm)
      · exact Or.inr (Or.inr h)
    · rintro (h | h | h)
      · exact Or.inl (Or.inl h)
      · exact Or.inl (Or.inr h.symm)
      · exact Or.inr h

/-- The names `RemoveLaunchFoldedOps` removes are the names of the non-argument
nodes of the sub-graphs of the launch nodes. -/
theorem mem_removingNames (b : FoldSubgraphBuilder) (x : String) :
    x ∈ removingNames b ↔
      ∃ i ∈ b.launch_nodes_, ∃ sg, (b.graph_.node i).sub_graph = some sg ∧
        ∃ sub ∈ foldedNodesOf sg, sub.name = x := by
  unfold removingNames
  have key : ∀ (ls : List Nat) (acc : List String),
      x ∈ ls.foldl
        (fun removing_names node_id =>
          match (b.graph_.node node_id).sub_graph with
          | none => removing_names
          | some sub_graph =>
            (foldedNodesOf sub_graph).foldl (fun s sub_node => SetInsert s sub_node.name)
              removing_names) acc ↔
        x ∈ acc ∨ ∃ i ∈ ls, ∃ sg, (b.graph_.node i).sub_graph = some sg ∧
          ∃ sub ∈ foldedNodesOf sg, sub.name = x := by
    intro ls
    induction ls with
    | nil => intro acc; simp
    | cons l rest ih =>
      intro acc
      rw [List.foldl_cons, ih]
      constructor
      · rintro (h | ⟨i, hi, sg, hsg, hx⟩)
        · cases hsub : (b.graph_.node l).sub_graph with
          | none =>
            rw [hsub] at h
            exact Or.inl h
          | some sg =>
            rw [hsub] at h
            rcases (mem_foldl_insert_names _ _ _).1 h with h1 | h1
            · exact Or.inl h1
            · exact Or.inr ⟨l, List.mem_cons_self _ _, sg, hsub, h1⟩
        · exact Or.inr ⟨i, List.mem_cons_of_mem _ hi, sg, hsg, hx⟩
      · rintro (h | ⟨i, hi, sg, hsg, hx⟩)
        · left
          cases hsub : (b.graph_.node l).sub_graph with
          | none => exact h
          | some sg => exact (mem_foldl_insert_names _ _ _).2 (Or.inl h)
        · rcases List.mem_cons.1 hi with hil | hi'
          · left
            subst hil
            rw [hsg]
            exact (mem_foldl_insert_names _ _ _).2 (Or.inr hx)
          · exact Or.inr ⟨i, hi', sg, hsg, hx⟩
  refine (key b.launch_nodes_ []).trans ?_
  simp

theorem removingNames_congr (b1 b2 : FoldSubgraphBuilder)
    (hn : b1.graph_.nodes = b2.graph_.nodes) (hl : b1.launch_nodes_ = b2.launch_nodes_) :
    removingNames b1 = removingNames b2 := by
  unfold removingNames
  rw [hl]
  congr 1
  funext acc i
  rw [node_congr _ _ hn]

theorem tableFrame_trans {b1 b2 b3 : FoldSubgraphBuilder} (h12 : TableFrame b1 b2)
    (h23 : TableFrame b2 b3) : TableFrame b1 b3 := by
  obtain ⟨a1, a2, a3, a4, a5, a6⟩ := h12
  obtain ⟨c1, c2, c3, c4, c5, c6⟩ := h23
  exact ⟨c1.trans a1, c2.trans a2, c3.trans a3, c4.trans a4, c5.trans a5, c6.trans a6⟩

theorem foldlM_frame {α : Type} (R : FoldSubgraphBuilder → FoldSubgraphBuilder → Prop)
    (hrefl : ∀ b, R b b) (htrans : ∀ b1 b2 b3, R b1 b2 → R b2 b3 → R b1 b3)
    (f : FoldSubgraphBuilder → α → Option FoldSubgraphBuilder)
    (hstep : ∀ b a b', f b a = some b' → R b b') (l : List α) :
    ∀ b b', l.foldlM f b = some b' → R b b' := by
  induction l with
  | nil =>
    intro b b' h
    simp only [List.foldlM_nil, Option.pure_def, Option.some.injEq] at h
    subst h
    exact hrefl b
  | cons a rest ih =>
    intro b b' h
    simp only [List.foldlM_cons, Option.bind_eq_bind] at h
    cases hs : f b a with
    | none => simp [hs] at h
    | some b1 =>
      rw [hs] at h
      exact htrans _ _ _ (hstep b a b1 hs) (ih b1 b' h)

theorem fixupTimeShapes_frame (b b' : FoldSubgraphBuilder)
    (h : b.FixupTimeShapes = some b') : TableFrame b b' := by
  unfold FoldSubgraphBuilder.FixupTimeShapes at h
  refine foldlM_frame TableFrame (fun _ => ⟨rfl, rfl, rfl, rfl, rfl, rfl⟩)
    (fun _ _ _ => tableFrame_trans) _ ?_ _ b b' h
  intro b1 i b2 hs
  unfold FixupTimeShapes.step at hs
  split at hs
  · exact absurd hs (by simp)
  · simp only [Option.map_eq_some'] at hs
    obtain ⟨ts, _, hb⟩ := hs
    subst hb
    exact ⟨rfl, rfl, rfl, rfl, rfl, rfl⟩

theorem fixupSbpSignatures_frame (b b' : FoldSubgraphBuilder)
    (h : b.FixupSbpSignatures = some b') : TableFrame b b' := by
  unfold FoldSubgraphBuilder.FixupSbpSignatures at h
  refine foldlM_frame TableFrame (fun _ => ⟨rfl, rfl, rfl, rfl, rfl, rfl⟩)
    (fun _ _ _ => tableFrame_trans) _ ?_ _ b b' h
  intro b1 i b2 hs
  unfold FixupSbpSignatures.step at hs
  simp only [Option.bind_eq_some, Option.map_eq_some'] at hs
  obtain ⟨sig1, _, sig2, _, hb⟩ := hs
  subst hb
  exact ⟨rfl, rfl, rfl, rfl, rfl, rfl⟩

/-- The stages of a completed `Build`, one after the other. -/
theorem build_stages (ext : Externals) (b b' : FoldSubgraphBuilder)
    (h : b.Build ext = some b') :
    ∃ b2 b3 b4 b6, (b.InferIsAfterAllReduce ext).FixupInOutBlobNames ext = some b2 ∧
      b2.BuildXrtLaunchOps ext = some b3 ∧ b3.FixupControlInOpNames = some b4 ∧
      TableFrame b4 b6 ∧ b' = b6.RemoveLaunchFoldedOps := by
  unfold FoldSubgraphBuilder.Build at h
  simp only [Option.some_bind, Option.bind_eq_some, Option.map_eq_some'] at h
  obtain ⟨b4, ⟨b3, ⟨b2, h2, h3⟩, h4⟩, b6, ⟨b5, h5, h6⟩, h7⟩ := h
  exact ⟨b2, b3, b4, b6, h2, h3, h4,
    tableFrame_trans (fixupTimeShapes_frame _ _ h5) (fixupSbpSignatures_frame _ _ h6), h7.symm⟩

theorem sameClusters_trans {b1 b2 b3 : FoldSubgraphBuilder} (h12 : SameClusters b1 b2)
    (h23 : SameClusters b2 b3) : SameClusters b1 b3 :=
  ⟨h23.1.trans h12.1, h23.2.1.trans h12.2.1, h23.2.2.trans h12.2.2⟩

theorem sameClusters_infer (ext : Externals) (b : FoldSubgraphBuilder) :
    SameClusters b (b.InferIsAfterAllReduce ext) := by
  obtain ⟨h1, _, h3, h4, _⟩ := inferIsAfterAllReduce_frame ext b
  exact ⟨by rw [h1], h3, h4⟩

theorem sameClusters_fixup (ext : Externals) (b b' : FoldSubgraphBuilder)
    (h : b.FixupInOutBlobNames ext = some b') : SameClusters b b' := by
  obtain ⟨h1, h2, h3, _⟩ := fixupInOutBlobNames_frame ext b b' h
  exact ⟨h1, h2, h3⟩

theorem sameClusters_build (ext : Externals) (b b' : FoldSubgraphBuilder)
    (h : b.BuildXrtLaunchOps ext = some b') : SameClusters b b' := by
  unfold FoldSubgraphBuilder.BuildXrtLaunchOps at h
  obtain ⟨h1, h2, h3, _⟩ := buildLoop_spec ext _ b b' h
  exact ⟨by rw [h1], h2, h3⟩

theorem sameClusters_control (b b' : FoldSubgraphBuilder)
    (h : b.FixupControlInOpNames = some b') : SameClusters b b' := by
  obtain ⟨h1, _⟩ := fixupControlInOpNames_frame b b' h
  rw [h1]
  exact ⟨rfl, rfl, rfl⟩

theorem sameClusters_table (b b' : FoldSubgraphBuilder) (h : TableFrame b b') :
    SameClusters b b' := by
  obtain ⟨h1, h2, h3, _⟩ := h
  exact ⟨by rw [h1], h2, h3⟩

/-- All stages of `Build` work on the same nodes, launch nodes and folded nodes. -/
theorem build_sameClusters (ext : Externals) (b b2 b3 b4 b6 : FoldSubgraphBuilder)
    (h2 : (b.InferIsAfterAllReduce ext).FixupInOutBlobNames ext = some b2)
    (h3 : b2.BuildXrtLaunchOps ext = some b3) (h4 : b3.FixupControlInOpNames = some b4)
    (h6 : TableFrame b4 b6) :
    SameClusters b b2 ∧ SameClusters b b3 ∧ SameClusters b b4 ∧ SameClusters b b6 := by
  have s2 := sameClusters_trans (sameClusters_infer ext b) (sameClusters_fixup ext _ _ h2)
  have s3 := sameClusters_trans s2 (sameClusters_build ext _ _ h3)
  have s4 := sameClusters_trans s3 (sameClusters_control _ _ h4)
  exact ⟨s2, s3, s4, sameClusters_trans s4 (sameClusters_table _ _ h6)⟩

theorem forall2_mem_left {α β : Type} (R : α → β → Prop) (l : List α) (r : List β)
    (h : List.Forall₂ R l r) : ∀ a ∈ l, ∃ x ∈ r, R a x := by
  induction h with
  | nil => intro a ha; simp at ha
  | cons hab _ ih =>
    intro a ha
    rcases List.mem_cons.1 ha with h1 | h1
    · exact ⟨_, List.mem_cons_self _ _, h1 ▸ hab⟩
    · obtain ⟨x, hx, hr⟩ := ih a h1
      exact ⟨x, List.mem_cons_of_mem _ hx, hr⟩

theorem forall2_mem_right {α β : Type} (R : α → β → Prop) (l : List α) (r : List β)
    (h : List.Forall₂ R l r) : ∀ x ∈ r, ∃ a ∈ l, R a x := by
  induction h with
  | nil => intro x hx; simp at hx
  | cons hab _ ih =>
    intro x hx
    rcases List.mem_cons.1 hx with h1 | h1
    · exact ⟨_, List.mem_cons_self _ _, h1 ▸ hab⟩
    · obtain ⟨a, ha, hr⟩ := ih x h1
      exact ⟨a, List.mem_cons_of_mem _ ha, hr⟩

/-- For a builder made by the constructor, the names `RemoveLaunchFoldedOps`
removes are the names of the folded nodes the constructor collected. -/
theorem removingNames_new (g : XrtGraph) (job : Job) (b0 : FoldSubgraphBuilder)
    (hnew : FoldSubgraphBuilder.new g job = some b0) (x : String) :
    x ∈ removingNames b0 ↔ ∃ folded ∈ b0.folded_nodes_, ∃ sub ∈ folded, sub.name = x := by
  obtain ⟨n1, _, n3, _, _, n6⟩ := new_spec g job b0 hnew
  rw [mem_removingNames, n1, n3]
  constructor
  · rintro ⟨i, hi, sg, hsg, sub, hsub, hx⟩
    obtain ⟨folded, hf, sg', hsg', hfo⟩ := forall2_mem_left _ _ _ n6 i hi
    rw [hsg] at hsg'
    cases hsg'
    exact ⟨folded, hf, sub, hfo ▸ hsub, hx⟩
  · rintro ⟨folded, hf, sub, hsub, hx⟩
    obtain ⟨i, hi, sg, hsg, hfo⟩ := forall2_mem_right _ _ _ n6 folded hf
    exact ⟨i, hi, sg, hsg, sub, hfo ▸ hsub, hx⟩

/-- C5. Cleanup completeness.  When the constructor and `Build` complete, no
operation of the resulting job has the name of a non-argument node of the
sub-graph of a launch node; the job is the job before the last stage without
the operations whose name is in the set of removed names, and that set holds
exactly the names of the folded nodes the constructor collected. -/
theorem C5_cleanup_completeness (ext : Externals) (g : XrtGraph) (job : Job)
    (b0 b' : FoldSubgraphBuilder) (hnew : FoldSubgraphBuilder.new g job = some b0)
    (hbuild : b0.Build ext = some b') :
    (∀ i ∈ launchNodes g, ∀ sg, (g.node i).sub_graph = some sg →
      ∀ sub ∈ sg.nodes, sub.is_argument_node = false →
        ∀ op ∈ b'.builder_.op, op.name ≠ sub.name) ∧
    ∃ b6, b'.builder_ = JobBuilder.RemoveOpByName b6.builder_ (removingNames b6) ∧
      ∀ x, x ∈ removingNames b6 ↔
        ∃ folded ∈ b0.folded_nodes_, ∃ sub ∈ folded, sub.name = x := by
  obtain ⟨b2, b3, b4, b6, h2, h3, h4, h6, h7⟩ := build_stages ext b0 b' hbuild
  obtain ⟨_, _, _, s6⟩ := build_sameClusters ext b0 b2 b3 b4 b6 h2 h3 h4 h6
  have hrem : removingNames b6 = removingNames b0 := removingNames_congr _ _ s6.1 s6.2.1
  obtain ⟨n1, _, n3, _⟩ := new_spec g job b0 hnew
  have hjob : b'.builder_ = JobBuilder.RemoveOpByName b6.builder_ (removingNames b6) := by
    rw [h7]
    rfl
  refine ⟨?_, b6, hjob, fun x => by rw [hrem]; exact removingNames_new g job b0 hnew x⟩
  intro i hi sg hsg sub hsub harg op hop
  rw [hjob] at hop
  unfold JobBuilder.RemoveOpByName at hop
  simp only [List.mem_filter, decide_eq_true_eq] at hop
  intro hname
  apply hop.2
  rw [hrem, mem_removingNames, n1, n3]
  refine ⟨i, hi, sg, hsg, sub, ?_, hname.symm⟩
  unfold foldedNodesOf
  simp [hsub, harg]

/-- C5 at the demonstration graph: the operations left are `src`, `sink`,
`sink2` and the fused operations `A` and `B`. -/
theorem C5_cleanup_completeness_witness :
    demoBuiltAll.builder_.op.map OperatorConf.name = ["src", "sink", "sink2", "A", "B"] ∧
    ((∀ i ∈ launchNodes demoGraph, ∀ sg, (demoGraph.node i).sub_graph = some sg →
      ∀ sub ∈ sg.nodes, sub.is_argument_node = false →
        ∀ op ∈ demoBuiltAll.builder_.op, op.name ≠ sub.name) ∧
    ∃ b6, demoBuiltAll.builder_ = JobBuilder.RemoveOpByName b6.builder_ (removingNames b6) ∧
      ∀ x, x ∈ removingNames b6 ↔
        ∃ folded ∈ demoBuilder.folded_nodes_, ∃ sub ∈ folded, sub.name = x) :=
  ⟨by decide,
   C5_cleanup_completeness demoExt demoGraph demoJob demoBuilder demoBuiltAll (by decide)
    (by decide)⟩

/-! ## Control predecessors after the whole pass -/

theorem launchCtrlFold_mem (g : XrtGraph) (m : List (String × Nat))
    (look : String → Option OperatorConf) (nm : String) (Q : String → Prop)
    (hQ : ∀ y, Q (rewrittenName g m y)) (subs : List XrtSubNode) :
    ∀ (c c' : OperatorConf), launchCtrlFold g m look nm c subs = some c' →
      (∀ x ∈ c.ctrl_in_op_name, Q x) → ∀ x ∈ c'.ctrl_in_op_name, Q x := by
  induction subs with
  | nil =>
    intro c c' h hc
    simp only [launchCtrlFold, Option.some.injEq] at h
    subst h
    exact hc
  | cons sub rest ih =>
    intro c c' h hc
    unfold launchCtrlFold at h
    split at h
    · exact absurd h (by simp)
    · rename_i fc _
      refine ih _ c' h ?_
      intro x hx
      rw [(addLoop_spec g m fc.ctrl_in_op_name c).2.2.2, foldl_SetInsert_mem] at hx
      rcases hx with hx | hx
      · exact hc x hx
      · obtain ⟨y, _, hy⟩ := List.mem_map.1 (List.mem_of_mem_filter hx)
        exact hy ▸ hQ y

/-- One iteration of the node loop of `FixupControlInOpNames`, when every
rewritten name has the property `Q`: an operation whose control predecessors
all have `Q` keeps this, and the operation of a node without sub-graph gets it. -/
theorem fixupControlStep_clean (m : List (String × Nat)) (b b' : FoldSubgraphBuilder)
    (node : XrtNode) (Q : String → Prop) (hQ : ∀ y, Q (rewrittenName b.graph_ m y))
    (h : FixupControlInOpNames.step m b node = some b') (nm : String)
    (hnm : (∀ c, JobBuilder.OpConf4OpName b.builder_ nm = some c →
        ∀ x ∈ c.ctrl_in_op_name, Q x) ∨ (node.sub_graph = none ∧ node.name = nm)) :
    ∀ c, JobBuilder.OpConf4OpName b'.builder_ nm = some c → ∀ x ∈ c.ctrl_in_op_name, Q x := by
  obtain ⟨_, s2, _, c0, c1, s4, s5, s6, s7⟩ := fixupControlStep_spec m b b' node h
  intro c hc x hx
  by_cases hne : nm = node.name
  · subst hne
    rw [s5] at hc
    cases hc
    cases hsub : node.sub_graph with
    | none =>
      have := s6 hsub
      rw [this, (addLoop_spec b.graph_ m c0.ctrl_in_op_name _).2.2.2, foldl_SetInsert_mem] at hx
      rcases hx with hx | hx
      · exact absurd hx (by simp)
      · obtain ⟨y, _, hy⟩ := List.mem_map.1 (List.mem_of_mem_filter hx)
        exact hy ▸ hQ y
    | some sg =>
      rcases hnm with hold | ⟨hnone, _⟩
      · exact launchCtrlFold_mem b.graph_ m _ _ Q hQ _ c0 _ (s7 sg hsub) (hold c0 s4) x hx
      · rw [hsub] at hnone
        exact absurd hnone (by simp)
  · rw [s2 nm hne] at hc
    rcases hnm with hold | ⟨_, hname⟩
    · exact hold c hc x hx
    · exact absurd hname.symm hne

theorem fixupControlLoop_clean (m : List (String × Nat)) (Q : String → Prop)
    (nodes : List XrtNode) :
    ∀ (b b' : FoldSubgraphBuilder), (∀ y, Q (rewrittenName b.graph_ m y)) →
      nodes.foldlM (FixupControlInOpNames.step m) b = some b' → ∀ nm,
      ((∀ c, JobBuilder.OpConf4OpName b.builder_ nm = some c →
          ∀ x ∈ c.ctrl_in_op_name, Q x) ∨
        ∃ n ∈ nodes, n.sub_graph = none ∧ n.name = nm) →
      ∀ c, JobBuilder.OpConf4OpName b'.builder_ nm = some c →
        ∀ x ∈ c.ctrl_in_op_name, Q x := by
  induction nodes with
  | nil =>
    intro b b' _ h nm hnm
    simp only [List.foldlM_nil, Option.pure_def, Option.some.injEq] at h
    subst h
    rcases hnm with h1 | ⟨n, hn, _⟩
    · exact h1
    · exact absurd hn (by simp)
  | cons n rest ih =>
    intro b b' hQ h nm hnm
    simp only [List.foldlM_cons, Option.bind_eq_bind] at h
    cases hstep : FixupControlInOpNames.step m b n with
    | none => simp [hstep] at h
    | some b1 =>
      rw [hstep] at h
      have hg : b1.graph_ = b.graph_ := by
        have := (fixupControlStep_spec m b b1 n hstep).1
        rw [this]
      refine ih b1 b' (by rw [hg]; exact hQ) h nm ?_
      rcases hnm with h1 | ⟨x, hx, hx1, hx2⟩
      · exact Or.inl (fixupControlStep_clean m b b1 n Q hQ hstep nm (Or.inl h1))
      · rcases List.mem_cons.1 hx with hxn | hxr
        · subst hxn
          exact Or.inl (fixupControlStep_clean m b b1 x Q hQ hstep nm (Or.inr ⟨hx1, hx2⟩))
        · exact Or.inr ⟨x, hxr, hx1, hx2⟩

theorem find_filter_name (R : List String) (nm : String) (ops : List OperatorConf) :
    (ops.filter fun conf => decide (conf.name ∉ R)).find? (fun conf => conf.name = nm) =
      if nm ∈ R then none else ops.find? (fun conf => conf.name = nm) := by
  induction ops with
  | nil => simp
  | cons c rest ih =>
    by_cases hR : c.name ∈ R
    · by_cases hc : c.name = nm
      · have : nm ∈ R := hc ▸ hR
        rw [if_pos this] at ih ⊢
        rw [List.filter_cons]
        simp only [hR, not_true_eq_false, decide_False, Bool.false_eq_true, if_false]
        exact ih
      · simp only [List.filter_cons, hR, not_true_eq_false, decide_False, Bool.false_eq_true,
          if_false, ih, List.find?_cons, hc]
    · by_cases hc : c.name = nm
      · have : nm ∉ R := hc ▸ hR
        simp [List.filter_cons, hR, this, hc]
      · simp only [List.filter_cons, hR, not_false_eq_true, decide_True, if_true,
          List.find?_cons, hc, decide_False, ih]

theorem find_name_of_keys (job1 job2 : Job) (h : opKeys job1 = opKeys job2) (nm : String) :
    (JobBuilder.OpConf4OpName job1 nm).isSome = (JobBuilder.OpConf4OpName job2 nm).isSome := by
  unfold JobBuilder.OpConf4OpName
  unfold opKeys at h
  generalize job1.op = l1 at h
  generalize job2.op = l2 at h
  induction l1 generalizing l2 with
  | nil =>
    cases l2 with
    | nil => rfl
    | cons _ _ => simp at h
  | cons a r ih =>
    cases l2 with
    | nil => simp at h
    | cons a2 r2 =>
      simp only [List.map_cons, List.cons.injEq, Prod.mk.injEq] at h
      by_cases ha : a.name = nm
      · have ha2 : a2.name = nm := h.1.1 ▸ ha
        simp [List.find?_cons, ha, ha2]
      · have ha2 : ¬ a2.name = nm := h.1.1 ▸ ha
        simp only [List.find?_cons, ha, ha2, decide_False]
        exact ih r2 h.2

theorem getD_mem_of_lt {α : Type} (l : List α) (i : Nat) (d : α) (h : i < l.length) :
    l.getD i d ∈ l := by
  rw [List.getD_eq_getElem _ _ h]
  exact List.getElem_mem _

theorem exists_getD_of_mem {α : Type} (l : List α) (x : α) (d : α) (h : x ∈ l) :
    ∃ i, i < l.length ∧ l.getD i d = x := by
  obtain ⟨i, hi, hx⟩ := List.getElem_of_mem h
  exact ⟨i, hi, by rw [List.getD_eq_getElem _ _ hi]; exact hx⟩

/-- When no launch node is named like a folded node, no rewritten name is the
name of a folded node. -/
theorem rewrittenName_clean (g : XrtGraph) (job : Job) (b0 b3 : FoldSubgraphBuilder)
    (hnew : FoldSubgraphBuilder.new g job = some b0) (hs : SameClusters b0 b3)
    (hfresh : ∀ i ∈ launchNodes g, (g.node i).name ∉ removingNames b0) (y : String) :
    rewrittenName b3.graph_ (foldedOpNames b3) y ∉ removingNames b0 := by
  obtain ⟨n1, _, n3, _, _, n6⟩ := new_spec g job b0 hnew
  obtain ⟨s1, s2, s3⟩ := hs
  have hlen : b3.launch_nodes_.length = b3.folded_nodes_.length := by
    rw [s2, s3, n3]
    exact n6.length_eq
  obtain ⟨r1, r2⟩ := rewrittenName_spec b3 y
  by_cases hex : ∃ i, i < b3.launch_nodes_.length ∧
      ∃ node ∈ b3.folded_nodes_.getD i [], node.name = y
  · obtain ⟨i, hi, _, hr⟩ := r2 hex
    rw [hr, node_congr b3.graph_ g (by rw [s1, n1])]
    apply hfresh
    rw [← n3, ← s2]
    exact getD_mem_of_lt _ _ _ hi
  · rw [r1 (fun i hi node hnode hname => hex ⟨i, hi, node, hnode, hname⟩)]
    rw [removingNames_new g job b0 hnew]
    rintro ⟨folded, hf, sub, hsub, hname⟩
    rw [← s3] at hf
    obtain ⟨i, hi, hget⟩ := exists_getD_of_mem _ _ [] hf
    exact hex ⟨i, by omega, sub, by rw [hget]; exact hsub, hname⟩

/-- After `BuildXrtLaunchOps`, an operation found under a name that no
operation had before is a fused operation and has no control predecessor. -/
theorem fused_lookup_ctrl_nil (ext : Externals) (b2 b3 : FoldSubgraphBuilder)
    (h3 : b2.BuildXrtLaunchOps ext = some b3) (nm : String)
    (hnone : JobBuilder.OpConf4OpName b2.builder_ nm = none) (c : OperatorConf)
    (hc : JobBuilder.OpConf4OpName b3.builder_ nm = some c) : c.ctrl_in_op_name = [] := by
  unfold FoldSubgraphBuilder.BuildXrtLaunchOps at h3
  obtain ⟨_, _, _, _, _, _, _, _, ops, hall, hops⟩ := buildLoop_spec ext _ b2 b3 h3
  unfold JobBuilder.OpConf4OpName at hc hnone
  rw [hops, List.find?_append, hnone] at hc
  simp only [Option.none_or] at hc
  obtain ⟨i, _, hi⟩ := forall2_mem_right _ _ _ hall c (List.mem_of_find?_eq_some hc)
  exact (opConf_spec ext b2 i c hi).2.1

/-- C6.  No dangling control edges.  Let the constructor and `Build` complete
on a clustered graph and a job that respect the data model: the nodes that own
a sub-graph are the launch nodes, and the name of a launch node is a new
operation name, neither the name of an operation of the job nor the name of a
folded node.  Then, for every node of the graph, regular node or launch node,
the operation the resulting job holds under the node's name has no control
predecessor whose name is in the set of names the cleanup stage removes. -/
theorem C6_no_dangling_control_edges (ext : Externals) (g : XrtGraph) (job : Job)
    (b0 b' : FoldSubgraphBuilder) (hnew : FoldSubgraphBuilder.new g job = some b0)
    (hbuild : b0.Build ext = some b')
    (hsub : ∀ n ∈ g.nodes, n.sub_graph ≠ none → n.type = _XrtLaunchOpType)
    (hfresh : ∀ i ∈ launchNodes g, (g.node i).name ∉ removingNames b0)
    (hnew_name : ∀ i ∈ launchNodes g, JobBuilder.OpConf4OpName job (g.node i).name = none)
    (n : XrtNode) (hn : n ∈ g.nodes) (op : OperatorConf)
    (hop : JobBuilder.OpConf4OpName b'.builder_ n.name = some op) :
    ∀ c ∈ op.ctrl_in_op_name, c ∉ removingNames b0 := by
  obtain ⟨b2, b3, b4, b6, h2, h3, h4, h6, h7⟩ := build_stages ext b0 b' hbuild
  obtain ⟨s2, s3, s4, s6⟩ := build_sameClusters ext b0 b2 b3 b4 b6 h2 h3 h4 h6
  obtain ⟨n1, n2, n3, _⟩ := new_spec g job b0 hnew
  have hrem : removingNames b6 = removingNames b0 := removingNames_congr _ _ s6.1 s6.2.1
  -- the lookup in the final job is a lookup before the cleanup
  have hfinal : JobBuilder.OpConf4OpName b4.builder_ n.name = some op := by
    have hjob : b'.builder_ = JobBuilder.RemoveOpByName b6.builder_ (removingNames b6) := by
      rw [h7]
      rfl
    rw [hjob] at hop
    unfold JobBuilder.OpConf4OpName JobBuilder.RemoveOpByName at hop
    simp only at hop
    rw [find_filter_name] at hop
    split at hop
    · exact absurd hop (by simp)
    · unfold JobBuilder.OpConf4OpName
      rw [← h6.2.2.2.2.2]
      exact hop
  -- the operations of launch nodes start without control predecessors
  have hstart : n.sub_graph ≠ none → ∀ c, JobBuilder.OpConf4OpName b3.builder_ n.name = some c →
      ∀ x ∈ c.ctrl_in_op_name, x ∉ removingNames b0 := by
    intro hsg c hc x hx
    obtain ⟨i, hi, hget⟩ := exists_getD_of_mem _ _ default hn
    have hnode : g.node i = n := hget
    have hlaunch : i ∈ launchNodes g :=
      (mem_launchNodes g i).2 ⟨hi, by rw [hnode]; exact hsub n hn hsg⟩
    have hkeys : opKeys b2.builder_ = opKeys job := by
      have f := (fixupInOutBlobNames_frame ext _ _ h2).2.2.2.2.1
      rw [f, (inferIsAfterAllReduce_frame ext b0).2.1, n2]
    have hnone : JobBuilder.OpConf4OpName b2.builder_ n.name = none := by
      have := find_name_of_keys _ _ hkeys n.name
      rw [← hnode, hnew_name i hlaunch] at this
      rw [← hnode]
      simpa using this
    rw [fused_lookup_ctrl_nil ext b2 b3 h3 n.name hnone c hc] at hx
    exact absurd hx (by simp)
  have hloop := h4
  unfold FoldSubgraphBuilder.FixupControlInOpNames at hloop
  split at hloop
  · have hclean := fixupControlLoop_clean (foldedOpNames b3) (fun x => x ∉ removingNames b0)
      b3.graph_.nodes b3 b4 (rewrittenName_clean g job b0 b3 hnew s3 hfresh) hloop n.name
    refine hclean ?_ op hfinal
    by_cases hsg : n.sub_graph = none
    · exact Or.inr ⟨n, by rw [s3.1, n1]; exact hn, hsg, rfl⟩
    · exact Or.inl (hstart hsg)
  · exact absurd hloop (by simp)

/-- C6 at the demonstration graph, for the node `sink`. -/
theorem C6_no_dangling_control_edges_witness :
    (JobBuilder.OpConf4OpName demoBuiltAll.builder_ "sink").map OperatorConf.ctrl_in_op_name =
        some ["B", "A", "src"] ∧
    removingNames demoBuilder = ["a1", "a2", "b1"] ∧
    ∀ c ∈ ((JobBuilder.OpConf4OpName demoBuiltAll.builder_ "sink").getD
        default).ctrl_in_op_name, c ∉ removingNames demoBuilder :=
  ⟨by decide, by decide,
   C6_no_dangling_control_edges demoExt demoGraph demoJob demoBuilder demoBuiltAll (by decide)
    (by decide) (by decide) (by decide) (by decide) (demoGraph.node 3) (by decide)
    ((JobBuilder.OpConf4OpName demoBuiltAll.builder_ "sink").getD default) (by decide)⟩

theorem forall2_imp_mem {α β : Type} (R S : α → β → Prop) (l : List α) (r : List β)
    (h : List.Forall₂ R l r) (himp : ∀ a x, a ∈ l → R a x → S a x) : List.Forall₂ S l r := by
  induction h with
  | nil => exact List.Forall₂.nil
  | cons hab _ ih =>
    exact List.Forall₂.cons (himp _ _ (List.mem_cons_self _ _) hab)
      (ih (fun a x ha hr => himp a x (List.mem_cons_of_mem _ ha) hr))

/-- Without a folded node named like the launch node, the loop over the folded
nodes adds the control-predecessor names the folded operations declare, all
lists one after the other. -/
theorem launchCtrlFold_noalias (g : XrtGraph) (m : List (String × Nat))
    (look : String → Option OperatorConf) (nm : String) (subs : List XrtSubNode) :
    ∀ (c c' : OperatorConf), (∀ sub ∈ subs, sub.name ≠ nm) →
      launchCtrlFold g m look nm c subs = some c' →
      ∃ declared : List (List String),
        List.Forall₂
          (fun sub d => (look sub.name).map OperatorConf.ctrl_in_op_name = some d)
          subs declared ∧
        c' = declared.flatten.foldl (AddControlInOpName g m) c := by
  induction subs with
  | nil =>
    intro c c' _ h
    simp only [launchCtrlFold, Option.some.injEq] at h
    exact ⟨[], List.Forall₂.nil, by simp [h]⟩
  | cons sub rest ih =>
    intro c c' hne h
    unfold launchCtrlFold at h
    have hs : sub.name ≠ nm := hne sub (List.mem_cons_self _ _)
    simp only [hs, if_false] at h
    cases hl : look sub.name with
    | none => simp [hl] at h
    | some fc =>
      simp only [hl] at h
      obtain ⟨declared, hall, hc'⟩ := ih _ c' (fun s hs' => hne s (List.mem_cons_of_mem _ hs')) h
      refine ⟨fc.ctrl_in_op_name :: declared, List.Forall₂.cons (by simp [hl]) hall, ?_⟩
      rw [hc', List.flatten_cons, List.foldl_append]

/-- The control-predecessor list `FixupControlInOpNames` gives the operation of
a node `L` with a sub-graph, when that operation starts with an empty list: the
first-occurrence de-duplication of the names declared by the operations of the
folded nodes of `L`, each rewritten, without the entries equal to the name of
`L`. -/
theorem fusedControl_spec (b b' : FoldSubgraphBuilder)
    (hrun : b.FixupControlInOpNames = some b')
    (pre post : List XrtNode) (L : XrtNode) (sg : XrtSubGraph)
    (hnodes : b.graph_.nodes = pre ++ L :: post) (hsg : L.sub_graph = some sg)
    (huniq : ∀ x ∈ pre ++ post, x.name ≠ L.name)
    (hfold : ∀ sub ∈ foldedNodesOf sg, ∀ x ∈ b.graph_.nodes, x.name ≠ sub.name)
    (c0 : OperatorConf) (hc0 : JobBuilder.OpConf4OpName b.builder_ L.name = some c0)
    (hempty : c0.ctrl_in_op_name = []) :
    ∃ declared : List (List String),
      List.Forall₂
        (fun sub d => (JobBuilder.OpConf4OpName b.builder_ sub.name).map
          OperatorConf.ctrl_in_op_name = some d)
        (foldedNodesOf sg) declared ∧
      JobBuilder.OpConf4OpName b'.builder_ L.name =
        some { c0 with
          ctrl_in_op_name :=
            (dedupFirst (declared.flatten.map (rewrittenName b.graph_ (foldedOpNames b)))).filter
              fun x => decide (x ≠ L.name) } ∧
      ((dedupFirst (declared.flatten.map (rewrittenName b.graph_ (foldedOpNames b)))).filter
        fun x => decide (x ≠ L.name)).Nodup ∧
      L.name ∉ (dedupFirst (declared.flatten.map (rewrittenName b.graph_ (foldedOpNames b)))).filter
        fun x => decide (x ≠ L.name) := by
  unfold FoldSubgraphBuilder.FixupControlInOpNames at hrun
  split at hrun
  · rw [hnodes, List.foldlM_append] at hrun
    simp only [Option.bind_eq_bind] at hrun
    cases h1 : pre.foldlM (FixupControlInOpNames.step (foldedOpNames b)) b with
    | none => simp [h1] at hrun
    | some b1 =>
      simp only [h1, Option.some_bind, List.foldlM_cons, Option.bind_eq_bind] at hrun
      cases h2 : FixupControlInOpNames.step (foldedOpNames b) b1 L with
      | none => simp [h2] at hrun
      | some b2 =>
        simp only [h2, Option.some_bind] at hrun
        have l1 := fixupControlLoop_lookup_other _ pre L.name b b1 h1
          (fun x hx => huniq x (List.mem_append_left _ hx))
        have l3 := fixupControlLoop_lookup_other _ post L.name b2 b' hrun
          (fun x hx => huniq x (List.mem_append_right _ hx))
        have hg : b1.graph_ = b.graph_ := by
          have := (fixupControlLoop_frame _ pre b b1 h1).1
          rw [this]
        have hlook : ∀ sub ∈ foldedNodesOf sg,
            JobBuilder.OpConf4OpName b1.builder_ sub.name =
              JobBuilder.OpConf4OpName b.builder_ sub.name := by
          intro sub hsub
          exact fixupControlLoop_lookup_other _ pre sub.name b b1 h1
            (fun x hx => hfold sub hsub x (by rw [hnodes]; exact List.mem_append_left _ hx))
        have hLsub : ∀ sub ∈ foldedNodesOf sg, sub.name ≠ L.name := by
          intro sub hsub e
          exact hfold sub hsub L (by rw [hnodes]; simp) e.symm
        obtain ⟨_, _, _, c, c', s4, s5, _, s7⟩ := fixupControlStep_spec _ b1 b2 L h2
        rw [l1, hc0] at s4
        cases s4
        obtain ⟨declared, hall, hc'⟩ := launchCtrlFold_noalias _ _ _ _ _ c0 c' hLsub (s7 sg hsg)
        rw [hg] at hc'
        obtain ⟨a1, a2, a3, a4⟩ := addLoop_spec b.graph_ (foldedOpNames b) declared.flatten c0
        rw [← hc'] at a1 a2 a3 a4
        have hname : c0.name = L.name := opConf4OpName_name _ _ _ hc0
        have hctrl : c'.ctrl_in_op_name =
            (dedupFirst (declared.flatten.map (rewrittenName b.graph_ (foldedOpNames b)))).filter
              fun x => decide (x ≠ L.name) := by
          rw [a4, hempty, foldl_SetInsert_nil, dedupFirst_filter, hname]
        refine ⟨declared, ?_, ?_, ?_, ?_⟩
        · have hmem : ∀ sub d, sub ∈ foldedNodesOf sg →
              (JobBuilder.OpConf4OpName b1.builder_ sub.name).map
                OperatorConf.ctrl_in_op_name = some d →
              (JobBuilder.OpConf4OpName b.builder_ sub.name).map
                OperatorConf.ctrl_in_op_name = some d := by
            intro sub d hsub hd
            rw [← hlook sub hsub]
            exact hd
          exact forall2_imp_mem _ _ _ _ hall hmem
        · rw [l3, s5]
          congr 1
          cases c'
          simp only at a1 a2 a3 hctrl
          simp [a1, a2, a3, hctrl]
        · exact List.Nodup.filter _ (dedupFirst_nodup _)
        · simp [List.mem_filter]
  · exact absurd hrun (by simp)

/-! ## `AddInOutBlobNames` and the wiring between clusters -/

theorem splitChars_ne_nil (d : Char) (l : List Char) : splitChars d l ≠ [] := by
  cases l with
  | nil => simp [splitChars]
  | cons c cs =>
    unfold splitChars
    split
    · simp
    · split <;> simp

theorem splitChars_append (d : Char) (u v : List Char) :
    splitChars d (u ++ d :: v) = splitChars d u ++ splitChars d v := by
  induction u with
  | nil => simp [splitChars]
  | cons c cs ih =>
    by_cases hc : c = d
    · simp [splitChars, hc, ih]
    · simp only [List.cons_append, splitChars, hc, if_false, ih]
      cases hs : splitChars d cs with
      | nil => exact absurd hs (splitChars_ne_nil d cs)
      | cons p ps =>
        have e : cs.append (d :: v) = cs ++ d :: v := rfl
        rw [e, ih, hs]
        rfl

theorem splitChars_no_delim (d : Char) (v : List Char) (h : d ∉ v) : splitChars d v = [v] := by
  induction v with
  | nil => simp [splitChars]
  | cons c cs ih =>
    have hc : ¬ c = d := fun e => h (by simp [e])
    have hcs : d ∉ cs := fun e => h (List.mem_cons_of_mem _ e)
    simp [splitChars, hc, ih hcs]

theorem slash_not_mem_decimal (k : Nat) : '/' ∉ (decimal k).data := by
  intro h
  obtain ⟨d, hd, hc⟩ := decimalDigits_digit (k + 1) k '/' h
  exact digitChar_ne_slash d hd hc.symm

/-- When a boundary name splits on `'/'` into two pieces, the second piece is
the port name `out_k`. -/
theorem boundary_name_second_segment (launch : String) (k : Nat)
    (h : (StrSplit (launch ++ "/out_" ++ decimal k) '/').length = 2) :
    (StrSplit (launch ++ "/out_" ++ decimal k) '/').getD 1 "" = "out_" ++ decimal k := by
  unfold StrSplit at h ⊢
  have hdata : (launch ++ "/out_" ++ decimal k).data =
      launch.data ++ '/' :: (("out_" : String) ++ decimal k).data := by
    simp [String.data_append]
  have hno : '/' ∉ (("out_" : String) ++ decimal k).data := by
    simp only [String.data_append, List.mem_append, not_or]
    exact ⟨by decide, slash_not_mem_decimal k⟩
  rw [hdata, splitChars_append, splitChars_no_delim _ _ hno] at h ⊢
  simp only [List.map_append, List.map_cons, List.map_nil, List.length_append,
    List.length_map, List.length_singleton] at h ⊢
  have hlen : (splitChars '/' launch.data).length = 1 := by omega
  cases hs : splitChars '/' launch.data with
  | nil => simp [hs] at hlen
  | cons p ps =>
    cases ps with
    | nil =>
      simp only [List.nil_append, List.map_cons, List.map_nil, List.getD_cons_succ,
        List.getD_cons_zero]
      apply String.ext
      simp [String.data_append]
    | cons q qs => simp [hs] at hlen

theorem inLoop_in (g : XrtGraph) (es : List Nat) :
    ∀ conf : XrtLaunchOpConf,
      (es.foldl (AddInOutBlobNames.inStep g) conf).in_ =
        (dataArgNames g es).foldl SetInsert conf.in_ := by
  induction es with
  | nil => intro conf; rfl
  | cons e rest ih =>
    intro conf
    simp only [List.foldl_cons, ih]
    unfold AddInOutBlobNames.inStep dataArgNames
    cases hedge : g.edges[e]? with
    | none => simp [hedge]
    | some edge =>
      cases hc : edge.is_control_edge with
      | true => simp [hedge, hc]
      | false => simp [hedge, hc, DoNoDuplicationAdd, SetInsert]

theorem outLoop_out (g : XrtGraph) (es : List Nat) :
    ∀ (conf conf' : XrtLaunchOpConf),
      es.foldlM (AddInOutBlobNames.outStep g) conf = some conf' →
      conf'.out = ((dataArgNames g es).map secondSegment).foldl SetInsert conf.out ∧
      ∀ name ∈ dataArgNames g es, (StrSplit name '/').length = 2 := by
  induction es with
  | nil =>
    intro conf conf' h
    simp only [List.foldlM_nil, Option.pure_def, Option.some.injEq] at h
    subst h
    exact ⟨rfl, by simp [dataArgNames]⟩
  | cons e rest ih =>
    intro conf conf' h
    simp only [List.foldlM_cons, Option.bind_eq_bind] at h
    cases hstep : AddInOutBlobNames.outStep g conf e with
    | none => simp [hstep] at h
    | some mid =>
      rw [hstep] at h
      obtain ⟨i1, i2⟩ := ih mid conf' h
      unfold AddInOutBlobNames.outStep at hstep
      cases hedge : g.edges[e]? with
      | none =>
        simp only [hedge, Option.some.injEq] at hstep
        subst hstep
        have : dataArgNames g (e :: rest) = dataArgNames g rest := by
          simp [dataArgNames, hedge]
        rw [this]
        exact ⟨i1, i2⟩
      | some edge =>
        simp only [hedge] at hstep
        cases hc : edge.is_control_edge with
        | true =>
          simp only [hc, Bool.not_true, Bool.false_eq_true, if_false, Option.some.injEq] at hstep
          subst hstep
          have : dataArgNames g (e :: rest) = dataArgNames g rest := by
            simp [dataArgNames, hedge, hc]
          rw [this]
          exact ⟨i1, i2⟩
        | false =>
          simp only [hc, Bool.not_false, if_true] at hstep
          have hnames : dataArgNames g (e :: rest) =
              edge.argument.name :: dataArgNames g rest := by
            simp [dataArgNames, hedge, hc]
          by_cases hlen : (StrSplit edge.argument.name '/').length = 2
          · simp only [hlen, if_true, Option.some.injEq] at hstep
            subst hstep
            rw [hnames]
            refine ⟨?_, ?_⟩
            · rw [i1]
              simp [DoNoDuplicationAdd, SetInsert, secondSegment]
            · intro name hname
              rcases List.mem_cons.1 hname with h1 | h1
              · rw [h1]; exact hlen
              · exact i2 name h1
          · simp [hlen] at hstep

/-- The name lists `AddInOutBlobNames` produces from an empty configuration:
the de-duplicated names of the data in-edges, and the de-duplicated second
segments of the names of the data out-edges, each of which splits in two. -/
theorem addInOutBlobNames_spec (g : XrtGraph) (node : XrtNode) (conf : XrtLaunchOpConf)
    (h : AddInOutBlobNames g node default = some conf) :
    conf.in_ = dedupFirst (dataArgNames g node.in_edges) ∧
    conf.out = dedupFirst ((dataArgNames g node.out_edges).map secondSegment) ∧
    ∀ name ∈ dataArgNames g node.out_edges, (StrSplit name '/').length = 2 := by
  unfold AddInOutBlobNames at h
  obtain ⟨h1, h2⟩ := outLoop_out g node.out_edges _ conf h
  obtain ⟨h3, _⟩ := outLoop_frame g node.out_edges _ conf h
  obtain ⟨h4, _⟩ := inLoop_frame g node.in_edges default
  refine ⟨?_, ?_, h2⟩
  · rw [h3, inLoop_in, ← foldl_SetInsert_nil]
    rfl
  · rw [h1, h4, ← foldl_SetInsert_nil]
    rfl

/-- Data argument names of the edges `es` after the out-edge loops: an edge
among the renamed ones carries the table's name for its old name, any other
edge carries its old name. -/
theorem mem_dataArgNames_fixup (table : List (String × String)) (allOut : List Nat)
    (g g2 : XrtGraph)
    (hedges : ∀ i, g2.edges[i]? = (g.edges[i]?).map (fixupEdgeAt table allOut i))
    (es : List Nat) (x : String) (hx : x ∈ dataArgNames g2 es) :
    ∃ e ∈ es, ∃ edge, g.edges[e]? = some edge ∧ edge.is_control_edge = false ∧
      ((e ∈ allOut ∧ x = (MapFind table edge.argument.name).getD "") ∨
       (e ∉ allOut ∧ x = edge.argument.name)) := by
  unfold dataArgNames at hx
  rw [List.mem_filterMap] at hx
  obtain ⟨e, he, hx⟩ := hx
  rw [hedges e] at hx
  cases hg : g.edges[e]? with
  | none => simp [hg] at hx
  | some edge =>
    refine ⟨e, he, edge, hg, ?_⟩
    simp only [hg, Option.map_some'] at hx
    unfold fixupEdgeAt at hx
    cases hc : edge.is_control_edge with
    | true => simp [hc] at hx
    | false =>
      refine ⟨rfl, ?_⟩
      by_cases hmem : e ∈ allOut
      · simp [hmem, hc, renameEdge] at hx
        exact Or.inl ⟨hmem, hx.symm⟩
      · simp [hmem, hc] at hx
        exact Or.inr ⟨hmem, hx.symm⟩

theorem dataArgNames_fixup_mem (table : List (String × String)) (allOut : List Nat)
    (g g2 : XrtGraph)
    (hedges : ∀ i, g2.edges[i]? = (g.edges[i]?).map (fixupEdgeAt table allOut i))
    (es : List Nat) (e : Nat) (he : e ∈ es) (hout : e ∈ allOut) (edge : XrtEdge)
    (hedge : g.edges[e]? = some edge) (hc : edge.is_control_edge = false) :
    (MapFind table edge.argument.name).getD "" ∈ dataArgNames g2 es := by
  unfold dataArgNames
  rw [List.mem_filterMap]
  refine ⟨e, he, ?_⟩
  rw [hedges e, hedge]
  simp [fixupEdgeAt, hout, hc, renameEdge]

/-- The table entry of the name of a data out-edge of a launch node `l`: the
boundary name of `l` with an ordinal below the number of distinct output names
of `l`. -/
theorem launch_out_name_entry (g : XrtGraph) (ls : List Nat)
    (hnd : ((expectedTable g ls).map Prod.fst).Nodup) (l : Nat) (hl : l ∈ ls)
    (a : String) (ha : a ∈ dataArgNames g (g.node l).out_edges) :
    ∃ j, j < (outArgNames g l).length ∧
      MapFind (expectedTable g ls) a = some ((g.node l).name ++ "/out_" ++ decimal j) := by
  have hmem : a ∈ outArgNames g l := by
    unfold outArgNames
    rw [foldl_SetInsert_mem]
    exact Or.inr ha
  obtain ⟨s, t, hst⟩ := List.append_of_mem hmem
  refine ⟨s.length, ?_, ?_⟩
  · rw [hst]
    simp
  · exact MapFind_of_mem_nodup _ _ _ hnd (mem_expectedTable g ls l hl s t a hst)

/-- What `FixupInOutBlobNames` does to the graph of a builder that has an empty
table and the launch nodes of a well-formed graph. -/
theorem fixupInOutBlobNames_graph (ext : Externals) (b b2 : FoldSubgraphBuilder)
    (hwf : b.graph_.WellFormed) (hlaunch : b.launch_nodes_ = launchNodes b.graph_)
    (hempty : b.fixedup_names_ = [])
    (h2 : b.FixupInOutBlobNames ext = some b2) :
    ((expectedTable b.graph_ b.launch_nodes_).map Prod.fst).Nodup ∧
    b2.graph_.nodes = b.graph_.nodes ∧ b2.launch_nodes_ = b.launch_nodes_ ∧
    ∀ i, b2.graph_.edges[i]? =
      (b.graph_.edges[i]?).map
        (fixupEdgeAt (expectedTable b.graph_ b.launch_nodes_)
          (launchOutEdges b.graph_ b.launch_nodes_) i) := by
  unfold FoldSubgraphBuilder.FixupInOutBlobNames at h2
  have hnd : (launchOutEdges b.graph_ b.launch_nodes_).Nodup := by
    rw [hlaunch]
    exact launchOutEdges_nodup _ hwf
  obtain ⟨h1, _, h3, h4, h5, _, _, _, h9⟩ := nodeLoop_spec ext b.launch_nodes_ b b2 h2 hnd
  rw [hempty, List.nil_append] at h1
  rw [h1] at h9
  exact ⟨h3, h4, h5, h9⟩

/-- The fused operation `BuildXrtLaunchOps` adds for the `i`-th launch node:
its place in the job, its name and its `in` and `out` lists, read off the
edges of the node. -/
theorem fused_op_lists (ext : Externals) (b2 b3 : FoldSubgraphBuilder)
    (h3 : b2.BuildXrtLaunchOps ext = some b3) (i : Nat) (hi : i < b2.launch_nodes_.length) :
    ∃ op conf, b3.builder_.op[b2.builder_.op.length + i]? = some op ∧
      op.name = (b2.graph_.node (b2.launch_nodes_.getD i 0)).name ∧
      op.op_type = OpTypeCase.kXrtLaunchConf conf ∧
      conf.in_ = dedupFirst (dataArgNames b2.graph_
        (b2.graph_.node (b2.launch_nodes_.getD i 0)).in_edges) ∧
      conf.out = dedupFirst ((dataArgNames b2.graph_
        (b2.graph_.node (b2.launch_nodes_.getD i 0)).out_edges).map secondSegment) ∧
      ∀ name ∈ dataArgNames b2.graph_ (b2.graph_.node (b2.launch_nodes_.getD i 0)).out_edges,
        (StrSplit name '/').length = 2 := by
  obtain ⟨op, hget, hop⟩ := buildXrtLaunchOps_get ext b2 b3 h3 i hi
  obtain ⟨hname, _, conf, conf0, htype, hconf0, hin, hout, _⟩ := opConf_spec ext b2 i op hop
  obtain ⟨k1, k2, k3⟩ := addInOutBlobNames_spec _ _ conf0 hconf0
  exact ⟨op, conf, hget, hname, htype, hin.trans k1, hout.trans k2, k3⟩

/-- The tags `InferIsAfterAllReduce` computes from an empty set satisfy the
fixed-point equation at every node. -/
theorem infer_fixed_point (ext : Externals) (b : FoldSubgraphBuilder)
    (hempty : b.after_allreduce_nodes_ = [])
    (htopo : IsTopologicalOrder b.graph_ (ext.TopologyVisit b.graph_)) (m : Nat) :
    m ∈ (b.InferIsAfterAllReduce ext).after_allreduce_nodes_ ↔
      ∃ s ∈ b.graph_.predecessors m,
        tagSource b.graph_ (b.InferIsAfterAllReduce ext).after_allreduce_nodes_ s := by
  obtain ⟨hnd, hall, hord⟩ := htopo
  have hinv0 : TagInv b.graph_ [] b.after_allreduce_nodes_ := by
    rw [hempty]
    exact ⟨by simp, by simp, by simp, by simp⟩
  obtain ⟨_, ha, hb, _, _⟩ := inferLoop_spec (ext.TopologyVisit b.graph_) [] b hinv0
    (by simpa using hnd) (by simpa using hord)
  simp only [List.nil_append] at ha hb
  by_cases hm : m ∈ ext.TopologyVisit b.graph_
  · exact hb m hm
  · have hge : ¬ m < b.graph_.nodes.length := fun h => hm (hall m h)
    have hpred : b.graph_.predecessors m = [] := by
      unfold XrtGraph.predecessors XrtGraph.node
      rw [List.getD_eq_default _ _ (by omega)]
      rfl
    constructor
    · intro h
      exact absurd (ha m h) hm
    · rintro ⟨s, hs, _⟩
      rw [hpred] at hs
      exact absurd hs (by simp)

/-- C11. Monotone after-all-reduce tagging.  Let no node be tagged at the start
and let the traversal visit every node once, predecessors first (so the graph
is acyclic).  If a node `x` is tagged after `InferIsAfterAllReduce`, then every
node `y` reached from `x` along edges of the graph, control edges included, is
tagged as well: the tagged set is closed under successors. -/
theorem C11_tagging_closed_under_successors (ext : Externals) (b : FoldSubgraphBuilder)
    (hempty : b.after_allreduce_nodes_ = [])
    (htopo : IsTopologicalOrder b.graph_ (ext.TopologyVisit b.graph_)) (x y : Nat)
    (hx : x ∈ (b.InferIsAfterAllReduce ext).after_allreduce_nodes_)
    (hreach : Relation.ReflTransGen (fun u v => u ∈ b.graph_.predecessors v) x y) :
    y ∈ (b.InferIsAfterAllReduce ext).after_allreduce_nodes_ := by
  induction hreach with
  | refl => exact hx
  | tail _ hstep ih =>
    exact (infer_fixed_point ext b hempty htopo _).2 ⟨_, hstep, Or.inl ih⟩

/-- C11 at `demoReduceGraph`: the cluster `V` (node 2) is tagged, and so is
`sink` (node 3), which a control edge from `V` reaches. -/
theorem C11_tagging_closed_under_successors_witness :
    2 ∈ (demoReduceNew.InferIsAfterAllReduce demoExt).after_allreduce_nodes_ ∧
    2 ∈ demoReduceNew.graph_.predecessors 3 ∧
    3 ∈ (demoReduceNew.InferIsAfterAllReduce demoExt).after_allreduce_nodes_ :=
  ⟨by decide, by decide,
   C11_tagging_closed_under_successors demoExt demoReduceNew (by decide) (by decide) 2 3
    (by decide) (Relation.ReflTransGen.single (by decide))⟩

/-! ## The name lists of `AddInOutBlobNames` -/

/-- The out-edge loop of `AddInOutBlobNames` completes when every data edge
name splits on `'/'` into two pieces. -/
theorem outLoop_total (g : XrtGraph) (es : List Nat)
    (hsplit : ∀ name ∈ dataArgNames g es, (StrSplit name '/').length = 2) :
    ∀ conf : XrtLaunchOpConf, ∃ conf', es.foldlM (AddInOutBlobNames.outStep g) conf = some conf' := by
  induction es with
  | nil => intro conf; exact ⟨conf, rfl⟩
  | cons e rest ih =>
    intro conf
    simp only [List.foldlM_cons, Option.bind_eq_bind]
    have hrest : ∀ name ∈ dataArgNames g rest, (StrSplit name '/').length = 2 := by
      intro name hname
      apply hsplit
      unfold dataArgNames at hname ⊢
      rw [List.filterMap_cons]
      split
      · exact hname
      · exact List.mem_cons_of_mem _ hname
    have hstep : ∃ mid, AddInOutBlobNames.outStep g conf e = some mid := by
      unfold AddInOutBlobNames.outStep
      cases hedge : g.edges[e]? with
      | none => exact ⟨conf, rfl⟩
      | some edge =>
        cases hc : edge.is_control_edge with
        | true => exact ⟨conf, by simp [hc]⟩
        | false =>
          have hlen := hsplit edge.argument.name
            (mem_dataArgNames g (e :: rest) e edge (List.mem_cons_self _ _) hedge hc)
          refine ⟨{ conf with
            out := DoNoDuplicationAdd conf.out ((StrSplit edge.argument.name '/').getD 1 "") }, ?_⟩
          simp [hc, hlen]
    obtain ⟨mid, hmid⟩ := hstep
    rw [hmid]
    exact ih hrest mid

theorem outEdgeFold_spec (ext : Externals) (sub_graph : XrtSubGraph) (es : List XrtEdge) :
    ∀ (v : String) (m : Bool),
      es.foldl
        (fun (st : String × Bool) edge =>
          (edge.argument.name,
           st.2 || IsMutableArgument ext (sub_graph.nodes.getD edge.end_ default) edge.argument))
        (v, m) =
      (es.foldl (fun _ edge => edge.argument.name) v,
       m || es.any fun edge =>
         IsMutableArgument ext (sub_graph.nodes.getD edge.end_ default) edge.argument) := by
  induction es with
  | nil => intro v m; simp
  | cons e rest ih =>
    intro v m
    simp only [List.foldl_cons, List.any_cons]
    rw [ih]
    simp [Bool.or_assoc]

/-- One iteration of the node loop of `buildFunction`, case by case. -/
theorem buildFunction_step_spec (ext : Externals) (sub_graph : XrtSubGraph)
    (mutability : List String) (function : LaunchFunction) (node : XrtSubNode) :
    buildFunction.step ext sub_graph (mutability, function) node =
      if node.is_argument_node = false then
        some (mutability, { function with node := function.node ++ [node.param] })
      else if oneSided node then
        some (if hasMutableOutEdge ext sub_graph node = true
                then SetInsert mutability (argValue node) else mutability,
              { function with argument := function.argument ++ [launchArgumentOf ext node] })
      else none := by
  unfold buildFunction.step
  cases harg : node.is_argument_node with
  | false => simp
  | true =>
    simp only [Bool.not_true, Bool.false_eq_true, if_false]
    by_cases hone : oneSided node
    · have hone' := hone
      unfold oneSided at hone'
      simp only [hone', hone, if_true, outEdgeFold_spec, Bool.false_or]
      rfl
    · have hone' := hone
      unfold oneSided at hone'
      simp only [hone', hone, if_false]
      rfl

/-- The node loop of `buildFunction`: it completes exactly when every argument
node has edges on one side only, and then the mutability set has grown by the
values of the argument nodes with a mutable out-edge, the arguments by one
argument per argument node, and the body by the payloads of the other nodes. -/
theorem buildFunction_loop_spec (ext : Externals) (sub_graph : XrtSubGraph)
    (l : List XrtSubNode) :
    ∀ (mutability : List String) (function : LaunchFunction),
      l.foldlM (buildFunction.step ext sub_graph) (mutability, function) =
        if ∀ node ∈ l, node.is_argument_node = true → oneSided node then
          some ((mutableValues ext sub_graph l).foldl SetInsert mutability,
                { argument := function.argument ++
                    (l.filter fun n => n.is_argument_node).map (launchArgumentOf ext),
                  node := function.node ++
                    (l.filter fun n => !n.is_argument_node).map XrtSubNode.param })
        else none := by
  induction l with
  | nil =>
    intro mutability function
    simp [mutableValues]
  | cons n rest ih =>
    intro mutability function
    simp only [List.foldlM_cons, Option.bind_eq_bind]
    rw [buildFunction_step_spec]
    cases harg : n.is_argument_node with
    | false =>
      simp only [if_true, Option.some_bind, ih]
      have hall : (∀ node ∈ n :: rest, node.is_argument_node = true → oneSided node) ↔
          ∀ node ∈ rest, node.is_argument_node = true → oneSided node := by
        simp [harg]
      simp only [hall, mutableValues, List.filter_cons, harg, Bool.false_and, Bool.not_false,
        Bool.false_eq_true, if_false, if_true, List.map_cons, List.append_assoc,
        List.singleton_append]
    | true =>
      simp only [Bool.true_eq_false, if_false]
      by_cases hone : oneSided n
      · have hall : (∀ node ∈ n :: rest, node.is_argument_node = true → oneSided node) ↔
            ∀ node ∈ rest, node.is_argument_node = true → oneSided node := by
          simp [hone]
        simp only [hone, if_true, Option.some_bind, ih, hall]
        cases hmut : hasMutableOutEdge ext sub_graph n with
        | false =>
          simp only [mutableValues, List.filter_cons, harg, hmut, Bool.and_false, Bool.not_true,
            Bool.false_eq_true, if_false, if_true, List.map_cons, List.append_assoc,
            List.singleton_append]
        | true =>
          simp only [mutableValues, List.filter_cons, harg, hmut, Bool.and_true, Bool.not_true,
            Bool.false_eq_true, if_false, if_true, List.map_cons, List.append_assoc,
            List.singleton_append, List.foldl_cons]
      · have hall : ¬ ∀ node ∈ n :: rest, node.is_argument_node = true → oneSided node := by
          intro h
          exact hone (h n (List.mem_cons_self _ _) harg)
        simp only [hone, if_false, Option.none_bind, hall]

theorem hasMutableOutEdge_iff (ext : Externals) (sub_graph : XrtSubGraph) (node : XrtSubNode) :
    hasMutableOutEdge ext sub_graph node = true ↔
      ∃ edge ∈ node.out_edges, ∃ vars,
        ext.LookupMutableVars (sub_graph.nodes.getD edge.end_ default).device
          (sub_graph.nodes.getD edge.end_ default).type = some vars ∧
        edge.argument.meta_data.consume_key ∈ vars := by
  unfold hasMutableOutEdge
  rw [List.any_eq_true]
  constructor
  · rintro ⟨edge, hedge, hmut⟩
    refine ⟨edge, hedge, ?_⟩
    generalize sub_graph.nodes.getD edge.end_ default = consumer at hmut ⊢
    unfold IsMutableArgument at hmut
    cases hl : ext.LookupMutableVars consumer.device consumer.type with
    | none =>
      rw [hl] at hmut
      exact absurd hmut (by simp)
    | some vars =>
      rw [hl] at hmut
      exact ⟨vars, rfl, by simpa using hmut⟩
  · rintro ⟨edge, hedge, vars, hl, hkey⟩
    refine ⟨edge, hedge, ?_⟩
    generalize sub_graph.nodes.getD edge.end_ default = consumer at hl ⊢
    unfold IsMutableArgument
    rw [hl]
    simpa using hkey

/-- C14. Mutability inference in `buildFunction`.  For a sub-graph whose
argument nodes each have edges on one side only, `buildFunction` returns, and
the mutability set it returns from an empty set holds, in first-occurrence
order, the values of the argument nodes that have an out-edge whose consumer
has a `"MutableVars"` attribute (looked up by the consumer's device and type)
containing the consume key of the edge.  So a value is in the set exactly when
it is the value of such an argument node; argument nodes without out-edge and
consumers without the attribute cause no insertion. -/
theorem C14_mutability_inference (ext : Externals) (sub_graph : XrtSubGraph)
    (function : LaunchFunction)
    (hone : ∀ node ∈ sub_graph.nodes, node.is_argument_node = true → oneSided node) :
    ∃ mutability built, buildFunction ext sub_graph [] function = some (mutability, built) ∧
      mutability = dedupFirst (mutableValues ext sub_graph sub_graph.nodes) ∧
      ∀ v, v ∈ mutability ↔
        ∃ node ∈ sub_graph.nodes, node.is_argument_node = true ∧ argValue node = v ∧
          ∃ edge ∈ node.out_edges, ∃ vars,
            ext.LookupMutableVars (sub_graph.nodes.getD edge.end_ default).device
              (sub_graph.nodes.getD edge.end_ default).type = some vars ∧
            edge.argument.meta_data.consume_key ∈ vars := by
  have hrun := buildFunction_loop_spec ext sub_graph sub_graph.nodes [] function
  rw [if_pos hone] at hrun
  refine ⟨_, _, hrun, foldl_SetInsert_nil _, ?_⟩
  intro v
  rw [foldl_SetInsert_mem]
  simp only [List.not_mem_nil, false_or, mutableValues, List.mem_map, List.mem_filter,
    Bool.and_eq_true]
  constructor
  · rintro ⟨node, ⟨hnode, harg, hmut⟩, hv⟩
    exact ⟨node, hnode, harg, hv, (hasMutableOutEdge_iff ext sub_graph node).1 hmut⟩
  · rintro ⟨node, hnode, harg, hv, hmut⟩
    exact ⟨node, ⟨hnode, harg, (hasMutableOutEdge_iff ext sub_graph node).2 hmut⟩, hv⟩

/-- C14 at the sub-graph of `A`: the argument `src/x` is consumed by the `Relu`
node `a1` through its key `in`, which is declared mutable; the output argument
`a1/y` has no out-edge.  The mutability set is `["src/x"]`. -/
theorem C14_mutability_inference_witness :
    (buildFunction demoMutableExt demoSubGraph [] default).map Prod.fst = some ["src/x"] ∧
    ∃ mutability built,
      buildFunction demoMutableExt demoSubGraph [] default = some (mutability, built) ∧
      mutability = dedupFirst (mutableValues demoMutableExt demoSubGraph demoSubGraph.nodes) ∧
      ∀ v, v ∈ mutability ↔
        ∃ node ∈ demoSubGraph.nodes, node.is_argument_node = true ∧ argValue node = v ∧
          ∃ edge ∈ node.out_edges, ∃ vars,
            demoMutableExt.LookupMutableVars (demoSubGraph.nodes.getD edge.end_ default).device
              (demoSubGraph.nodes.getD edge.end_ default).type = some vars ∧
            edge.argument.meta_data.consume_key ∈ vars :=
  ⟨by decide, C14_mutability_inference demoMutableExt demoSubGraph default (by decide)⟩

theorem MapFind_MapSet {β : Type} (m : List (String × β)) (key : String) (val : β)
    (key' : String) :
    MapFind (MapSet m key val) key' = if key = key' then some val else MapFind m key' := by
  induction m with
  | nil => simp [MapSet, MapFind]
  | cons kv rest ih =>
    obtain ⟨k, v⟩ := kv
    by_cases hk : k = key
    · subst hk
      by_cases hk' : k = key'
      · simp [MapSet, MapFind, hk']
      · simp [MapSet, MapFind, hk']
    · by_cases hk' : k = key'
      · subst hk'
        have hne : ¬ key = k := fun e => hk e.symm
        simp [MapSet, MapFind, hk, hne]
      · simp [MapSet, MapFind, hk, hk', ih]

theorem inLoop_sameMaps (g : XrtGraph) (es : List Nat) :
    ∀ conf : XrtLaunchOpConf, sameMaps conf (es.foldl (AddInOutBlobNames.inStep g) conf) := by
  induction es with
  | nil => intro conf; exact ⟨rfl, rfl, rfl, rfl⟩
  | cons e rest ih =>
    intro conf
    simp only [List.foldl_cons]
    obtain ⟨h1, h2, h3, h4⟩ := ih (AddInOutBlobNames.inStep g conf e)
    have hs : sameMaps conf (AddInOutBlobNames.inStep g conf e) := by
      unfold AddInOutBlobNames.inStep
      cases g.edges[e]? with
      | none => exact ⟨rfl, rfl, rfl, rfl⟩
      | some edge =>
        simp only
        split <;> exact ⟨rfl, rfl, rfl, rfl⟩
    exact ⟨h1.trans hs.1, h2.trans hs.2.1, h3.trans hs.2.2.1, h4.trans hs.2.2.2⟩

theorem outLoop_sameMaps (g : XrtGraph) (es : List Nat) :
    ∀ (conf conf' : XrtLaunchOpConf),
      es.foldlM (AddInOutBlobNames.outStep g) conf = some conf' → sameMaps conf conf' := by
  induction es with
  | nil =>
    intro conf conf' h
    simp only [List.foldlM_nil, Option.pure_def, Option.some.injEq] at h
    subst h
    exact ⟨rfl, rfl, rfl, rfl⟩
  | cons e rest ih =>
    intro conf conf' h
    simp only [List.foldlM_cons, Option.bind_eq_bind] at h
    cases hstep : AddInOutBlobNames.outStep g conf e with
    | none => simp [hstep] at h
    | some mid =>
      rw [hstep] at h
      obtain ⟨h1, h2, h3, h4⟩ := ih mid conf' h
      have hs : sameMaps conf mid := by
        unfold AddInOutBlobNames.outStep at hstep
        cases hedge : g.edges[e]? with
        | none =>
          simp only [hedge, Option.some.injEq] at hstep
          subst hstep
          exact ⟨rfl, rfl, rfl, rfl⟩
        | some edge =>
          simp only [hedge] at hstep
          split at hstep
          · split at hstep
            · simp only [Option.some.injEq] at hstep
              subst hstep
              exact ⟨rfl, rfl, rfl, rfl⟩
            · exact absurd hstep (by simp)
          · simp only [Option.some.injEq] at hstep
            subst hstep
            exact ⟨rfl, rfl, rfl, rfl⟩
      exact ⟨h1.trans hs.1, h2.trans hs.2.1, h3.trans hs.2.2.1, h4.trans hs.2.2.2⟩

theorem addInOutBlobNames_sameMaps (g : XrtGraph) (node : XrtNode)
    (conf conf' : XrtLaunchOpConf) (h : AddInOutBlobNames g node conf = some conf') :
    sameMaps conf conf' := by
  unfold AddInOutBlobNames at h
  obtain ⟨h1, h2, h3, h4⟩ := outLoop_sameMaps g _ _ conf' h
  obtain ⟨k1, k2, k3, k4⟩ := inLoop_sameMaps g node.in_edges conf
  exact ⟨h1.trans k1, h2.trans k2, h3.trans k3, h4.trans k4⟩

/-- The function and the argument maps of the fused operation built for the
`i`-th launch node: the function is what `buildFunction` returns from an empty
function, and the maps are those the loop over its arguments builds from empty
maps. -/
theorem opConf_function_spec (ext : Externals) (b : FoldSubgraphBuilder) (i : Nat)
    (op : OperatorConf) (h : BuildXrtLaunchOps.opConf ext b i = some op) :
    ∃ sub_graph mutability conf base,
      (b.graph_.node (b.launch_nodes_.getD i 0)).sub_graph = some sub_graph ∧
      buildFunction ext sub_graph [] ⟨[], []⟩ = some (mutability, conf.function) ∧
      op.op_type = OpTypeCase.kXrtLaunchConf conf ∧
      base.mutability = [] ∧ base.input_output_mapping = [] ∧
      conf.input_output_mapping =
        (conf.function.argument.foldl (BuildXrtLaunchOps.argStep b mutability)
          base).input_output_mapping ∧
      conf.mutability =
        (conf.function.argument.foldl (BuildXrtLaunchOps.argStep b mutability)
          base).mutability := by
  unfold BuildXrtLaunchOps.opConf at h
  generalize b.launch_nodes_.getD i 0 = nid at h ⊢
  cases hsub : (b.graph_.node nid).sub_graph with
  | none => simp [hsub] at h
  | some sub_graph =>
    cases hconf0 : AddInOutBlobNames b.graph_ (b.graph_.node nid) default with
    | none => simp [hsub, hconf0] at h
    | some conf0 =>
      simp only [hsub, hconf0, Option.some_bind, Option.map_eq_some'] at h
      obtain ⟨built, hbuilt, hop⟩ := h
      obtain ⟨s1, s2, s3, _⟩ := addInOutBlobNames_sameMaps _ _ _ _ hconf0
      obtain ⟨_, _, f3, _⟩ := argLoop_frame b built.1 built.2.argument
        { conf0 with function := built.2 }
      have hfun : conf0.function = ⟨[], []⟩ := s1
      rw [hfun] at hbuilt
      subst hop
      refine ⟨sub_graph, built.1, _, { conf0 with function := built.2 }, rfl, ?_, rfl,
        s2, s3, ?_, ?_⟩
      · have hf : (if b.IsAfterAllReduce nid = true ∧ (b.graph_.node nid).out_edges.length = 0
            then { (built.2.argument.foldl (BuildXrtLaunchOps.argStep b built.1)
                    { conf0 with function := built.2 }) with model_update := true }
            else built.2.argument.foldl (BuildXrtLaunchOps.argStep b built.1)
                    { conf0 with function := built.2 }).function = built.2 := by
          split
          · exact f3
          · exact f3
        rw [hf]
        exact hbuilt
      · split
        · simp only
          rw [f3]
        · rw [f3]
      · split
        · simp only
          rw [f3]
        · rw [f3]

theorem length_eq_of_getElem?_map {α : Type} (l1 l2 : List α) (f : Nat → α → α)
    (h : ∀ i, l2[i]? = (l1[i]?).map (f i)) : l2.length = l1.length := by
  apply Nat.le_antisymm
  · by_contra hlt
    have h1 := h l1.length
    rw [List.getElem?_eq_none (Nat.le_refl _), Option.map_none'] at h1
    rw [List.getElem?_eq_none_iff] at h1
    omega
  · by_contra hlt
    have h1 := h l2.length
    rw [List.getElem?_eq_none (Nat.le_refl _)] at h1
    have h2 : l1[l2.length]? = none := by
      cases hx : l1[l2.length]? with
      | none => rfl
      | some x => rw [hx] at h1; exact absurd h1 (by simp)
    rw [List.getElem?_eq_none_iff] at h2
    omega

/-- C15. Conservation of data edges under renaming.  Let the builder have the
launch nodes of a well-formed graph and let `FixupInOutBlobNames` return.  The
nodes and their edge lists are as before and the graph has as many edges as
before; every edge keeps its endpoints, its kind, its placement attribute and
the shape, data type and meta-data of its argument, so its argument differs at
most in its name; a data out-edge of a launch node carries the name the table
holds for its old name; a control edge, an edge that is not an out-edge of a
launch node, and in particular an edge that starts at a node that is not a
launch node, is unchanged. -/
theorem C15_edge_conservation (ext : Externals) (b b' : FoldSubgraphBuilder)
    (hwf : b.graph_.WellFormed) (hlaunch : b.launch_nodes_ = launchNodes b.graph_)
    (hrun : b.FixupInOutBlobNames ext = some b') :
    b'.graph_.nodes = b.graph_.nodes ∧
    b'.graph_.edges.length = b.graph_.edges.length ∧
    ∀ i edge, b.graph_.edges[i]? = some edge →
      ∃ edge', b'.graph_.edges[i]? = some edge' ∧
        edge'.start = edge.start ∧ edge'.end_ = edge.end_ ∧
        edge'.is_control_edge = edge.is_control_edge ∧ edge'.sbp_policy = edge.sbp_policy ∧
        edge'.argument.shape = edge.argument.shape ∧
        edge'.argument.data_type = edge.argument.data_type ∧
        edge'.argument.meta_data = edge.argument.meta_data ∧
        (edge.is_control_edge = false → i ∈ launchOutEdges b.graph_ b.launch_nodes_ →
          MapFind b'.fixedup_names_ edge.argument.name = some edge'.argument.name) ∧
        (edge.is_control_edge = true ∨ i ∉ launchOutEdges b.graph_ b.launch_nodes_ →
          edge' = edge) ∧
        ((b.graph_.node edge.start).type ≠ _XrtLaunchOpType → edge' = edge) := by
  unfold FoldSubgraphBuilder.FixupInOutBlobNames at hrun
  have hnd : (launchOutEdges b.graph_ b.launch_nodes_).Nodup := by
    rw [hlaunch]
    exact launchOutEdges_nodup _ hwf
  obtain ⟨h1, _, _, h4, _, _, _, _, h9⟩ := nodeLoop_spec ext b.launch_nodes_ b b' hrun hnd
  refine ⟨h4, length_eq_of_getElem?_map _ _ _ h9, ?_⟩
  intro i edge hedge
  have hi := h9 i
  rw [hedge, Option.map_some'] at hi
  have hkeep : (edge.is_control_edge = true ∨ i ∉ launchOutEdges b.graph_ b.launch_nodes_) →
      fixupEdgeAt b'.fixedup_names_ (launchOutEdges b.graph_ b.launch_nodes_) i edge = edge := by
    intro hc
    unfold fixupEdgeAt
    rw [if_neg]
    rintro ⟨hmem, hdata⟩
    rcases hc with hc | hc
    · rw [hc] at hdata
      exact absurd hdata (by simp)
    · exact hc hmem
  refine ⟨_, hi, ?_, ?_, ?_, ?_, ?_, ?_, ?_, ?_, hkeep, ?_⟩
  · unfold fixupEdgeAt renameEdge; split <;> rfl
  · unfold fixupEdgeAt renameEdge; split <;> rfl
  · unfold fixupEdgeAt renameEdge; split <;> rfl
  · unfold fixupEdgeAt renameEdge; split <;> rfl
  · unfold fixupEdgeAt renameEdge; split <;> rfl
  · unfold fixupEdgeAt renameEdge; split <;> rfl
  · unfold fixupEdgeAt renameEdge; split <;> rfl
  · intro hdata hmem
    have hentry : (MapFind b'.fixedup_names_ edge.argument.name).isSome = true := by
      unfold launchOutEdges at hmem
      obtain ⟨l, hl, hil⟩ := List.mem_flatMap.1 hmem
      have hkey : edge.argument.name ∈ (expectedTable b.graph_ b.launch_nodes_).map Prod.fst :=
        (mem_expectedTable_keys _ _ _).2
          ⟨l, hl, by
            unfold outArgNames
            rw [foldl_SetInsert_mem]
            exact Or.inr (mem_dataArgNames _ _ i edge hil hedge hdata)⟩
      cases hfind : MapFind b'.fixedup_names_ edge.argument.name with
      | some v => rfl
      | none =>
        rw [h1, MapFind_eq_none_iff] at hfind
        exact absurd (by simp only [List.map_append, List.mem_append]; exact Or.inr hkey) hfind
    obtain ⟨v, hv⟩ := Option.isSome_iff_exists.1 hentry
    rw [hv]
    unfold fixupEdgeAt
    rw [if_pos ⟨hmem, hdata⟩, hv]
    rfl
  · intro hstart
    apply hkeep
    right
    intro hmem
    unfold launchOutEdges at hmem
    obtain ⟨l, hl, hil⟩ := List.mem_flatMap.1 hmem
    rw [hlaunch] at hl
    obtain ⟨hlt, htype⟩ := (mem_launchNodes _ _).1 hl
    have hs := (hwf l hlt).2.2.1 i hil
    rw [hedge, Option.map_some', Option.some.injEq] at hs
    rw [hs] at hstart
    exact hstart htype

/-- C15 at the demonstration graph: the four data out-edges of the launch nodes
are renamed, the edge from `src` and the control edge are as before. -/
theorem C15_edge_conservation_witness :
    demoBuilder.graph_.edges.map (fun e => e.argument.name) =
      ["src/x", "a1/y", "a2/w", "a1/y", "b1/z", ""] ∧
    demoFixed.graph_.edges.map (fun e => e.argument.name) =
      ["src/x", "A/out_0", "A/out_1", "A/out_0", "B/out_0", ""] ∧
    (demoFixed.graph_.nodes = demoBuilder.graph_.nodes ∧
    demoFixed.graph_.edges.length = demoBuilder.graph_.edges.length ∧
    ∀ i edge, demoBuilder.graph_.edges[i]? = some edge →
      ∃ edge', demoFixed.graph_.edges[i]? = some edge' ∧
        edge'.start = edge.start ∧ edge'.end_ = edge.end_ ∧
        edge'.is_control_edge = edge.is_control_edge ∧ edge'.sbp_policy = edge.sbp_policy ∧
        edge'.argument.shape = edge.argument.shape ∧
        edge'.argument.data_type = edge.argument.data_type ∧
        edge'.argument.meta_data = edge.argument.meta_data ∧
        (edge.is_control_edge = false →
          i ∈ launchOutEdges demoBuilder.graph_ demoBuilder.launch_nodes_ →
          MapFind demoFixed.fixedup_names_ edge.argument.name = some edge'.argument.name) ∧
        (edge.is_control_edge = true ∨
            i ∉ launchOutEdges demoBuilder.graph_ demoBuilder.launch_nodes_ →
          edge' = edge) ∧
        ((demoBuilder.graph_.node edge.start).type ≠ _XrtLaunchOpType → edge' = edge)) :=
  ⟨by decide, by decide,
   C15_edge_conservation demoExt demoBuilder demoFixed (by decide) (by decide) (by decide)⟩

/-! ## Slot-precise rewiring of a print operation -/

theorem digitChar_facts (d : Nat) (hd : d < 10) :
    (Char.ofNat (48 + d)).isDigit = true ∧ (Char.ofNat (48 + d)).toNat - 48 = d ∧
    asciiIsSpace (Char.ofNat (48 + d)) = false ∧ Char.ofNat (48 + d) ≠ '-' ∧
    Char.ofNat (48 + d) ≠ '+' := by
  interval_cases d <;> decide

/-- Reading the decimal text of `k` in front of `rest`, from the value zero,
leaves `rest` to be read from the value `k`. -/
theorem parsePositive_decimalDigits (fuel : Nat) :
    ∀ (k : Nat) (rest : List Char), k < fuel → k ≤ 2147483647 →
      parsePositive (decimalDigits fuel k ++ rest) 0 = parsePositive rest k := by
  induction fuel with
  | zero => intro k rest h; omega
  | succ f ih =>
    intro k rest hk hmax
    unfold decimalDigits
    by_cases hlt : k < 10
    · obtain ⟨h1, h2, _⟩ := digitChar_facts k hlt
      simp only [hlt, if_true, List.singleton_append]
      have e1 : ¬ (0 > 2147483647 / 10) := by omega
      have e2 : ¬ (0 * 10 > 2147483647 - k) := by omega
      simp only [parsePositive, h1, if_true, h2, e1, e2, if_false, Nat.zero_mul, Nat.zero_add]
    · obtain ⟨h1, h2, _⟩ := digitChar_facts (k % 10) (Nat.mod_lt _ (by omega))
      simp only [hlt, if_false, List.append_assoc, List.singleton_append]
      rw [ih (k / 10) _ (by omega) (by omega)]
      have e1 : ¬ (k / 10 > 2147483647 / 10) := by omega
      have e2 : ¬ (k / 10 * 10 > 2147483647 - k % 10) := by omega
      have e3 : k / 10 * 10 + k % 10 = k := by omega
      simp only [parsePositive, h1, if_true, h2, e1, e2, if_false, e3]

theorem dropWhile_head_false {α : Type} (p : α → Bool) (c : α) (cs : List α)
    (h : p c = false) : (c :: cs).dropWhile p = c :: cs := by
  simp [List.dropWhile, h]

/-- `SimpleAtoi` reads the decimal text of a number that fits an `int`. -/
theorem SimpleAtoi_decimal (n : Nat) (hmax : n ≤ 2147483647) :
    SimpleAtoi (decimal n) = (true, (n : Int)) := by
  have hne := decimalDigits_ne_nil (n + 1) n (by omega)
  have hdig := decimalDigits_digit (n + 1) n
  unfold SimpleAtoi decimal
  simp only
  generalize hds : decimalDigits (n + 1) n = ds at hne hdig
  have hparse : parsePositive ds 0 = (true, (n : Int)) := by
    have := parsePositive_decimalDigits (n + 1) n [] (by omega) hmax
    rw [hds, List.append_nil] at this
    rw [this]
    rfl
  -- no whitespace in front
  obtain ⟨c, cs, hcs⟩ := List.exists_cons_of_ne_nil hne
  obtain ⟨d, hd, hc⟩ := hdig c (by rw [hcs]; exact List.mem_cons_self _ _)
  obtain ⟨_, _, hsp, hminus, hplus⟩ := digitChar_facts d hd
  have hfront : ds.dropWhile asciiIsSpace = ds := by
    rw [hcs]
    exact dropWhile_head_false _ _ _ (by rw [hc]; exact hsp)
  -- no whitespace at the end
  have hrne : ds.reverse ≠ [] := by simpa using hne
  obtain ⟨c2, cs2, hcs2⟩ := List.exists_cons_of_ne_nil hrne
  obtain ⟨d2, hd2, hc2⟩ := hdig c2 (by
    rw [← List.mem_reverse, hcs2]
    exact List.mem_cons_self _ _)
  have hback : ds.reverse.dropWhile asciiIsSpace = ds.reverse := by
    rw [hcs2]
    exact dropWhile_head_false _ _ _ (by rw [hc2]; exact (digitChar_facts d2 hd2).2.2.1)
  rw [hfront, hback, List.reverse_reverse]
  rw [hcs] at hparse ⊢
  simp only
  rw [if_neg (by rw [hc]; exact hminus), if_neg (by rw [hc]; exact hplus)]
  exact hparse

/-- The index `GetRepeatedIndex` reads from a key that ends in `_` and the
decimal text of `n`. -/
theorem GetRepeatedIndex_decimal (p : String) (n : Nat) (hmax : n ≤ 2147483647) :
    GetRepeatedIndex (p ++ "_" ++ decimal n) = (n : Int) := by
  unfold GetRepeatedIndex StrSplit
  have hdata : (p ++ "_" ++ decimal n).data = p.data ++ '_' :: (decimal n).data := by
    simp [String.data_append]
  simp only
  rw [hdata, splitChars_append, splitChars_no_delim _ _ (underscore_not_mem_decimal n)]
  simp only [List.map_append, List.map_cons, List.map_nil, List.getLastD_concat]
  have : String.mk (decimal n).data = decimal n := rfl
  rw [this, SimpleAtoi_decimal n hmax]

/-- C16. Slot-precise rewiring of a print operation.  Let the operation be a
print operation with `m` input slots, `m` fitting an `int`, and let the consume
key be `p ++ "_" ++ decimal n` with `n < m`.  Then `GetRepeatedIndex` reads `n`
from the key, and `SetOpInputBlobName` returns the operation with the `lbn` of
slot `n` set to the fixed blob name, every other slot and everything else of
the operation being unchanged. -/
theorem C16_print_slot_rewiring (ext : Externals) (op_conf : OperatorConf)
    (in_lbn : List String) (hop : op_conf.op_type = OpTypeCase.kPrintConf in_lbn)
    (hsize : in_lbn.length ≤ 2147483647) (p : String) (n : Nat) (hn : n < in_lbn.length)
    (blob_name fixed_blob_name : String) :
    GetRepeatedIndex (p ++ "_" ++ decimal n) = (n : Int) ∧
    ∃ in_lbn', SetOpInputBlobName ext op_conf (p ++ "_" ++ decimal n) blob_name fixed_blob_name =
        some { op_conf with op_type := OpTypeCase.kPrintConf in_lbn' } ∧
      in_lbn'.length = in_lbn.length ∧ in_lbn'[n]? = some fixed_blob_name ∧
      ∀ j, j ≠ n → in_lbn'[j]? = in_lbn[j]? := by
  have hidx := GetRepeatedIndex_decimal p n (by omega)
  refine ⟨hidx, in_lbn.set n fixed_blob_name, ?_, ?_, ?_, ?_⟩
  · unfold SetOpInputBlobName
    rw [hop]
    simp only [hidx, Int.toNat_ofNat]
    rw [if_pos ⟨Int.ofNat_nonneg n, hn⟩]
  · exact List.length_set _ _ _
  · rw [List.getElem?_set_self hn]
  · intro j hj
    rw [List.getElem?_set_ne (fun e => hj e.symm)]

/-- C16 at a print operation with three slots: the key `in_1` selects slot 1. -/
theorem C16_print_slot_rewiring_witness :
    SetOpInputBlobName demoExt demoPrintOp "in_1" "a2/w" "A/out_1" =
      some { demoPrintOp with op_type := OpTypeCase.kPrintConf ["a1/y", "A/out_1", "b1/z"] } ∧
    (GetRepeatedIndex ("in" ++ "_" ++ decimal 1) = ((1 : Nat) : Int) ∧
    ∃ in_lbn', SetOpInputBlobName demoExt demoPrintOp ("in" ++ "_" ++ decimal 1) "a2/w"
          "A/out_1" =
        some { demoPrintOp with op_type := OpTypeCase.kPrintConf in_lbn' } ∧
      in_lbn'.length = ["a1/y", "a2/w", "b1/z"].length ∧ in_lbn'[1]? = some "A/out_1" ∧
      ∀ j, j ≠ 1 → in_lbn'[j]? = ["a1/y", "a2/w", "b1/z"][j]?) :=
  ⟨by decide,
   C16_print_slot_rewiring demoExt demoPrintOp ["a1/y", "a2/w", "b1/z"] rfl (by decide) "in" 1
    (by decide) "a2/w" "A/out_1"⟩

/-! ## One fused operation per cluster -/

theorem buildStep_placement (ext : Externals) (b b' : FoldSubgraphBuilder) (i : Nat)
    (h : BuildXrtLaunchOps.step ext b i = some b') :
    ∃ op parallel_conf first rest, BuildXrtLaunchOps.opConf ext b i = some op ∧
      b.folded_nodes_.getD i [] = first :: rest ∧
      MapFind b.builder_.placement first.name = some parallel_conf ∧
      b' = { b with builder_ := JobBuilder.AddOps b.builder_ parallel_conf [op] } := by
  unfold BuildXrtLaunchOps.step at h
  cases hop : BuildXrtLaunchOps.opConf ext b i with
  | none => simp [hop] at h
  | some op =>
    simp only [hop, Option.some_bind] at h
    cases hf : b.folded_nodes_.getD i [] with
    | nil =>
      rw [hf] at h
      exact absurd h (by simp)
    | cons first rest =>
      rw [hf] at h
      simp only [Option.map_eq_some'] at h
      obtain ⟨pc, hpc, hb⟩ := h
      exact ⟨op, pc, first, rest, rfl, rfl, hpc, hb.symm⟩

/-- The loop of `BuildXrtLaunchOps` when no fused operation is named like the
first folded node of a cluster: the operation list and the placement table
grow, in order, by the fused operation of each launch node and by its name
with the placement the job had for the first folded node of the cluster. -/
theorem buildLoop_placement (ext : Externals) (is : List Nat) :
    ∀ (b b' : FoldSubgraphBuilder),
      is.foldlM (BuildXrtLaunchOps.step ext) b = some b' →
      (∀ i ∈ is, ∀ first rest, b.folded_nodes_.getD i [] = first :: rest →
        ∀ j ∈ is, (b.graph_.node (b.launch_nodes_.getD j 0)).name ≠ first.name) →
      ∃ entries : List (OperatorConf × ParallelConf),
        List.Forall₂
          (fun i e => BuildXrtLaunchOps.opConf ext b i = some e.1 ∧
            ∃ first rest, b.folded_nodes_.getD i [] = first :: rest ∧
              MapFind b.builder_.placement first.name = some e.2)
          is entries ∧
        b'.builder_.op = b.builder_.op ++ entries.map Prod.fst ∧
        b'.builder_.placement =
          b.builder_.placement ++ entries.map fun e => (e.1.name, e.2) := by
  induction is with
  | nil =>
    intro b b' h _
    simp only [List.foldlM_nil, Option.pure_def, Option.some.injEq] at h
    subst h
    exact ⟨[], List.Forall₂.nil, by simp, by simp⟩
  | cons i rest ih =>
    intro b b' h hfresh
    simp only [List.foldlM_cons, Option.bind_eq_bind] at h
    cases hstep : BuildXrtLaunchOps.step ext b i with
    | none => simp [hstep] at h
    | some b1 =>
      rw [hstep] at h
      simp only [Option.some_bind] at h
      obtain ⟨op, pc, first, tl, hop, hfirst, hpc, hb1⟩ := buildStep_placement ext b b1 i hstep
      have g1 : b1.graph_ = b.graph_ := by rw [hb1]
      have g2 : b1.launch_nodes_ = b.launch_nodes_ := by rw [hb1]
      have g3 : b1.folded_nodes_ = b.folded_nodes_ := by rw [hb1]
      have g4 : b1.after_allreduce_nodes_ = b.after_allreduce_nodes_ := by rw [hb1]
      have g5 : b1.fixedup_names_ = b.fixedup_names_ := by rw [hb1]
      have g6 : b1.builder_.batch_axis = b.builder_.batch_axis := by rw [hb1]; rfl
      have g9 : b1.builder_.op = b.builder_.op ++ [op] := by rw [hb1]; rfl
      have g10 : b1.builder_.placement = b.builder_.placement ++ [(op.name, pc)] := by
        rw [hb1]; rfl
      have hname : op.name = (b.graph_.node (b.launch_nodes_.getD i 0)).name :=
        (opConf_spec ext b i op hop).1
      obtain ⟨entries, hall, hops, hpl⟩ := ih b1 b' h (by
        intro j hj f r hf k hk
        rw [g1, g2]
        rw [g3] at hf
        exact hfresh j (List.mem_cons_of_mem _ hj) f r hf k (List.mem_cons_of_mem _ hk))
      refine ⟨(op, pc) :: entries, ?_, ?_, ?_⟩
      · refine List.Forall₂.cons ⟨hop, first, tl, hfirst, hpc⟩ ?_
        refine forall2_imp_mem _ _ _ _ hall ?_
        intro j e hj hje
        obtain ⟨hje1, f, r, hf, hfind⟩ := hje
        rw [g3] at hf
        refine ⟨by rw [← opConf_congr ext b1 b j g1 g2 g4 g5 g6]; exact hje1, f, r, hf, ?_⟩
        rw [g10, MapFind_append] at hfind
        cases hm : MapFind b.builder_.placement f.name with
        | some v =>
          rw [hm] at hfind
          exact hfind
        | none =>
          rw [hm] at hfind
          have hne : ¬ op.name = f.name := by
            rw [hname]
            exact hfresh j (List.mem_cons_of_mem _ hj) f r hf i (List.mem_cons_self _ _)
          simp [MapFind, hne] at hfind
      · rw [hops, g9]
        simp
      · rw [hpl, g10]
        simp

theorem fixupTimeShapes_placement (b b' : FoldSubgraphBuilder)
    (h : b.FixupTimeShapes = some b') : b'.builder_.placement = b.builder_.placement := by
  unfold FoldSubgraphBuilder.FixupTimeShapes at h
  refine foldlM_frame (fun b b' => b'.builder_.placement = b.builder_.placement)
    (fun _ => rfl) (fun _ _ _ h12 h23 => h23.trans h12) _ ?_ _ b b' h
  intro b1 i b2 hs
  unfold FixupTimeShapes.step at hs
  split at hs
  · exact absurd hs (by simp)
  · simp only [Option.map_eq_some'] at hs
    obtain ⟨ts, _, hb⟩ := hs
    subst hb
    rfl

theorem fixupSbpSignatures_placement (b b' : FoldSubgraphBuilder)
    (h : b.FixupSbpSignatures = some b') : b'.builder_.placement = b.builder_.placement := by
  unfold FoldSubgraphBuilder.FixupSbpSignatures at h
  refine foldlM_frame (fun b b' => b'.builder_.placement = b.builder_.placement)
    (fun _ => rfl) (fun _ _ _ h12 h23 => h23.trans h12) _ ?_ _ b b' h
  intro b1 i b2 hs
  unfold FixupSbpSignatures.step at hs
  simp only [Option.bind_eq_some, Option.map_eq_some'] at hs
  obtain ⟨sig1, _, sig2, _, hb⟩ := hs
  subst hb
  rfl

/-- The placement table after a completed `Build` is the one
`BuildXrtLaunchOps` left. -/
theorem build_placement (ext : Externals) (b b' : FoldSubgraphBuilder)
    (h : b.Build ext = some b') :
    ∃ b2 b3, (b.InferIsAfterAllReduce ext).FixupInOutBlobNames ext = some b2 ∧
      b2.BuildXrtLaunchOps ext = some b3 ∧
      b2.builder_.placement = b.builder_.placement ∧
      b'.builder_.placement = b3.builder_.placement := by
  unfold FoldSubgraphBuilder.Build at h
  simp only [Option.some_bind, Option.bind_eq_some, Option.map_eq_some'] at h
  obtain ⟨b4, ⟨b3, ⟨b2, h2, h3⟩, h4⟩, b6, ⟨b5, h5, h6⟩, h7⟩ := h
  refine ⟨b2, b3, h2, h3, ?_, ?_⟩
  · rw [(fixupInOutBlobNames_frame ext _ b2 h2).2.2.2.2.2.1,
      (inferIsAfterAllReduce_frame ext b).2.1]
  · have c := (fixupControlInOpNames_frame b3 b4 h4).1
    have p5 := fixupTimeShapes_placement _ _ h5
    have p6 := fixupSbpSignatures_placement _ _ h6
    rw [← h7]
    show (JobBuilder.RemoveOpByName b6.builder_ (removingNames b6)).placement = _
    unfold JobBuilder.RemoveOpByName
    simp only
    rw [p6, p5, c]

/-- Jobs with the same operation shapes have, position by position, operations
of the same name and type-specific part. -/
theorem opShapes_getElem? (j1 j2 : Job) (h : opShapes j1 = opShapes j2) (i : Nat)
    (op : OperatorConf) (hop : j2.op[i]? = some op) :
    ∃ op', j1.op[i]? = some op' ∧ op'.name = op.name ∧ op'.op_type = op.op_type := by
  have hi := congrArg (fun l => l[i]?) h
  simp only [opShapes, List.getElem?_map, hop, Option.map_some'] at hi
  cases h1 : j1.op[i]? with
  | none => simp [h1] at hi
  | some op' =>
    simp only [h1, Option.map_some', Option.some.injEq, Prod.mk.injEq] at hi
    exact ⟨op', rfl, hi.1, hi.2.2⟩

theorem opShapes_names (j1 j2 : Job) (h : opShapes j1 = opShapes j2) :
    j1.op.map OperatorConf.name = j2.op.map OperatorConf.name := by
  have := congrArg (List.map Prod.fst) h
  simpa [opShapes, List.map_map, Function.comp] using this

theorem filter_names (R : List String) (ops : List OperatorConf) :
    (ops.filter fun conf => decide (conf.name ∉ R)).map OperatorConf.name =
      (ops.map OperatorConf.name).filter fun x => decide (x ∉ R) := by
  rw [List.filter_map]
  rfl

/-- C17. One fused operation per cluster.  Let the constructor and `Build`
complete on a graph in which no launch node is named like a folded node.  Then
the operations of the resulting job are the operations kept from the input
job (those whose name is not the name of a folded node, in order) followed by
exactly one fused operation per launch node, in the order of the launch nodes.
The fused operation of a launch node has the node's name and a launch
configuration whose function body holds the payloads of the non-argument nodes
of the sub-graph, in sub-graph order; and the placement table holds, for it,
the placement the input job had for the first folded node of the cluster. -/
theorem C17_one_fused_operation_per_cluster (ext : Externals) (g : XrtGraph) (job : Job)
    (b0 b' : FoldSubgraphBuilder) (hnew : FoldSubgraphBuilder.new g job = some b0)
    (hbuild : b0.Build ext = some b')
    (hfresh : ∀ i ∈ launchNodes g, (g.node i).name ∉ removingNames b0) :
    ∃ kept fused,
      b'.builder_.op = kept ++ fused ∧
      kept.map OperatorConf.name =
        (job.op.map OperatorConf.name).filter (fun x => decide (x ∉ removingNames b0)) ∧
      fused.length = (launchNodes g).length ∧
      b'.builder_.placement.length = job.placement.length + (launchNodes g).length ∧
      ∀ i, i < (launchNodes g).length →
        ∃ op conf sg first rest pc,
          fused[i]? = some op ∧ op.name = (g.node ((launchNodes g).getD i 0)).name ∧
          op.op_type = OpTypeCase.kXrtLaunchConf conf ∧
          (g.node ((launchNodes g).getD i 0)).sub_graph = some sg ∧
          conf.function.node = (foldedNodesOf sg).map XrtSubNode.param ∧
          foldedNodesOf sg = first :: rest ∧
          MapFind job.placement first.name = some pc ∧
          b'.builder_.placement[job.placement.length + i]? = some (op.name, pc) := by
  obtain ⟨b2, b3, b4, b6, h2, h3, h4, h6, h7⟩ := build_stages ext b0 b' hbuild
  obtain ⟨s2, _, _, s6⟩ := build_sameClusters ext b0 b2 b3 b4 b6 h2 h3 h4 h6
  obtain ⟨n1, n2, n3, _, _, n6⟩ := new_spec g job b0 hnew
  obtain ⟨b2', b3', h2', h3', p2, p3⟩ := build_placement ext b0 b' hbuild
  rw [h2, Option.some.injEq] at h2'
  subst h2'
  rw [h3, Option.some.injEq] at h3'
  subst h3'
  have hrem : removingNames b6 = removingNames b0 := removingNames_congr _ _ s6.1 s6.2.1
  have hnode : ∀ i, b2.graph_.node i = g.node i := by
    intro i
    rw [node_congr _ _ s2.1, n1]
  have hls : b2.launch_nodes_ = launchNodes g := s2.2.1.trans n3
  have hfolded : b2.folded_nodes_ = b0.folded_nodes_ := s2.2.2
  have hflen : b0.folded_nodes_.length = (launchNodes g).length := n6.length_eq.symm
  -- a first folded node is named in the removed names
  have hfirst_mem : ∀ i first rest, b0.folded_nodes_.getD i [] = first :: rest →
      first.name ∈ removingNames b0 := by
    intro i first rest hf
    have hi : i < b0.folded_nodes_.length := by
      by_contra hge
      rw [List.getD_eq_default _ _ (by omega)] at hf
      exact absurd hf (by simp)
    rw [removingNames_new g job b0 hnew]
    exact ⟨_, getD_mem_of_lt _ i [] hi, first, by rw [hf]; exact List.mem_cons_self _ _, rfl⟩
  have hlaunch_name : ∀ j, j < (launchNodes g).length →
      (g.node ((launchNodes g).getD j 0)).name ∉ removingNames b0 :=
    fun j hj => hfresh _ (getD_mem_of_lt _ j 0 hj)
  -- the loop of `BuildXrtLaunchOps`
  unfold FoldSubgraphBuilder.BuildXrtLaunchOps at h3
  obtain ⟨entries, hall, hops, hpl⟩ := buildLoop_placement ext _ b2 b3 h3 (by
    intro i _ first rest hf j hj
    rw [hfolded] at hf
    rw [hnode, hls]
    rw [hls, List.mem_range] at hj
    intro heq
    exact hlaunch_name j hj (heq ▸ hfirst_mem i first rest hf))
  rw [hls] at hall
  have hentries_len : entries.length = (launchNodes g).length := by
    rw [← hall.length_eq, List.length_range]
  have hnames2 : b2.builder_.op.map OperatorConf.name = job.op.map OperatorConf.name := by
    have hk := (fixupInOutBlobNames_frame ext _ b2 h2).2.2.2.2.1
    have := congrArg (List.map Prod.fst) hk
    simpa [opKeys, List.map_map, Function.comp, (inferIsAfterAllReduce_frame ext b0).2.1, n2]
      using this
  have hlen2 : b2.builder_.op.length = job.op.length := by
    simpa using congrArg List.length hnames2
  have hshape : opShapes b6.builder_ = opShapes b3.builder_ := by
    have c := (fixupControlInOpNames_frame b3 b4 h4).2
    unfold opShapes at c ⊢
    rw [h6.2.2.2.2.2, c]
  have hnames6 : b6.builder_.op.map OperatorConf.name =
      job.op.map OperatorConf.name ++ (entries.map Prod.fst).map OperatorConf.name := by
    rw [opShapes_names _ _ hshape, hops, List.map_append, hnames2]
  have hlen6 : b6.builder_.op.length = job.op.length + (launchNodes g).length := by
    have := congrArg List.length hnames6
    simpa [hentries_len] using this
  -- the fused operations survive the cleanup
  have hentry_name : ∀ e ∈ entries, e.1.name ∉ removingNames b0 := by
    intro e he
    obtain ⟨i, hi, hop, _⟩ := forall2_mem_right _ _ _ hall e he
    rw [(opConf_spec ext b2 i e.1 hop).1, hnode, hls]
    exact hlaunch_name i (List.mem_range.1 hi)
  have hsurvive : (b6.builder_.op.drop job.op.length).filter
      (fun conf => decide (conf.name ∉ removingNames b6)) =
      b6.builder_.op.drop job.op.length := by
    rw [List.filter_eq_self]
    intro a ha
    have hname : a.name ∈ (b6.builder_.op.drop job.op.length).map OperatorConf.name :=
      List.mem_map_of_mem _ ha
    rw [List.map_drop, hnames6, List.drop_left' (by simp)] at hname
    obtain ⟨op, hop, hn⟩ := List.mem_map.1 hname
    obtain ⟨e, he, he1⟩ := List.mem_map.1 hop
    rw [hrem, ← hn, ← he1]
    simpa using hentry_name e he
  have hjob : b'.builder_.op = b6.builder_.op.filter
      (fun conf => decide (conf.name ∉ removingNames b6)) := by
    rw [h7]
    rfl
  refine ⟨(b6.builder_.op.take job.op.length).filter
      (fun conf => decide (conf.name ∉ removingNames b6)),
    b6.builder_.op.drop job.op.length, ?_, ?_, ?_, ?_, ?_⟩
  · rw [hjob]
    conv_lhs => rw [← List.take_append_drop job.op.length b6.builder_.op]
    rw [List.filter_append, hsurvive]
  · rw [filter_names, List.map_take, hnames6, List.take_left' (by simp), hrem]
  · rw [List.length_drop, hlen6]
    omega
  · rw [p3, hpl, p2, n2]
    simp [hentries_len]
  · intro i hi
    obtain ⟨e, hget, hop, first, rest, hf, hpc⟩ := forall2_range_get _ _ _ hall i hi
    obtain ⟨op6, hget6, hname6, htype6⟩ := opShapes_getElem? _ _ hshape (job.op.length + i) e.1
      (by
        rw [hops, List.getElem?_append_right (by omega), hlen2]
        simp [hget])
    obtain ⟨hname, _⟩ := opConf_spec ext b2 i e.1 hop
    obtain ⟨sg, mutability, conf, _, hsub, hbuilt, htype, _⟩ :=
      opConf_function_spec ext b2 i e.1 hop
    rw [hnode, hls] at hname hsub
    have hbody : conf.function.node = (foldedNodesOf sg).map XrtSubNode.param := by
      unfold buildFunction at hbuilt
      rw [buildFunction_loop_spec] at hbuilt
      split at hbuilt
      · simp only [Option.some.injEq, Prod.mk.injEq] at hbuilt
        rw [← hbuilt.2]
        simp [foldedNodesOf]
      · exact absurd hbuilt (by simp)
    have hfold : foldedNodesOf sg = first :: rest := by
      rw [hfolded] at hf
      have hi2 : i < b0.folded_nodes_.length := by omega
      have hrel := List.Forall₂.get n6 hi hi2
      obtain ⟨sg', hsg', hfo⟩ := hrel
      rw [List.getD_eq_getElem _ _ hi] at hsub
      simp only [List.get_eq_getElem] at hsg' hfo
      rw [hsub, Option.some.injEq] at hsg'
      rw [List.getD_eq_getElem _ _ hi2, hfo, ← hsg'] at hf
      exact hf
    refine ⟨op6, conf, sg, first, rest, e.2, ?_, hname6.trans hname, htype6.trans htype, hsub,
      hbody, hfold, ?_, ?_⟩
    · rw [List.getElem?_drop]
      exact hget6
    · rw [← n2, ← p2]
      exact hpc
    · rw [p3, hpl, p2, n2, List.getElem?_append_right (by omega)]
      simp [hget, hname6]

/-- C17 at the demonstration graph: the job keeps `src`, `sink` and `sink2` and
gets the fused operations `A` and `B`, whose bodies are the payloads of
`a1, a2` and of `b1`, placed like `a1` and like `b1`. -/
theorem C17_one_fused_operation_per_cluster_witness :
    (demoBuiltAll.builder_.op.map fun op =>
        (op.name, op.launchConf.map fun c => c.function.node)) =
      [("src", none), ("sink", none), ("sink2", none),
       ("A", some ["a1_conf", "a2_conf"]), ("B", some ["b1_conf"])] ∧
    demoBuiltAll.builder_.placement.drop demoJob.placement.length =
      [("A", ["0:gpu:0"]), ("B", ["0:gpu:1"])] ∧
    ∃ kept fused,
      demoBuiltAll.builder_.op = kept ++ fused ∧
      kept.map OperatorConf.name =
        (demoJob.op.map OperatorConf.name).filter
          (fun x => decide (x ∉ removingNames demoBuilder)) ∧
      fused.length = (launchNodes demoGraph).length ∧
      demoBuiltAll.builder_.placement.length =
        demoJob.placement.length + (launchNodes demoGraph).length ∧
      ∀ i, i < (launchNodes demoGraph).length →
        ∃ op conf sg first rest pc,
          fused[i]? = some op ∧
          op.name = (demoGraph.node ((launchNodes demoGraph).getD i 0)).name ∧
          op.op_type = OpTypeCase.kXrtLaunchConf conf ∧
          (demoGraph.node ((launchNodes demoGraph).getD i 0)).sub_graph = some sg ∧
          conf.function.node = (foldedNodesOf sg).map XrtSubNode.param ∧
          foldedNodesOf sg = first :: rest ∧
          MapFind demoJob.placement first.name = some pc ∧
          demoBuiltAll.builder_.placement[demoJob.placement.length + i]? = some (op.name, pc) :=
  ⟨by decide, by decide,
   C17_one_fused_operation_per_cluster demoExt demoGraph demoJob demoBuilder demoBuiltAll
    (by decide) (by decide) (by decide)⟩

theorem sbpEdgeLoop_total (g : XrtGraph) (key : ArgumentMetaData → String) (slot : Nat)
    (es : List Nat) (h : hasPolicy g slot es) :
    ∀ sig : SbpSignature,
      es.foldlM (FixupSbpSignatures.edgeStep g key slot) sig =
        some ((sbpPairs g key slot es).foldl (fun m kv => MapSet m kv.1 kv.2) sig) := by
  induction es with
  | nil => intro sig; rfl
  | cons e rest ih =>
    intro sig
    have hrest : hasPolicy g slot rest := fun x hx => h x (List.mem_cons_of_mem _ hx)
    simp only [List.foldlM_cons, Option.bind_eq_bind]
    unfold FixupSbpSignatures.edgeStep sbpPairs
    cases hedge : g.edges[e]? with
    | none =>
      simp only [Option.some_bind, List.filterMap_cons, hedge, Option.none_bind]
      exact ih hrest sig
    | some edge =>
      obtain ⟨policy, hp, hlen⟩ := h e (List.mem_cons_self _ _) edge hedge
      simp only [hp, List.getElem?_eq_getElem hlen, Option.map_some', Option.some_bind,
        List.filterMap_cons, hedge, List.foldl_cons]
      exact ih hrest _

theorem sbpEdgeLoop_none (g : XrtGraph) (key : ArgumentMetaData → String) (slot : Nat)
    (es : List Nat) (e : Nat) (he : e ∈ es) (edge : XrtEdge) (hedge : g.edges[e]? = some edge)
    (hnone : edge.sbp_policy = none) :
    ∀ sig : SbpSignature, es.foldlM (FixupSbpSignatures.edgeStep g key slot) sig = none := by
  induction es with
  | nil => exact absurd he (by simp)
  | cons x rest ih =>
    intro sig
    simp only [List.foldlM_cons, Option.bind_eq_bind]
    by_cases hx : x = e
    · subst hx
      have : FixupSbpSignatures.edgeStep g key slot sig x = none := by
        unfold FixupSbpSignatures.edgeStep
        rw [hedge]
        simp only [hnone]
      rw [this]
      rfl
    · have hmem : e ∈ rest := by
        rcases List.mem_cons.1 he with h1 | h1
        · exact absurd h1.symm hx
        · exact h1
      cases hs : FixupSbpSignatures.edgeStep g key slot sig x with
      | none => rfl
      | some mid => exact ih hmem mid

/-- Lookup after writing the pairs `l` one after the other: when every pair
with the key has the same value and there is one, that value is found. -/
theorem MapFind_foldl_MapSet {α β : Type} (k : α → String) (v : α → β) (key : String) (val : β)
    (l : List α) :
    ∀ m : List (String × β),
      (∀ x ∈ l, k x = key → v x = val) →
      ((∃ x ∈ l, k x = key) ∨ MapFind m key = some val) →
      MapFind (l.foldl (fun m x => MapSet m (k x) (v x)) m) key = some val := by
  induction l with
  | nil =>
    intro m _ h
    rcases h with ⟨x, hx, _⟩ | h
    · exact absurd hx (by simp)
    · exact h
  | cons a rest ih =>
    intro m hsame h
    simp only [List.foldl_cons]
    apply ih _ (fun x hx => hsame x (List.mem_cons_of_mem _ hx))
    by_cases hrest : ∃ x ∈ rest, k x = key
    · exact Or.inl hrest
    · right
      rw [MapFind_MapSet]
      by_cases hk : k a = key
      · rw [if_pos hk, hsame a (List.mem_cons_self _ _) hk]
      · rw [if_neg hk]
        rcases h with ⟨x, hx, hkx⟩ | h
        · rcases List.mem_cons.1 hx with e | e
          · exact absurd (e ▸ hkx) hk
          · exact absurd ⟨x, e, hkx⟩ hrest
        · exact h

theorem sbpStep_total (b : FoldSubgraphBuilder) (l : Nat)
    (hin : hasPolicy b.graph_ 1 (b.graph_.node l).in_edges)
    (hout : hasPolicy b.graph_ 0 (b.graph_.node l).out_edges) :
    FixupSbpSignatures.step b l =
      some { b with
        builder_ :=
          JobBuilder.AddSbpSignature4OpName b.builder_ (b.graph_.node l).name
            (sbpSignatureOf b.graph_ (b.graph_.node l)) } := by
  unfold FixupSbpSignatures.step
  simp only
  rw [sbpEdgeLoop_total _ _ _ _ hin, Option.some_bind, sbpEdgeLoop_total _ _ _ _ hout,
    Option.map_some']
  unfold sbpSignatureOf
  rw [List.foldl_append]

theorem sbpStep_none (b : FoldSubgraphBuilder) (l : Nat) (e : Nat)
    (he : e ∈ (b.graph_.node l).in_edges ++ (b.graph_.node l).out_edges) (edge : XrtEdge)
    (hedge : b.graph_.edges[e]? = some edge) (hnone : edge.sbp_policy = none) :
    FixupSbpSignatures.step b l = none := by
  unfold FixupSbpSignatures.step
  simp only
  rcases List.mem_append.1 he with h1 | h1
  · rw [sbpEdgeLoop_none _ _ _ _ e h1 edge hedge hnone]
    rfl
  · cases hs : (b.graph_.node l).in_edges.foldlM
        (FixupSbpSignatures.edgeStep b.graph_ ArgumentMetaData.consume_key 1) [] with
    | none => rfl
    | some sig1 =>
      rw [Option.some_bind, sbpEdgeLoop_none _ _ _ _ e h1 edge hedge hnone]
      rfl

/-- The loop of `FixupSbpSignatures` aborts when some launch node among `ls`
has an edge without the attribute. -/
theorem sbpLoop_none (ls : List Nat) (l : Nat) (hl : l ∈ ls) :
    ∀ b : FoldSubgraphBuilder, ∀ (e : Nat) (edge : XrtEdge),
      e ∈ (b.graph_.node l).in_edges ++ (b.graph_.node l).out_edges →
      b.graph_.edges[e]? = some edge → edge.sbp_policy = none →
      ls.foldlM FixupSbpSignatures.step b = none := by
  induction ls with
  | nil => exact absurd hl (by simp)
  | cons x rest ih =>
    intro b e edge he hedge hnone
    simp only [List.foldlM_cons, Option.bind_eq_bind]
    cases hs : FixupSbpSignatures.step b x with
    | none => rfl
    | some b1 =>
      rw [Option.some_bind]
      by_cases hx : x = l
      · subst hx
        rw [sbpStep_none b x e he edge hedge hnone] at hs
        exact absurd hs (by simp)
      · have hmem : l ∈ rest := by
          rcases List.mem_cons.1 hl with h1 | h1
          · exact absurd h1.symm hx
          · exact h1
        have hg : b1.graph_ = b.graph_ := by
          unfold FixupSbpSignatures.step at hs
          simp only [Option.bind_eq_some, Option.map_eq_some'] at hs
          obtain ⟨_, _, _, _, hb⟩ := hs
          rw [← hb]
        exact ih hmem b1 e edge (by rw [hg]; exact he) (by rw [hg]; exact hedge) hnone

/-- The loop of `FixupSbpSignatures` when every edge of every launch node among
`ls` has the attribute: the signature of each node is recorded under its name,
in order. -/
theorem sbpLoop_total (ls : List Nat) :
    ∀ b : FoldSubgraphBuilder,
      (∀ l ∈ ls, hasPolicy b.graph_ 1 (b.graph_.node l).in_edges ∧
        hasPolicy b.graph_ 0 (b.graph_.node l).out_edges) →
      ls.foldlM FixupSbpSignatures.step b =
        some { b with builder_ := { b.builder_ with
          sbp_signature := ls.foldl
            (fun m l => MapSet m (b.graph_.node l).name
              (sbpSignatureOf b.graph_ (b.graph_.node l)))
            b.builder_.sbp_signature } } := by
  induction ls with
  | nil => intro b _; rfl
  | cons x rest ih =>
    intro b h
    simp only [List.foldlM_cons, Option.bind_eq_bind, List.foldl_cons]
    obtain ⟨hin, hout⟩ := h x (List.mem_cons_self _ _)
    rw [sbpStep_total b x hin hout, Option.some_bind]
    have hrest := ih
      { b with
        builder_ :=
          JobBuilder.AddSbpSignature4OpName b.builder_ (b.graph_.node x).name
            (sbpSignatureOf b.graph_ (b.graph_.node x)) }
      (fun l hl => h l (List.mem_cons_of_mem _ hl))
    rw [hrest]
    rfl

/-- C18, as amended.  Placement signatures.  `FixupSbpSignatures` aborts
whenever an in-edge or out-edge of a launch node lacks the placement
attribute.  When every in-edge of every launch node has the attribute with an
entry 1 and every out-edge has it with an entry 0, the stage returns and
records, for each launch node in turn and under its name, the signature of the
node: the pairs (consume key, entry 1) of its in-edges and then (produce key,
entry 0) of its out-edges written into a map, a later pair replacing an earlier
pair with the same key.  So the signature maps a key to the policy of an edge
when no edge of the node with the same key carries another policy. -/
theorem C18_placement_signature (b : FoldSubgraphBuilder) :
    (∀ l ∈ b.launch_nodes_,
      ∀ e ∈ (b.graph_.node l).in_edges ++ (b.graph_.node l).out_edges,
      ∀ edge, b.graph_.edges[e]? = some edge → edge.sbp_policy = none →
        b.FixupSbpSignatures = none) ∧
    ((∀ l ∈ b.launch_nodes_, hasPolicy b.graph_ 1 (b.graph_.node l).in_edges ∧
        hasPolicy b.graph_ 0 (b.graph_.node l).out_edges) →
      ∃ b', b.FixupSbpSignatures = some b' ∧
        b'.builder_.sbp_signature =
          b.launch_nodes_.foldl
            (fun m l => MapSet m (b.graph_.node l).name
              (sbpSignatureOf b.graph_ (b.graph_.node l)))
            b.builder_.sbp_signature ∧
        (∀ l ∈ b.launch_nodes_,
          (∀ l' ∈ b.launch_nodes_, (b.graph_.node l').name = (b.graph_.node l).name →
            sbpSignatureOf b.graph_ (b.graph_.node l') =
              sbpSignatureOf b.graph_ (b.graph_.node l)) →
          MapFind b'.builder_.sbp_signature (b.graph_.node l).name =
            some (sbpSignatureOf b.graph_ (b.graph_.node l))) ∧
        ∀ l ∈ b.launch_nodes_, ∀ key sbp,
          (key, sbp) ∈ sbpPairs b.graph_ ArgumentMetaData.consume_key 1
              (b.graph_.node l).in_edges ++
            sbpPairs b.graph_ ArgumentMetaData.produce_key 0 (b.graph_.node l).out_edges →
          (∀ other,
            (key, other) ∈ sbpPairs b.graph_ ArgumentMetaData.consume_key 1
                (b.graph_.node l).in_edges ++
              sbpPairs b.graph_ ArgumentMetaData.produce_key 0 (b.graph_.node l).out_edges →
            other = sbp) →
          MapFind (sbpSignatureOf b.graph_ (b.graph_.node l)) key = some sbp) := by
  constructor
  · intro l hl e he edge hedge hnone
    unfold FoldSubgraphBuilder.FixupSbpSignatures
    exact sbpLoop_none b.launch_nodes_ l hl b e edge he hedge hnone
  · intro hall
    have hrun := sbpLoop_total b.launch_nodes_ b hall
    refine ⟨_, hrun, rfl, ?_, ?_⟩
    · intro l hl hsame
      exact MapFind_foldl_MapSet (fun l => (b.graph_.node l).name)
        (fun l => sbpSignatureOf b.graph_ (b.graph_.node l)) _ _ b.launch_nodes_
        b.builder_.sbp_signature hsame (Or.inl ⟨l, hl, rfl⟩)
    · intro l _ key sbp hmem hsame
      unfold sbpSignatureOf
      refine MapFind_foldl_MapSet Prod.fst Prod.snd key sbp _ [] ?_ (Or.inl ⟨_, hmem, rfl⟩)
      rintro ⟨k, v⟩ hx hk
      simp only at hk
      subst hk
      exact hsame v hx

/-- C18 at the demonstration graph: every edge has the attribute `[0, 1]`; the
keys of `A` are `in` (entry 1) and `out` and the empty key of the control edge
(entry 0). -/
theorem C18_placement_signature_witness :
    (demoBuilder.FixupSbpSignatures.map fun b => b.builder_.sbp_signature) =
      some [("A", [("in", 1), ("out", 0), ("", 0)]), ("B", [("in", 1), ("", 1), ("out", 0)])] ∧
    ∃ b', demoBuilder.FixupSbpSignatures = some b' ∧
      b'.builder_.sbp_signature =
        demoBuilder.launch_nodes_.foldl
          (fun m l => MapSet m (demoBuilder.graph_.node l).name
            (sbpSignatureOf demoBuilder.graph_ (demoBuilder.graph_.node l)))
          demoBuilder.builder_.sbp_signature :=
  ⟨by decide,
   let ⟨b', h1, h2, _⟩ := (C18_placement_signature demoBuilder).2 (by decide)
   ⟨b', h1, h2⟩⟩

/-- C18 as stated fails: in `sbpClashGraph`, a well-formed graph, both in-edges
of the launch node `A` have the attribute and the consume key `in`; edge `0`
carries the policy `1` and edge `1` the policy `2`.  `FixupSbpSignatures`
returns and records for `A` a signature that maps `in` to `2`, which is not the
policy carried by edge `0`. -/
theorem C18_counterexample :
    sbpClashGraph.WellFormed ∧
    (FoldSubgraphBuilder.new sbpClashGraph default).isSome = true ∧
    (sbpClashBuilder.graph_.edges.map fun edge =>
        (edge.argument.meta_data.consume_key, edge.sbp_policy)) =
      [("in", some [0, 1]), ("in", some [0, 2])] ∧
    (sbpClashBuilder.FixupSbpSignatures.map fun b => b.builder_.sbp_signature) =
      some [("A", [("in", 2)])] := by
  decide

/-! ## A name is assigned at most once -/

theorem expectedTable_keys (g : XrtGraph) (ls : List Nat) :
    (expectedTable g ls).map Prod.fst = ls.flatMap (outArgNames g) := by
  induction ls with
  | nil => rfl
  | cons l rest ih =>
    unfold expectedTable at ih ⊢
    rw [List.flatMap_cons, List.map_append, ih, boundaryEntries_keys, List.flatMap_cons]

/-- With distinct keys in the table, a name is an output name of one launch
node only. -/
theorem table_owner_unique (g : XrtGraph) (ls : List Nat)
    (hnd : ((expectedTable g ls).map Prod.fst).Nodup) (a : String) (l1 l2 : Nat)
    (h1 : l1 ∈ ls) (h2 : l2 ∈ ls) (ha1 : a ∈ outArgNames g l1) (ha2 : a ∈ outArgNames g l2) :
    l1 = l2 := by
  rw [expectedTable_keys, List.nodup_flatMap] at hnd
  by_contra hne
  have hsymm : Symmetric (Function.onFun List.Disjoint (outArgNames g)) := by
    intro x y hxy
    exact List.Disjoint.symm hxy
  exact (List.Pairwise.forall hsymm hnd.2 h1 h2 hne) ha1 ha2

/-- The launch-node loop of `FixupInOutBlobNames` does not get past a launch
node one of whose output names is an output name of an earlier launch node. -/
theorem fixup_prefix_abort (ext : Externals) (b : FoldSubgraphBuilder) (pre : List Nat)
    (l2 : Nat) (hnd : (launchOutEdges b.graph_ (pre ++ [l2])).Nodup) (hl2 : l2 ∉ pre) (a : String)
    (l1 : Nat) (hl1 : l1 ∈ pre) (h1 : a ∈ dataArgNames b.graph_ (b.graph_.node l1).out_edges)
    (h2 : a ∈ dataArgNames b.graph_ (b.graph_.node l2).out_edges) :
    (pre ++ [l2]).foldlM (FixupInOutBlobNames.nodeStep ext) b = none := by
  cases h : (pre ++ [l2]).foldlM (FixupInOutBlobNames.nodeStep ext) b with
  | none => rfl
  | some b1 =>
    obtain ⟨_, _, hkeys, _⟩ := nodeLoop_spec ext (pre ++ [l2]) b b1 h hnd
    have := table_owner_unique b.graph_ (pre ++ [l2]) hkeys a l1 l2
      (List.mem_append_left _ hl1) (by simp)
      ((mem_outArgNames _ _ _).2 h1) ((mem_outArgNames _ _ _).2 h2)
    exact absurd (this ▸ hl1) hl2

/-- C19. An original argument name is assigned at most once.  Let the builder
have the launch nodes of a well-formed graph.  If an argument name is on a
non-control out-edge of a launch node and on a non-control out-edge of a later
launch node, the loop of `FixupInOutBlobNames` does not get past the later
node, and the stage aborts.  On a completed run the table has grown by entries
with pairwise distinct keys that were not in the table before, and every new
entry `(a, r)` belongs to exactly one launch node `l`: `a` is an output name of
`l` and of no other launch node, and `r` is `l.name ++ "/out_" ++ decimal j`
for the position `j` of `a` among the distinct output names of `l`. -/
theorem C19_name_assigned_at_most_once (ext : Externals) (b : FoldSubgraphBuilder)
    (hwf : b.graph_.WellFormed) (hlaunch : b.launch_nodes_ = launchNodes b.graph_) :
    (∀ pre l2 post a, b.launch_nodes_ = pre ++ l2 :: post →
      (∃ l1 ∈ pre, a ∈ dataArgNames b.graph_ (b.graph_.node l1).out_edges) →
      a ∈ dataArgNames b.graph_ (b.graph_.node l2).out_edges →
      (pre ++ [l2]).foldlM (FixupInOutBlobNames.nodeStep ext) b = none ∧
      b.FixupInOutBlobNames ext = none) ∧
    (∀ b', b.FixupInOutBlobNames ext = some b' →
      b'.fixedup_names_ = b.fixedup_names_ ++ expectedTable b.graph_ b.launch_nodes_ ∧
      ((expectedTable b.graph_ b.launch_nodes_).map Prod.fst).Nodup ∧
      (∀ a ∈ (expectedTable b.graph_ b.launch_nodes_).map Prod.fst,
        MapFind b.fixedup_names_ a = none) ∧
      ∀ a r, (a, r) ∈ expectedTable b.graph_ b.launch_nodes_ →
        ∃ l ∈ b.launch_nodes_, ∃ j, (outArgNames b.graph_ l)[j]? = some a ∧
          r = (b.graph_.node l).name ++ "/out_" ++ decimal j ∧
          ∀ l' ∈ b.launch_nodes_,
            a ∈ dataArgNames b.graph_ (b.graph_.node l').out_edges → l' = l) := by
  have hnd : (launchOutEdges b.graph_ b.launch_nodes_).Nodup := by
    rw [hlaunch]
    exact launchOutEdges_nodup _ hwf
  constructor
  · intro pre l2 post a hsplit hex h2
    obtain ⟨l1, hl1, h1⟩ := hex
    have hls : (pre ++ l2 :: post).Nodup := by
      rw [← hsplit, hlaunch]
      exact launchNodes_nodup _
    have hl2 : l2 ∉ pre := by
      intro hmem
      have := List.nodup_append.1 hls
      exact this.2.2 hmem (List.mem_cons_self _ _)
    have hnd2 : (launchOutEdges b.graph_ (pre ++ [l2])).Nodup := by
      rw [hsplit] at hnd
      have e : pre ++ l2 :: post = (pre ++ [l2]) ++ post := by simp
      rw [e] at hnd
      unfold launchOutEdges at hnd ⊢
      rw [List.flatMap_append] at hnd
      exact List.Nodup.of_append_left hnd
    have habort := fixup_prefix_abort ext b pre l2 hnd2 hl2 a l1 hl1 h1 h2
    refine ⟨habort, ?_⟩
    unfold FoldSubgraphBuilder.FixupInOutBlobNames
    have e : b.launch_nodes_ = (pre ++ [l2]) ++ post := by rw [hsplit]; simp
    rw [e, List.foldlM_append, habort]
    rfl
  · intro b' hrun
    unfold FoldSubgraphBuilder.FixupInOutBlobNames at hrun
    obtain ⟨h1, h2, h3, _⟩ := nodeLoop_spec ext b.launch_nodes_ b b' hrun hnd
    refine ⟨h1, h3, h2, ?_⟩
    intro a r har
    obtain ⟨l, hl, j, hj, hr⟩ := mem_expectedTable_elim _ _ a r har
    refine ⟨l, hl, j, hj, hr, ?_⟩
    intro l' hl' ha'
    exact table_owner_unique b.graph_ b.launch_nodes_ h3 a l' l hl' hl
      ((mem_outArgNames _ _ _).2 ha') (List.getElem?_mem hj)

/-- C19 at `dupNameGraph`, where `x/y` leaves both `A` and `B`: the loop does
not get past `B` and the stage aborts; and the first launch node alone is
processed, giving `x/y` the name `A/out_0`. -/
theorem C19_name_assigned_at_most_once_witness :
    dupNameBuilder.launch_nodes_ = [0, 1] ∧
    (([0].foldlM (FixupInOutBlobNames.nodeStep demoExt) dupNameBuilder).map
      FoldSubgraphBuilder.fixedup_names_) = some [("x/y", "A/out_0")] ∧
    (([0] ++ [1]).foldlM (FixupInOutBlobNames.nodeStep demoExt) dupNameBuilder = none ∧
      dupNameBuilder.FixupInOutBlobNames demoExt = none) :=
  ⟨by decide, by decide,
   (C19_name_assigned_at_most_once demoExt dupNameBuilder (by decide) (by decide)).1
    [0] 1 [] "x/y" (by decide) ⟨0, by decide, by decide⟩ (by decide)⟩

/-! ## Output ports are consecutive ordinals -/

/-- First-occurrence de-duplication commutes with a map that is injective on
the list. -/
theorem dedupFirst_map_inj (h : String → String) (l : List String)
    (hinj : ∀ x ∈ l, ∀ y ∈ l, h x = h y → x = y) :
    dedupFirst (l.map h) = (dedupFirst l).map h := by
  induction l with
  | nil => rfl
  | cons a rest ih =>
    have hrest : ∀ x ∈ rest, ∀ y ∈ rest, h x = h y → x = y :=
      fun x hx y hy => hinj x (List.mem_cons_of_mem _ hx) y (List.mem_cons_of_mem _ hy)
    simp only [List.map_cons, dedupFirst, ih hrest, List.filter_map]
    congr 2
    apply List.filter_congr
    intro x hx
    have hxr : x ∈ rest := (dedupFirst_mem rest x).1 hx
    simp only [Function.comp, decide_eq_decide, ne_eq, not_iff_not]
    constructor
    · intro e
      exact hinj x (List.mem_cons_of_mem _ hxr) a (List.mem_cons_self _ _) e
    · intro e
      rw [e]

theorem port_name_inj (j1 j2 : Nat) (h : "out_" ++ decimal j1 = "out_" ++ decimal j2) :
    j1 = j2 := by
  apply decimal_inj
  have hd := congrArg String.data h
  simp only [String.data_append] at hd
  exact String.ext (List.append_cancel_left hd)

/-- Data argument names of out-edges of launch nodes after the name fix-up:
each old name is replaced by the table's name for it. -/
theorem dataArgNames_fixup_eq (table : List (String × String)) (allOut : List Nat)
    (g g2 : XrtGraph)
    (hedges : ∀ i, g2.edges[i]? = (g.edges[i]?).map (fixupEdgeAt table allOut i))
    (es : List Nat) (hes : ∀ e ∈ es, e ∈ allOut) :
    dataArgNames g2 es = (dataArgNames g es).map fun a => (MapFind table a).getD "" := by
  unfold dataArgNames
  rw [List.map_filterMap]
  apply List.filterMap_congr
  intro e he
  rw [hedges e]
  cases hg : g.edges[e]? with
  | none => rfl
  | some edge =>
    simp only [Option.map_some']
    unfold fixupEdgeAt
    cases hc : edge.is_control_edge with
    | true => simp [hc]
    | false => simp [hc, hes e he, renameEdge]

/-- The table entry of the `j`-th distinct output name of a launch node. -/
theorem table_entry_at (g : XrtGraph) (ls : List Nat)
    (hnd : ((expectedTable g ls).map Prod.fst).Nodup) (l : Nat) (hl : l ∈ ls)
    (j : Nat) (a : String) (hj : (outArgNames g l)[j]? = some a) :
    MapFind (expectedTable g ls) a = some ((g.node l).name ++ "/out_" ++ decimal j) := by
  have hlt : j < (outArgNames g l).length := by
    by_contra hge
    rw [List.getElem?_eq_none (by omega)] at hj
    exact absurd hj (by simp)
  have hsplit : outArgNames g l =
      (outArgNames g l).take j ++ a :: (outArgNames g l).drop (j + 1) := by
    have ha : (outArgNames g l)[j] = a := by
      rw [List.getElem?_eq_getElem hlt, Option.some.injEq] at hj
      exact hj
    rw [← ha]
    exact (List.take_append_drop j _).symm.trans (by rw [List.drop_eq_getElem_cons hlt])
  have hmem := mem_expectedTable g ls l hl _ _ a hsplit
  rw [List.length_take, Nat.min_eq_left (by omega)] at hmem
  exact MapFind_of_mem_nodup _ _ _ hnd hmem

/-- C20. Output ports are consecutive ordinals.  Let the constructor and
`Build` complete on a well-formed graph, and let the non-control out-edges of
the `i`-th launch node carry `k` distinct argument names.  Then the `out` list
of the fused operation inserted for the node is `out_0, …, out_(k-1)`, in
this order: in the job before the cleanup stage, which only removes operations
by name, and so in the resulting job when the node is not named like a folded
node. -/
theorem C20_out_ports_consecutive (ext : Externals) (g : XrtGraph) (job : Job)
    (b0 b' : FoldSubgraphBuilder) (hwf : g.WellFormed)
    (hnew : FoldSubgraphBuilder.new g job = some b0) (hbuild : b0.Build ext = some b')
    (i : Nat) (hi : i < (launchNodes g).length) :
    ∃ b6 op conf,
      b'.builder_ = JobBuilder.RemoveOpByName b6.builder_ (removingNames b6) ∧
      b6.builder_.op[job.op.length + i]? = some op ∧
      op.name = (g.node ((launchNodes g).getD i 0)).name ∧
      op.op_type = OpTypeCase.kXrtLaunchConf conf ∧
      conf.out =
        (List.range (dataArgNames g (g.node ((launchNodes g).getD i 0)).out_edges).dedup.length).map
          (fun j => "out_" ++ decimal j) ∧
      (op.name ∉ removingNames b6 → op ∈ b'.builder_.op) := by
  obtain ⟨b2, b3, b4, b6, h2, h3, h4, h6, h7⟩ := build_stages ext b0 b' hbuild
  obtain ⟨n1, n2, n3, _, n5, _⟩ := new_spec g job b0 hnew
  obtain ⟨f1, f2, f3, _, f5⟩ := inferIsAfterAllReduce_frame ext b0
  obtain ⟨hnd, hnodes, hls, hedges⟩ := fixupInOutBlobNames_graph ext _ b2
    (by rw [f1, n1]; exact hwf) (by rw [f3, f1, n3, n1]) (by rw [f5, n5]) h2
  simp only [f1, f3, n1, n3] at hnd hnodes hls hedges
  have hnode : ∀ i, b2.graph_.node i = g.node i := node_congr _ _ hnodes
  have hlen : b2.builder_.op.length = job.op.length := by
    have hk := (fixupInOutBlobNames_frame ext _ b2 h2).2.2.2.2.1
    have := congrArg List.length hk
    simpa [opKeys, f2, n2] using this
  obtain ⟨op, conf, gA, nameA, typeA, _, outA, splitA⟩ :=
    fused_op_lists ext b2 b3 h3 i (by rw [hls]; exact hi)
  simp only [hls, hnode, hlen] at gA nameA outA splitA
  generalize hLdef : (launchNodes g).getD i 0 = L at *
  have hLmem : L ∈ launchNodes g := hLdef ▸ getD_mem_of_lt _ _ _ hi
  have hshape : opShapes b6.builder_ = opShapes b3.builder_ := by
    have c := (fixupControlInOpNames_frame b3 b4 h4).2
    unfold opShapes at c ⊢
    rw [h6.2.2.2.2.2, c]
  obtain ⟨op6, g6, name6, type6⟩ := opShapes_getElem? _ _ hshape _ op gA
  have hjob : b'.builder_ = JobBuilder.RemoveOpByName b6.builder_ (removingNames b6) := by
    rw [h7]
    rfl
  -- the names after the fix-up
  have hnames2 : dataArgNames b2.graph_ (g.node L).out_edges =
      (dataArgNames g (g.node L).out_edges).map
        fun a => (MapFind (expectedTable g (launchNodes g)) a).getD "" :=
    dataArgNames_fixup_eq _ _ g b2.graph_ hedges _
      (fun e he => mem_launchOutEdges g _ L e hLmem he)
  have hD : outArgNames g L = dedupFirst (dataArgNames g (g.node L).out_edges) := by
    unfold outArgNames
    exact foldl_SetInsert_nil _
  -- the port of the `j`-th distinct name
  have hport : ∀ j a, (outArgNames g L)[j]? = some a →
      secondSegment ((MapFind (expectedTable g (launchNodes g)) a).getD "") =
        "out_" ++ decimal j := by
    intro j a hj
    have hentry := table_entry_at g (launchNodes g) hnd L hLmem j a hj
    have hmem : a ∈ dataArgNames g (g.node L).out_edges :=
      (mem_outArgNames g L a).1 (List.getElem?_mem hj)
    have hmem2 : (MapFind (expectedTable g (launchNodes g)) a).getD "" ∈
        dataArgNames b2.graph_ (g.node L).out_edges := by
      rw [hnames2]
      exact List.mem_map_of_mem _ hmem
    have hsp := splitA _ hmem2
    rw [hentry, Option.getD_some] at hsp ⊢
    exact boundary_name_second_segment _ j hsp
  have hinj : ∀ x ∈ dataArgNames g (g.node L).out_edges,
      ∀ y ∈ dataArgNames g (g.node L).out_edges,
      secondSegment ((MapFind (expectedTable g (launchNodes g)) x).getD "") =
        secondSegment ((MapFind (expectedTable g (launchNodes g)) y).getD "") → x = y := by
    intro x hx y hy hxy
    obtain ⟨jx, hjx⟩ := List.mem_iff_getElem?.1 ((mem_outArgNames g L x).2 hx)
    obtain ⟨jy, hjy⟩ := List.mem_iff_getElem?.1 ((mem_outArgNames g L y).2 hy)
    rw [hport jx x hjx, hport jy y hjy] at hxy
    have := port_name_inj jx jy hxy
    subst this
    rw [hjx, Option.some.injEq] at hjy
    exact hjy
  have hout : conf.out =
      (List.range (dataArgNames g (g.node L).out_edges).dedup.length).map
        (fun j => "out_" ++ decimal j) := by
    rw [outA, hnames2, List.map_map,
      dedupFirst_map_inj
        (secondSegment ∘ fun a => (MapFind (expectedTable g (launchNodes g)) a).getD "")
        _ hinj,
      ← hD, ← foldl_SetInsert_length]
    show _ = (List.range (outArgNames g L).length).map _
    apply List.ext_getElem?
    intro j
    rw [List.getElem?_map, List.getElem?_map]
    cases hj : (outArgNames g L)[j]? with
    | none =>
      rw [List.getElem?_eq_none_iff] at hj
      rw [List.getElem?_eq_none (by simpa using hj)]
      rfl
    | some a =>
      have hlt : j < (outArgNames g L).length := by
        by_contra hge
        rw [List.getElem?_eq_none (by omega)] at hj
        exact absurd hj (by simp)
      rw [List.getElem?_range hlt]
      simp only [Option.map_some', Function.comp, Option.some.injEq]
      exact hport j a hj
  refine ⟨b6, op6, conf, hjob, g6, name6.trans nameA, type6.trans typeA, hout, ?_⟩
  intro hkeep
  rw [hjob]
  unfold JobBuilder.RemoveOpByName
  simp only [List.mem_filter, decide_eq_true_eq]
  exact ⟨List.getElem?_mem g6, hkeep⟩

/-- C20 at the demonstration graph: the data out-edges of `A` carry `a1/y`,
`a2/w` and again `a1/y`, two distinct names, and the fused operation `A` has
the `out` list `out_0, out_1`. -/
theorem C20_out_ports_consecutive_witness :
    dataArgNames demoGraph (demoGraph.node 1).out_edges = ["a1/y", "a2/w", "a1/y"] ∧
    (demoBuiltAll.builder_.op.filterMap fun op =>
        op.launchConf.map fun c => (op.name, c.out)) =
      [("A", ["out_0", "out_1"]), ("B", ["out_0"])] ∧
    ∃ b6 op conf,
      demoBuiltAll.builder_ = JobBuilder.RemoveOpByName b6.builder_ (removingNames b6) ∧
      b6.builder_.op[demoJob.op.length + 0]? = some op ∧
      op.name = (demoGraph.node ((launchNodes demoGraph).getD 0 0)).name ∧
      op.op_type = OpTypeCase.kXrtLaunchConf conf ∧
      conf.out =
        (List.range
          (dataArgNames demoGraph
            (demoGraph.node ((launchNodes demoGraph).getD 0 0)).out_edges).dedup.length).map
          (fun j => "out_" ++ decimal j) ∧
      (op.name ∉ removingNames b6 → op ∈ demoBuiltAll.builder_.op) :=
  ⟨by decide, by decide,
   C20_out_ports_consecutive demoExt demoGraph demoJob demoBuilder demoBuiltAll (by decide)
    (by decide) (by decide) 0 (by decide)⟩

/-! ## A `'/'` in the name of a launch node -/

theorem splitChars_length_of_mem (d : Char) (l : List Char) (h : d ∈ l) :
    2 ≤ (splitChars d l).length := by
  induction l with
  | nil => exact absurd h (by simp)
  | cons c cs ih =>
    by_cases hc : c = d
    · have hne := splitChars_ne_nil d cs
      have hpos : 0 < (splitChars d cs).length := List.length_pos.2 hne
      simp only [splitChars, hc, if_true, List.length_cons]
      omega
    · have hmem : d ∈ cs := by
        rcases List.mem_cons.1 h with h1 | h1
        · exact absurd h1.symm hc
        · exact h1
      have := ih hmem
      simp only [splitChars, hc, if_false]
      cases hs : splitChars d cs with
      | nil => rw [hs] at this; simp at this
      | cons p ps =>
        rw [hs] at this
        simpa using this

/-- The number of pieces of a boundary name: one more than the number of pieces
of the launch name. -/
theorem boundary_name_split_length (launch : String) (k : Nat) :
    (StrSplit (launch ++ "/out_" ++ decimal k) '/').length =
      (splitChars '/' launch.data).length + 1 := by
  unfold StrSplit
  have hdata : (launch ++ "/out_" ++ decimal k).data =
      launch.data ++ '/' :: (("out_" : String) ++ decimal k).data := by
    simp [String.data_append]
  have hno : '/' ∉ (("out_" : String) ++ decimal k).data := by
    simp only [String.data_append, List.mem_append, not_or]
    exact ⟨by decide, slash_not_mem_decimal k⟩
  rw [hdata, splitChars_append, splitChars_no_delim _ _ hno]
  simp

/-- After the name fix-up every data out-edge of a launch node carries a
boundary name of that node. -/
theorem fixed_out_names (g g2 : XrtGraph) (ls : List Nat)
    (hnd : ((expectedTable g ls).map Prod.fst).Nodup)
    (hedges : ∀ i, g2.edges[i]? =
      (g.edges[i]?).map (fixupEdgeAt (expectedTable g ls) (launchOutEdges g ls) i))
    (l : Nat) (hl : l ∈ ls) (name : String)
    (hname : name ∈ dataArgNames g2 (g.node l).out_edges) :
    ∃ j, name = (g.node l).name ++ "/out_" ++ decimal j := by
  obtain ⟨e, he, edge, hedge, hc, hcase⟩ := mem_dataArgNames_fixup _ _ g g2 hedges _ name hname
  rcases hcase with ⟨_, hval⟩ | ⟨hno, _⟩
  · obtain ⟨j, _, hfind⟩ := launch_out_name_entry g ls hnd l hl edge.argument.name
      (mem_dataArgNames g _ e edge he hedge hc)
    rw [hfind, Option.getD_some] at hval
    exact ⟨j, hval⟩
  · exact absurd (mem_launchOutEdges g ls l e hl he) hno

theorem opConf_none_of_names (ext : Externals) (b : FoldSubgraphBuilder) (i : Nat)
    (h : AddInOutBlobNames b.graph_ (b.graph_.node (b.launch_nodes_.getD i 0)) default = none) :
    BuildXrtLaunchOps.opConf ext b i = none := by
  unfold BuildXrtLaunchOps.opConf
  generalize b.launch_nodes_.getD i 0 = nid at h ⊢
  simp only
  cases hsub : (b.graph_.node nid).sub_graph with
  | none => rfl
  | some sub_graph =>
    simp only [h, Option.none_bind]

/-- C21. A `'/'` in the name of a launch node is fatal.  Let the constructor
complete on a well-formed graph and take the `i`-th launch node.  If its name
contains `'/'` and it has a non-control out-edge, then `Build` aborts; when the
name fix-up stage completes, a rewritten name on an out-edge of the node splits
on `'/'` into more than two pieces, `AddInOutBlobNames` aborts on the node, and
so `BuildXrtLaunchOps` aborts.  Conversely, if the name contains no `'/'`, then
after the name fix-up every name on a non-control out-edge of the node splits
into exactly two pieces and `AddInOutBlobNames` returns on the node. -/
theorem C21_slash_in_launch_name_fatal (ext : Externals) (g : XrtGraph) (job : Job)
    (b0 : FoldSubgraphBuilder) (hwf : g.WellFormed)
    (hnew : FoldSubgraphBuilder.new g job = some b0)
    (i : Nat) (hi : i < (launchNodes g).length) :
    ('/' ∈ (g.node ((launchNodes g).getD i 0)).name.data →
      (∃ e ∈ (g.node ((launchNodes g).getD i 0)).out_edges, ∃ edge,
        g.edges[e]? = some edge ∧ edge.is_control_edge = false) →
      b0.Build ext = none ∧
      ∀ b2, (b0.InferIsAfterAllReduce ext).FixupInOutBlobNames ext = some b2 →
        (∃ name ∈ dataArgNames b2.graph_ (b2.graph_.node ((launchNodes g).getD i 0)).out_edges,
          2 < (StrSplit name '/').length) ∧
        AddInOutBlobNames b2.graph_ (b2.graph_.node ((launchNodes g).getD i 0)) default = none ∧
        b2.BuildXrtLaunchOps ext = none) ∧
    ('/' ∉ (g.node ((launchNodes g).getD i 0)).name.data →
      ∀ b2, (b0.InferIsAfterAllReduce ext).FixupInOutBlobNames ext = some b2 →
        (∀ name ∈ dataArgNames b2.graph_ (b2.graph_.node ((launchNodes g).getD i 0)).out_edges,
          (StrSplit name '/').length = 2) ∧
        ∃ conf,
          AddInOutBlobNames b2.graph_ (b2.graph_.node ((launchNodes g).getD i 0)) default =
            some conf) := by
  obtain ⟨n1, _, n3, _, n5, _⟩ := new_spec g job b0 hnew
  obtain ⟨f1, _, f3, _, f5⟩ := inferIsAfterAllReduce_frame ext b0
  generalize hLdef : (launchNodes g).getD i 0 = L
  have hLmem : L ∈ launchNodes g := hLdef ▸ getD_mem_of_lt _ _ _ hi
  -- the graph after the name fix-up
  have hfix : ∀ b2, (b0.InferIsAfterAllReduce ext).FixupInOutBlobNames ext = some b2 →
      ((expectedTable g (launchNodes g)).map Prod.fst).Nodup ∧
      b2.launch_nodes_ = launchNodes g ∧ (∀ j, b2.graph_.node j = g.node j) ∧
      ∀ j, b2.graph_.edges[j]? =
        (g.edges[j]?).map
          (fixupEdgeAt (expectedTable g (launchNodes g))
            (launchOutEdges g (launchNodes g)) j) := by
    intro b2 h2
    obtain ⟨hnd, hnodes, hls, hedges⟩ := fixupInOutBlobNames_graph ext _ b2
      (by rw [f1, n1]; exact hwf) (by rw [f3, f1, n3, n1]) (by rw [f5, n5]) h2
    simp only [f1, f3, n1, n3] at hnd hnodes hls hedges
    exact ⟨hnd, hls, node_congr _ _ hnodes, hedges⟩
  constructor
  · intro hslash hedge_ex
    obtain ⟨e, he, edge, hedge, hdata⟩ := hedge_ex
    have hstage : ∀ b2, (b0.InferIsAfterAllReduce ext).FixupInOutBlobNames ext = some b2 →
        (∃ name ∈ dataArgNames b2.graph_ (b2.graph_.node L).out_edges,
          2 < (StrSplit name '/').length) ∧
        AddInOutBlobNames b2.graph_ (b2.graph_.node L) default = none ∧
        b2.BuildXrtLaunchOps ext = none := by
      intro b2 h2
      obtain ⟨hnd, hls, hnode, hedges⟩ := hfix b2 h2
      rw [hnode]
      have hmem := dataArgNames_fixup_mem _ _ g b2.graph_ hedges (g.node L).out_edges e he
        (mem_launchOutEdges g _ L e hLmem he) edge hedge hdata
      obtain ⟨j, hj⟩ := fixed_out_names g b2.graph_ (launchNodes g) hnd hedges L hLmem _ hmem
      have hlong : 2 < (StrSplit
          ((MapFind (expectedTable g (launchNodes g)) edge.argument.name).getD "") '/').length := by
        rw [hj, boundary_name_split_length]
        have := splitChars_length_of_mem '/' _ hslash
        omega
      have hnone : AddInOutBlobNames b2.graph_ (g.node L) default = none := by
        cases hrun : AddInOutBlobNames b2.graph_ (g.node L) default with
        | none => rfl
        | some conf =>
          have := (addInOutBlobNames_spec _ _ conf hrun).2.2 _ hmem
          omega
      refine ⟨⟨_, hmem, hlong⟩, hnone, ?_⟩
      cases hrun : b2.BuildXrtLaunchOps ext with
      | none => rfl
      | some b3 =>
        obtain ⟨op, _, hop⟩ := buildXrtLaunchOps_get ext b2 b3 hrun i (by rw [hls]; exact hi)
        rw [opConf_none_of_names ext b2 i (by rw [hls, hLdef, hnode]; exact hnone)] at hop
        exact absurd hop (by simp)
    refine ⟨?_, hstage⟩
    cases hbuild : b0.Build ext with
    | none => rfl
    | some b' =>
      obtain ⟨b2, b3, _, _, h2, h3, _⟩ := build_stages ext b0 b' hbuild
      rw [(hstage b2 h2).2.2] at h3
      exact absurd h3 (by simp)
  · intro hno b2 h2
    obtain ⟨hnd, hls, hnode, hedges⟩ := hfix b2 h2
    rw [hnode]
    have hsplit : ∀ name ∈ dataArgNames b2.graph_ (g.node L).out_edges,
        (StrSplit name '/').length = 2 := by
      intro name hname
      obtain ⟨j, hj⟩ := fixed_out_names g b2.graph_ (launchNodes g) hnd hedges L hLmem _ hname
      rw [hj, boundary_name_split_length, splitChars_no_delim _ _ hno]
      rfl
    refine ⟨hsplit, ?_⟩
    obtain ⟨conf, hconf⟩ := outLoop_total b2.graph_ (g.node L).out_edges hsplit
      ((g.node L).in_edges.foldl (AddInOutBlobNames.inStep b2.graph_) default)
    exact ⟨conf, hconf⟩

/-- C21 at `slashGraph`, whose launch node is named `A/1`: the name fix-up
completes and renames `a1/y` to `A/1/out_0`, which has three pieces, and
`Build` aborts; and at the demonstration graph, whose launch node `A` has no
`'/'` in its name: the rewritten names have two pieces and `AddInOutBlobNames`
returns. -/
theorem C21_slash_in_launch_name_fatal_witness :
    ((slashBuilder.InferIsAfterAllReduce demoExt).FixupInOutBlobNames demoExt).isSome = true ∧
    dataArgNames slashFixed.graph_ (slashFixed.graph_.node 0).out_edges = ["A/1/out_0"] ∧
    StrSplit "A/1/out_0" '/' = ["A", "1", "out_0"] ∧
    slashFixed.BuildXrtLaunchOps demoExt = none ∧
    slashBuilder.Build demoExt = none ∧
    ((∀ name ∈ dataArgNames demoFixed.graph_
          (demoFixed.graph_.node ((launchNodes demoGraph).getD 0 0)).out_edges,
        (StrSplit name '/').length = 2) ∧
      ∃ conf,
        AddInOutBlobNames demoFixed.graph_
            (demoFixed.graph_.node ((launchNodes demoGraph).getD 0 0)) default =
          some conf) :=
  ⟨by decide, by decide, by decide, by decide,
   ((C21_slash_in_launch_name_fatal demoExt slashGraph slashJob slashBuilder (by decide)
      (by decide) 0 (by decide)).1 (by decide)
      ⟨0, by decide, demoEdge 0 1 "a1/y" "out" "in", by decide, by decide⟩).1,
   (C21_slash_in_launch_name_fatal demoExt demoGraph demoJob demoBuilder (by decide)
      (by decide) 0 (by decide)).2 (by decide) demoFixed (by decide)⟩

/-- C12.  Fused-operation name lists.  `AddInOutBlobNames` is called for a
launch node of the builder that `FixupInOutBlobNames` returns.  There, when it
returns a configuration from the empty one, the `in` list is the
first-occurrence de-duplication of the argument names on the node's non-control
in-edges, and the `out` list holds, for each distinct argument name on the
node's non-control out-edges in first-occurrence order, the second
`'/'`-separated piece of that name: one entry per distinct name, none twice.
Control edges contribute nothing.  It does return when the name of the launch
node holds no `'/'`. -/
theorem C12_fused_operation_name_lists (ext : Externals) (b b2 : FoldSubgraphBuilder)
    (hwf : b.graph_.WellFormed) (hlaunch : b.launch_nodes_ = launchNodes b.graph_)
    (hempty : b.fixedup_names_ = [])
    (h2 : b.FixupInOutBlobNames ext = some b2)
    (l : Nat) (hl : l ∈ b2.launch_nodes_) :
    (∀ conf, AddInOutBlobNames b2.graph_ (b2.graph_.node l) default = some conf →
      conf.in_ = dedupFirst (dataArgNames b2.graph_ (b2.graph_.node l).in_edges) ∧
      conf.out =
        (dedupFirst (dataArgNames b2.graph_ (b2.graph_.node l).out_edges)).map secondSegment ∧
      conf.in_.Nodup ∧ conf.out.Nodup ∧
      conf.out.length =
        (dedupFirst (dataArgNames b2.graph_ (b2.graph_.node l).out_edges)).length) ∧
    ('/' ∉ (b2.graph_.node l).name.data →
      ∃ conf, AddInOutBlobNames b2.graph_ (b2.graph_.node l) default = some conf) := by
  obtain ⟨hnd, hnodes, hls, hedges⟩ := fixupInOutBlobNames_graph ext b b2 hwf hlaunch hempty h2
  have hnode : b2.graph_.node l = b.graph_.node l := node_congr _ _ hnodes l
  rw [hls] at hl
  rw [hnode]
  have hshape : ∀ name ∈ dataArgNames b2.graph_ (b.graph_.node l).out_edges,
      ∃ j, name = (b.graph_.node l).name ++ "/out_" ++ decimal j :=
    fun name hname =>
      fixed_out_names b.graph_ b2.graph_ b.launch_nodes_ hnd hedges l hl name hname
  constructor
  · intro conf hrun
    obtain ⟨k1, k2, k3⟩ := addInOutBlobNames_spec _ _ conf hrun
    have hinj : ∀ x ∈ dataArgNames b2.graph_ (b.graph_.node l).out_edges,
        ∀ y ∈ dataArgNames b2.graph_ (b.graph_.node l).out_edges,
        secondSegment x = secondSegment y → x = y := by
      intro x hx y hy hxy
      have sx := k3 x hx
      have sy := k3 y hy
      obtain ⟨jx, ex⟩ := hshape x hx
      obtain ⟨jy, ey⟩ := hshape y hy
      subst ex
      subst ey
      unfold secondSegment at hxy
      rw [boundary_name_second_segment _ jx sx, boundary_name_second_segment _ jy sy] at hxy
      rw [port_name_inj jx jy hxy]
    have hout : conf.out =
        (dedupFirst (dataArgNames b2.graph_ (b.graph_.node l).out_edges)).map secondSegment := by
      rw [k2, dedupFirst_map_inj secondSegment _ hinj]
    refine ⟨k1, hout, ?_, ?_, ?_⟩
    · rw [k1]
      exact dedupFirst_nodup _
    · rw [k2]
      exact dedupFirst_nodup _
    · rw [hout, List.length_map]
  · intro hslash
    have hsplit : ∀ name ∈ dataArgNames b2.graph_ (b.graph_.node l).out_edges,
        (StrSplit name '/').length = 2 := by
      intro name hname
      obtain ⟨j, ej⟩ := hshape name hname
      subst ej
      rw [boundary_name_split_length, splitChars_no_delim _ _ hslash]
      rfl
    obtain ⟨conf, hconf⟩ := outLoop_total b2.graph_ (b.graph_.node l).out_edges hsplit
      ((b.graph_.node l).in_edges.foldl (AddInOutBlobNames.inStep b2.graph_) default)
    exact ⟨conf, hconf⟩

/-- C12 at the demonstration graph after the name fix-up: the data out-edges of
the launch node `A` carry `A/out_0`, `A/out_1` and again `A/out_0`; its `in`
list is `src/x` and its `out` list is `out_0, out_1`; its control out-edge
contributes nothing. -/
theorem C12_fused_operation_name_lists_witness :
    dataArgNames demoFixed.graph_ (demoFixed.graph_.node 1).out_edges =
      ["A/out_0", "A/out_1", "A/out_0"] ∧
    (AddInOutBlobNames demoFixed.graph_ (demoFixed.graph_.node 1) default).map
      (fun c => (c.in_, c.out)) = some (["src/x"], ["out_0", "out_1"]) ∧
    ((∀ conf, AddInOutBlobNames demoFixed.graph_ (demoFixed.graph_.node 1) default = some conf →
      conf.in_ = dedupFirst (dataArgNames demoFixed.graph_ (demoFixed.graph_.node 1).in_edges) ∧
      conf.out =
        (dedupFirst
          (dataArgNames demoFixed.graph_ (demoFixed.graph_.node 1).out_edges)).map
          secondSegment ∧
      conf.in_.Nodup ∧ conf.out.Nodup ∧
      conf.out.length =
        (dedupFirst
          (dataArgNames demoFixed.graph_ (demoFixed.graph_.node 1).out_edges)).length) ∧
    ('/' ∉ (demoFixed.graph_.node 1).name.data →
      ∃ conf, AddInOutBlobNames demoFixed.graph_ (demoFixed.graph_.node 1) default =
        some conf)) :=
  ⟨by decide, by decide,
   C12_fused_operation_name_lists demoExt demoBuilder demoFixed (by decide) (by decide)
    (by decide) (by decide) 1 (by decide)⟩

/-- When `FixupControlInOpNames` returns, the job it started from holds an
operation under the name of every node of the graph. -/
theorem fixupControl_lookup_some (b b' : FoldSubgraphBuilder)
    (hrun : b.FixupControlInOpNames = some b')
    (pre post : List XrtNode) (L : XrtNode)
    (hnodes : b.graph_.nodes = pre ++ L :: post)
    (huniq : ∀ x ∈ pre ++ post, x.name ≠ L.name) :
    ∃ c0, JobBuilder.OpConf4OpName b.builder_ L.name = some c0 := by
  unfold FoldSubgraphBuilder.FixupControlInOpNames at hrun
  split at hrun
  · rw [hnodes, List.foldlM_append] at hrun
    simp only [Option.bind_eq_bind] at hrun
    cases h1 : pre.foldlM (FixupControlInOpNames.step (foldedOpNames b)) b with
    | none => simp [h1] at hrun
    | some b1 =>
      simp only [h1, Option.some_bind, List.foldlM_cons, Option.bind_eq_bind] at hrun
      cases h2 : FixupControlInOpNames.step (foldedOpNames b) b1 L with
      | none => simp [h2] at hrun
      | some b2 =>
        have l1 := fixupControlLoop_lookup_other _ pre L.name b b1 h1
          (fun x hx => huniq x (List.mem_append_left _ hx))
        obtain ⟨_, _, _, c, c', s4, _⟩ := fixupControlStep_spec _ b1 b2 L h2
        rw [l1] at s4
        exact ⟨c, s4⟩
  · exact absurd hrun (by simp)

/-- C8.  Control predecessors of a fused operation.  Let `BuildXrtLaunchOps`
and then `FixupControlInOpNames` return, and let `L` be a node of the graph
that owns a sub-graph, in a graph and a job that respect the data model: no
other node of the graph has the name of `L`, no node of the graph has the name
of a folded node of `L`, and the name of `L` is a new operation name (the job
held no operation under it before the fused operations were added).  Then the
fused operation found under the name of `L` starts without control
predecessors, and after `FixupControlInOpNames` its control-predecessor list
is the first-occurrence de-duplication of the names declared by the operations
of the folded nodes of `L`, in sub-graph order, each rewritten (a folded name
to the name of its launch node, any other name to itself), without the entries
equal to the name of `L`; it has no duplicates and does not contain the name
of `L`. -/
theorem C8_fused_operation_control_predecessors (ext : Externals)
    (b2 b3 b4 : FoldSubgraphBuilder)
    (h3 : b2.BuildXrtLaunchOps ext = some b3) (h4 : b3.FixupControlInOpNames = some b4)
    (pre post : List XrtNode) (L : XrtNode) (sg : XrtSubGraph)
    (hnodes : b3.graph_.nodes = pre ++ L :: post) (hsg : L.sub_graph = some sg)
    (huniq : ∀ x ∈ pre ++ post, x.name ≠ L.name)
    (hfold : ∀ sub ∈ foldedNodesOf sg, ∀ x ∈ b3.graph_.nodes, x.name ≠ sub.name)
    (hnone : JobBuilder.OpConf4OpName b2.builder_ L.name = none) :
    ∃ (c0 : OperatorConf) (declared : List (List String)),
      JobBuilder.OpConf4OpName b3.builder_ L.name = some c0 ∧
      c0.ctrl_in_op_name = [] ∧
      List.Forall₂
        (fun sub d => (JobBuilder.OpConf4OpName b3.builder_ sub.name).map
          OperatorConf.ctrl_in_op_name = some d)
        (foldedNodesOf sg) declared ∧
      JobBuilder.OpConf4OpName b4.builder_ L.name =
        some { c0 with
          ctrl_in_op_name :=
            (dedupFirst
              (declared.flatten.map (rewrittenName b3.graph_ (foldedOpNames b3)))).filter
              fun x => decide (x ≠ L.name) } ∧
      ((dedupFirst (declared.flatten.map (rewrittenName b3.graph_ (foldedOpNames b3)))).filter
        fun x => decide (x ≠ L.name)).Nodup ∧
      L.name ∉
        (dedupFirst (declared.flatten.map (rewrittenName b3.graph_ (foldedOpNames b3)))).filter
          fun x => decide (x ≠ L.name) := by
  obtain ⟨c0, hc0⟩ := fixupControl_lookup_some b3 b4 h4 pre post L hnodes huniq
  have hempty := fused_lookup_ctrl_nil ext b2 b3 h3 L.name hnone c0 hc0
  obtain ⟨declared, d1, d2, d3, d4⟩ :=
    fusedControl_spec b3 b4 h4 pre post L sg hnodes hsg huniq hfold c0 hc0 hempty
  exact ⟨c0, declared, hc0, hempty, d1, d2, d3, d4⟩

/-- C8 at the demonstration graph, for the cluster `B`: its folded operation
`b1` declared the control predecessors `a2` and `src`; the fused operation
gets `A` and `src`. -/
theorem C8_fused_operation_control_predecessors_witness :
    (JobBuilder.OpConf4OpName demoBuilt.builder_ "b1").map OperatorConf.ctrl_in_op_name =
        some ["a2", "src"] ∧
    (JobBuilder.OpConf4OpName demoControlled.builder_ "B").map OperatorConf.ctrl_in_op_name =
        some ["A", "src"] ∧
    ∃ (c0 : OperatorConf) (declared : List (List String)),
      JobBuilder.OpConf4OpName demoBuilt.builder_ (demoGraph.node 2).name = some c0 ∧
      c0.ctrl_in_op_name = [] ∧
      List.Forall₂
        (fun sub d => (JobBuilder.OpConf4OpName demoBuilt.builder_ sub.name).map
          OperatorConf.ctrl_in_op_name = some d)
        (foldedNodesOf (((demoGraph.node 2).sub_graph).getD default)) declared ∧
      JobBuilder.OpConf4OpName demoControlled.builder_ (demoGraph.node 2).name =
        some { c0 with
          ctrl_in_op_name :=
            (dedupFirst (declared.flatten.map
              (rewrittenName demoBuilt.graph_ (foldedOpNames demoBuilt)))).filter
              fun x => decide (x ≠ (demoGraph.node 2).name) } ∧
      ((dedupFirst (declared.flatten.map
        (rewrittenName demoBuilt.graph_ (foldedOpNames demoBuilt)))).filter
        fun x => decide (x ≠ (demoGraph.node 2).name)).Nodup ∧
      (demoGraph.node 2).name ∉ (dedupFirst (declared.flatten.map
        (rewrittenName demoBuilt.graph_ (foldedOpNames demoBuilt)))).filter
        fun x => decide (x ≠ (demoGraph.node 2).name) :=
  ⟨by decide, by decide,
   C8_fused_operation_control_predecessors demoExt demoFixed demoBuilt demoControlled
    (by decide) (by decide)
    (demoGraph.nodes.take 2) (demoGraph.nodes.drop 3) (demoGraph.node 2)
    (((demoGraph.node 2).sub_graph).getD default) (by decide) (by decide) (by decide)
    (by decide) (by decide)⟩

theorem replaceStrVal_cons (k v : String) (rest : List (String × String))
    (fd_name old_val new_val : String) :
    replaceStrVal ((k, v) :: rest) fd_name old_val new_val =
      (k, if k = fd_name ∧ v = old_val then new_val else v) ::
        replaceStrVal rest fd_name old_val new_val := by
  unfold replaceStrVal
  simp only [List.map_cons]
  split <;> rfl

theorem MapFind_replaceStrVal (fields : List (String × String))
    (fd_name old_val new_val key : String) :
    MapFind (replaceStrVal fields fd_name old_val new_val) key =
      if key = fd_name ∧ MapFind fields key = some old_val then some new_val
      else MapFind fields key := by
  induction fields with
  | nil => simp [replaceStrVal, MapFind]
  | cons kv rest ih =>
    obtain ⟨k, v⟩ := kv
    rw [replaceStrVal_cons]
    simp only [MapFind]
    by_cases hk : k = key
    · subst hk
      simp only [if_true, Option.some.injEq]
      by_cases hc : k = fd_name ∧ v = old_val
      · rw [if_pos hc, if_pos hc]
      · rw [if_neg hc, if_neg hc]
    · rw [if_neg hk, if_neg hk]
      exact ih

/-- What one call of `SetOpInputBlobName` does to the blob name an input of the
operation refers to. -/
theorem SetOpInputBlobName_ref (ext : Externals) (hlaw : ext.ReplacesStrVal)
    (op op' : OperatorConf) (k2 a2 r2 : String)
    (h : SetOpInputBlobName ext op k2 a2 r2 = some op')
    (key v : String) (hv : inputRef op key = some v) :
    op'.name = op.name ∧
    (∀ k1 k3, sameInput op' k1 k3 = sameInput op k1 k3) ∧
    (inputRef op' key = some v ∨ inputRef op' key = some r2) ∧
    (sameInput op k2 key = false → inputRef op' key = some v) ∧
    (k2 = key → (v = a2 ∨ v = r2) → inputRef op' key = some r2) := by
  have hname := (SetOpInputBlobName_keys ext op op' k2 a2 r2 h).1
  refine ⟨hname, ?_⟩
  unfold SetOpInputBlobName at h
  cases htype : op.op_type with
  | kPrintConf in_lbn =>
    rw [htype] at h
    simp only at h
    split at h
    · rename_i hidx
      simp only [Option.some.injEq] at h
      subst h
      unfold inputRef sameInput at *
      simp only [htype] at hv ⊢
      split at hv
      · rename_i hkey
        simp only [hkey, if_true]
        by_cases hsame : (GetRepeatedIndex k2).toNat = (GetRepeatedIndex key).toNat
        · have hset : (in_lbn.set (GetRepeatedIndex k2).toNat r2)[(GetRepeatedIndex key).toNat]? =
              some r2 := by
            rw [← hsame, List.getElem?_set_self hidx.2]
          refine ⟨fun _ _ => trivial, Or.inr hset, ?_, fun _ _ => hset⟩
          intro hne
          simp only [decide_eq_false_iff_not] at hne
          exact absurd (by omega) hne
        · have hset : (in_lbn.set (GetRepeatedIndex k2).toNat r2)[(GetRepeatedIndex key).toNat]? =
              some v := by
            rw [List.getElem?_set_ne hsame]
            exact hv
          refine ⟨fun _ _ => trivial, Or.inl hset, fun _ => hset, ?_⟩
          intro hk
          rw [hk] at hsame
          exact absurd rfl hsame
      · exact absurd hv (by simp)
    · exact absurd h (by simp)
  | kXrtLaunchConf conf =>
    unfold inputRef at hv
    rw [htype] at hv
    exact absurd hv (by simp)
  | kOtherConf fields =>
    rw [htype] at h
    simp only [Option.map_eq_some'] at h
    obtain ⟨spec, hspec, hop⟩ := h
    have hs := hlaw fields k2 a2 r2 spec hspec
    subst hop
    subst hs
    unfold inputRef sameInput at *
    simp only [htype] at hv ⊢
    rw [MapFind_replaceStrVal, hv]
    refine ⟨fun _ _ => trivial, ?_, ?_, ?_⟩
    · split
      · exact Or.inr rfl
      · exact Or.inl rfl
    · intro hne
      simp only [decide_eq_false_iff_not] at hne
      rw [if_neg]
      intro hc
      exact hne hc.1.symm
    · intro hk hcase
      subst hk
      rcases hcase with hc | hc
      · rw [if_pos ⟨rfl, by rw [hc]⟩]
      · by_cases hva : v = a2
        · rw [if_pos ⟨rfl, by rw [hva]⟩]
        · rw [if_neg (by intro hx; exact hva (Option.some.inj hx.2)), hc]

theorem updateOp_lookup (op_name : String) (f : OperatorConf → Option OperatorConf)
    (ops ops' : List OperatorConf) (h : updateOp op_name f ops = some ops')
    (hf : ∀ c c', f c = some c' → c'.name = c.name) :
    (∀ nm2, nm2 ≠ op_name →
      ops'.find? (fun conf => conf.name = nm2) = ops.find? (fun conf => conf.name = nm2)) ∧
    ∃ c c', ops.find? (fun conf => conf.name = op_name) = some c ∧ f c = some c' ∧
      ops'.find? (fun conf => conf.name = op_name) = some c' := by
  obtain ⟨pre, conf, conf', post, e1, e2, e3, e4, e5⟩ := updateOp_eq_some _ _ _ _ h
  have hn := hf conf conf' e4
  subst e1 e5
  have hpre : pre.find? (fun conf => decide (conf.name = op_name)) = none := by
    rw [List.find?_eq_none]
    intro x hx
    simpa using e2 x hx
  constructor
  · intro nm2 hne
    have h1 : ¬ conf.name = nm2 := by
      rw [e3]
      exact fun h => hne h.symm
    have h2 : ¬ conf'.name = nm2 := by
      rw [hn]
      exact h1
    simp only [List.find?_append, List.find?_cons, h1, h2, decide_False]
  · refine ⟨conf, conf', ?_, e4, ?_⟩
    · rw [List.find?_append, hpre]
      simp [e3]
    · rw [List.find?_append, hpre]
      simp [hn, e3]

/-- What the rewiring of the consumer of one data out-edge does to the blob
name an input of the operation named `cname` refers to. -/
theorem rewireStep_ref (ext : Externals) (hlaw : ext.ReplacesStrVal) (g : XrtGraph)
    (j1 job' : Job) (edge2 : XrtEdge) (r2 : String)
    (h : (if (g.node edge2.end_).type ≠ _XrtLaunchOpType then
        JobBuilder.MutableOpConf4OpName j1 (g.node edge2.end_).name fun op_conf =>
          SetOpInputBlobName ext op_conf edge2.argument.meta_data.consume_key
            edge2.argument.name r2
      else some j1) = some job')
    (cname key v : String) (op : OperatorConf)
    (hop : JobBuilder.OpConf4OpName j1 cname = some op) (hv : inputRef op key = some v) :
    ∃ op', JobBuilder.OpConf4OpName job' cname = some op' ∧
      (∀ k1 k3, sameInput op' k1 k3 = sameInput op k1 k3) ∧
      (inputRef op' key = some v ∨ inputRef op' key = some r2) ∧
      (((g.node edge2.end_).type ≠ _XrtLaunchOpType → (g.node edge2.end_).name = cname →
          sameInput op edge2.argument.meta_data.consume_key key = false) →
        inputRef op' key = some v) ∧
      ((g.node edge2.end_).type ≠ _XrtLaunchOpType → (g.node edge2.end_).name = cname →
        edge2.argument.meta_data.consume_key = key →
        (v = edge2.argument.name ∨ v = r2) → inputRef op' key = some r2) := by
  unfold JobBuilder.OpConf4OpName at hop ⊢
  split at h
  · rename_i htype
    unfold JobBuilder.MutableOpConf4OpName at h
    simp only [Option.map_eq_some'] at h
    obtain ⟨ops, hup, hjob⟩ := h
    subst hjob
    simp only
    obtain ⟨l1, c, c', l2, l3, l4⟩ := updateOp_lookup _ _ _ _ hup
      (fun x x' hx => (SetOpInputBlobName_keys ext x x' _ _ _ hx).1)
    by_cases hnm : (g.node edge2.end_).name = cname
    · rw [hnm] at l2 l4
      rw [hop, Option.some.injEq] at l2
      subst l2
      obtain ⟨_, s1, s2, s3, s4⟩ := SetOpInputBlobName_ref ext hlaw op c' _ _ _ l3 key v hv
      exact ⟨c', l4, s1, s2, fun hs => s3 (hs htype hnm), fun _ _ hk hcase => s4 hk hcase⟩
    · rw [l1 cname (fun e => hnm e.symm), hop]
      exact ⟨op, rfl, fun _ _ => rfl, Or.inl hv, fun _ => hv,
        fun _ hx => absurd hx hnm⟩
  · rename_i htype
    simp only [Option.some.injEq] at h
    subst h
    rw [hop]
    exact ⟨op, rfl, fun _ _ => rfl, Or.inl hv, fun _ => hv,
      fun hx => absurd hx htype⟩

theorem rewireConsumer_ref (ext : Externals) (hlaw : ext.ReplacesStrVal) (g : XrtGraph)
    (job job' : Job) (edge2 : XrtEdge) (r2 : String)
    (h : rewireConsumer ext g job edge2 r2 = some job')
    (cname key v : String) (op : OperatorConf)
    (hop : JobBuilder.OpConf4OpName job cname = some op) (hv : inputRef op key = some v) :
    ∃ op', JobBuilder.OpConf4OpName job' cname = some op' ∧
      (∀ k1 k3, sameInput op' k1 k3 = sameInput op k1 k3) ∧
      (inputRef op' key = some v ∨ inputRef op' key = some r2) ∧
      (((g.node edge2.end_).type ≠ _XrtLaunchOpType → (g.node edge2.end_).name = cname →
          sameInput op edge2.argument.meta_data.consume_key key = false) →
        inputRef op' key = some v) ∧
      ((g.node edge2.end_).type ≠ _XrtLaunchOpType → (g.node edge2.end_).name = cname →
        edge2.argument.meta_data.consume_key = key →
        (v = edge2.argument.name ∨ v = r2) → inputRef op' key = some r2) := by
  unfold rewireConsumer at h
  cases hax : JobBuilder.BatchAxis4Lbn job edge2.argument.name with
  | none =>
    simp only [hax] at h
    exact rewireStep_ref ext hlaw g job job' edge2 r2 h cname key v op hop hv
  | some axis =>
    simp only [hax] at h
    exact rewireStep_ref ext hlaw g (JobBuilder.AddBatchAxis4Lbn job r2 axis) job' edge2 r2 h
      cname key v op hop hv

/-- The blob name an input of the operation named `cname` refers to, along the
rewiring of the consumers of the edges `es`: it stays among the old name `a`
and the table's name `r` for it, stays `r` once it is `r`, and is `r` after an
edge of `es` that carries `a` into that input was processed; the other edges
into the operation address other inputs. -/
theorem rewireAll_ref (ext : Externals) (hlaw : ext.ReplacesStrVal) (g : XrtGraph)
    (table : List (String × String)) (cname key a r : String) (op0 : OperatorConf)
    (hr : MapFind table a = some r) :
    ∀ (es : List Nat) (job job' : Job),
      rewireAll ext g table job es = some job' →
      (∀ e2 ∈ es, ∀ edge2, g.edges[e2]? = some edge2 → edge2.is_control_edge = false →
        (g.node edge2.end_).type ≠ _XrtLaunchOpType → (g.node edge2.end_).name = cname →
        edge2.argument.name ≠ a →
        sameInput op0 edge2.argument.meta_data.consume_key key = false) →
      ∀ op, JobBuilder.OpConf4OpName job cname = some op →
        (∀ k1 k3, sameInput op k1 k3 = sameInput op0 k1 k3) →
        (inputRef op key = some a ∨ inputRef op key = some r) →
        ∃ op', JobBuilder.OpConf4OpName job' cname = some op' ∧
          (∀ k1 k3, sameInput op' k1 k3 = sameInput op0 k1 k3) ∧
          (inputRef op' key = some a ∨ inputRef op' key = some r) ∧
          (inputRef op key = some r → inputRef op' key = some r) ∧
          ((∃ e ∈ es, ∃ edge, g.edges[e]? = some edge ∧ edge.is_control_edge = false ∧
              (g.node edge.end_).type ≠ _XrtLaunchOpType ∧ (g.node edge.end_).name = cname ∧
              edge.argument.name = a ∧ edge.argument.meta_data.consume_key = key) →
            inputRef op' key = some r) := by
  intro es
  induction es with
  | nil =>
    intro job job' h _ op hop hkind href
    rw [rewireAll_nil, Option.some.injEq] at h
    subst h
    refine ⟨op, hop, hkind, href, fun x => x, ?_⟩
    rintro ⟨e, he, _⟩
    exact absurd he (List.not_mem_nil _)
  | cons e rest ih =>
    intro job job' h hslot op hop hkind href
    have happ : rewireAll ext g table job (e :: rest) =
        (rewireAll ext g table job [e]).bind fun j => rewireAll ext g table j rest :=
      rewireAll_append ext g table job [e] rest
    rw [happ] at h
    cases h1 : rewireAll ext g table job [e] with
    | none => simp [h1] at h
    | some j1 =>
      rw [h1, Option.some_bind] at h
      -- the step for the edge `e`
      have hstep : ∃ op1, JobBuilder.OpConf4OpName j1 cname = some op1 ∧
          (∀ k1 k3, sameInput op1 k1 k3 = sameInput op0 k1 k3) ∧
          (inputRef op1 key = some a ∨ inputRef op1 key = some r) ∧
          (inputRef op key = some r → inputRef op1 key = some r) ∧
          ((∃ edge, g.edges[e]? = some edge ∧ edge.is_control_edge = false ∧
              (g.node edge.end_).type ≠ _XrtLaunchOpType ∧ (g.node edge.end_).name = cname ∧
              edge.argument.name = a ∧ edge.argument.meta_data.consume_key = key) →
            inputRef op1 key = some r) := by
        unfold rewireAll at h1
        simp only [List.foldlM_cons, List.foldlM_nil, bind_pure] at h1
        cases hedge : g.edges[e]? with
        | none =>
          simp only [hedge, Option.some.injEq] at h1
          subst h1
          refine ⟨op, hop, hkind, href, fun x => x, ?_⟩
          rintro ⟨edge, hx, _⟩
          exact absurd hx (by simp)
        | some edge2 =>
          simp only [hedge] at h1
          cases hctrl : edge2.is_control_edge with
          | true =>
            simp only [hctrl, if_true, Option.some.injEq] at h1
            subst h1
            refine ⟨op, hop, hkind, href, fun x => x, ?_⟩
            rintro ⟨edge, hx, hc, _⟩
            rw [Option.some.injEq] at hx
            subst hx
            rw [hctrl] at hc
            exact absurd hc (by simp)
          | false =>
            simp only [hctrl, Bool.false_eq_true, if_false] at h1
            cases hfind : MapFind table edge2.argument.name with
            | none => simp [hfind] at h1
            | some r2 =>
              simp only [hfind] at h1
              by_cases ha : edge2.argument.name = a
              · have hr2 : r2 = r := by
                  rw [ha, hr, Option.some.injEq] at hfind
                  exact hfind.symm
                subst hr2
                rcases href with hv | hv
                · obtain ⟨op1, o1, o2, o3, _, o5⟩ :=
                    rewireConsumer_ref ext hlaw g job j1 edge2 r2 h1 cname key a op hop hv
                  refine ⟨op1, o1, fun k1 k3 => (o2 k1 k3).trans (hkind k1 k3), o3, ?_, ?_⟩
                  · intro hx
                    rw [hv, Option.some.injEq] at hx
                    rcases o3 with o3 | o3
                    · rw [o3, hx]
                    · exact o3
                  · rintro ⟨edge, hx, _, t1, t2, _, t4⟩
                    rw [Option.some.injEq] at hx
                    subst hx
                    exact o5 t1 t2 t4 (Or.inl ha.symm)
                · obtain ⟨op1, o1, o2, o3, _, _⟩ :=
                    rewireConsumer_ref ext hlaw g job j1 edge2 r2 h1 cname key r2 op hop hv
                  have hres : inputRef op1 key = some r2 := by
                    rcases o3 with o3 | o3 <;> exact o3
                  exact ⟨op1, o1, fun k1 k3 => (o2 k1 k3).trans (hkind k1 k3), Or.inr hres,
                    fun _ => hres, fun _ => hres⟩
              · have hfalse : (g.node edge2.end_).type ≠ _XrtLaunchOpType →
                    (g.node edge2.end_).name = cname →
                    sameInput op edge2.argument.meta_data.consume_key key = false := by
                  intro t1 t2
                  rw [hkind]
                  exact hslot e (List.mem_cons_self _ _) edge2 hedge hctrl t1 t2 ha
                have hno : ¬ ∃ edge, some edge2 = some edge ∧ edge.is_control_edge = false ∧
                    (g.node edge.end_).type ≠ _XrtLaunchOpType ∧
                    (g.node edge.end_).name = cname ∧
                    edge.argument.name = a ∧ edge.argument.meta_data.consume_key = key := by
                  rintro ⟨edge, hx, _, _, _, t3, _⟩
                  rw [Option.some.injEq] at hx
                  subst hx
                  exact ha t3
                rcases href with hv | hv
                · obtain ⟨op1, o1, o2, _, o4, _⟩ :=
                    rewireConsumer_ref ext hlaw g job j1 edge2 r2 h1 cname key a op hop hv
                  have hres := o4 hfalse
                  refine ⟨op1, o1, fun k1 k3 => (o2 k1 k3).trans (hkind k1 k3), Or.inl hres,
                    ?_, fun hx => absurd hx hno⟩
                  intro hx
                  rw [hv, Option.some.injEq] at hx
                  rw [hres, hx]
                · obtain ⟨op1, o1, o2, _, o4, _⟩ :=
                    rewireConsumer_ref ext hlaw g job j1 edge2 r2 h1 cname key r op hop hv
                  have hres := o4 hfalse
                  exact ⟨op1, o1, fun k1 k3 => (o2 k1 k3).trans (hkind k1 k3), Or.inr hres,
                    fun _ => hres, fun _ => hres⟩
      obtain ⟨op1, p1, p2, p3, p4, p5⟩ := hstep
      obtain ⟨op', q1, q2, q3, q4, q5⟩ := ih j1 job' h
        (fun e2 he2 => hslot e2 (List.mem_cons_of_mem _ he2)) op1 p1 p2 p3
      refine ⟨op', q1, q2, q3, fun hx => q4 (p4 hx), ?_⟩
      rintro ⟨e1, he1, edge, t⟩
      rcases List.mem_cons.1 he1 with he1 | he1
      · subst he1
        exact q4 (p5 ⟨edge, t⟩)
      · exact q5 ⟨e1, he1, edge, t⟩

/-- The collaborators of the demonstration replace string values the way
`replaceStrVal` does. -/
theorem demoExt_replacesStrVal : demoExt.ReplacesStrVal := by
  intro fields fd_name old_val new_val conf h
  simp only [demoExt, Option.some.injEq] at h
  exact h.symm

/-- C2. Idempotent naming.  Let the builder have an empty name table and the
launch nodes of a well-formed graph, and let `FixupInOutBlobNames` return.
For a launch node `L` and the argument name `a` of a data out-edge of `L`
there is a name `r` such that: the table maps `a` to `r` and has exactly one
entry for `a`; every data out-edge of `L` that carried `a` carries `r`
afterwards, everything else about the edge being as before; the job is the
old job with the consumers of all data out-edges of launch nodes rewired, in
order, each with the table's name for the edge's old argument name; and every
consumer of `a` that is not a launch node refers to `r` afterwards: when
`ReplaceStrValInPbFdOrPbRpf` replaces string values as `replaceStrVal` does,
and the consumer's operation referred to `a` through the edge's consume key
while the other data out-edges of launch nodes into that operation address
other inputs of it, the operation the new job holds for the consumer refers to
`r` through that key. -/
theorem C2_idempotent_naming (ext : Externals) (b b' : FoldSubgraphBuilder)
    (hwf : b.graph_.WellFormed) (hlaunch : b.launch_nodes_ = launchNodes b.graph_)
    (hempty : b.fixedup_names_ = [])
    (hrun : b.FixupInOutBlobNames ext = some b')
    (L : Nat) (hL : L ∈ b.launch_nodes_) (e0 : Nat) (edge0 : XrtEdge)
    (he0 : e0 ∈ (b.graph_.node L).out_edges) (hedge0 : b.graph_.edges[e0]? = some edge0)
    (hdata0 : edge0.is_control_edge = false) :
    ∃ r, MapFind b'.fixedup_names_ edge0.argument.name = some r ∧
      (b'.fixedup_names_.map Prod.fst).count edge0.argument.name = 1 ∧
      (∀ e ∈ (b.graph_.node L).out_edges, ∀ edge, b.graph_.edges[e]? = some edge →
        edge.is_control_edge = false → edge.argument.name = edge0.argument.name →
        b'.graph_.edges[e]? = some (renameEdge edge r)) ∧
      rewireAll ext b.graph_ b'.fixedup_names_ b.builder_
        (launchOutEdges b.graph_ b.launch_nodes_) = some b'.builder_ ∧
      (ext.ReplacesStrVal →
        ∀ e ∈ (b.graph_.node L).out_edges, ∀ edge, b.graph_.edges[e]? = some edge →
          edge.is_control_edge = false → edge.argument.name = edge0.argument.name →
          (b.graph_.node edge.end_).type ≠ _XrtLaunchOpType →
          ∀ op, JobBuilder.OpConf4OpName b.builder_ (b.graph_.node edge.end_).name = some op →
            inputRef op edge.argument.meta_data.consume_key = some edge.argument.name →
            (∀ e2 ∈ launchOutEdges b.graph_ b.launch_nodes_, ∀ edge2,
              b.graph_.edges[e2]? = some edge2 → edge2.is_control_edge = false →
              (b.graph_.node edge2.end_).type ≠ _XrtLaunchOpType →
              (b.graph_.node edge2.end_).name = (b.graph_.node edge.end_).name →
              edge2.argument.name ≠ edge.argument.name →
              sameInput op edge2.argument.meta_data.consume_key
                edge.argument.meta_data.consume_key = false) →
            ∃ op', JobBuilder.OpConf4OpName b'.builder_ (b.graph_.node edge.end_).name =
                some op' ∧
              inputRef op' edge.argument.meta_data.consume_key = some r) := by
  unfold FoldSubgraphBuilder.FixupInOutBlobNames at hrun
  have hnd : (launchOutEdges b.graph_ b.launch_nodes_).Nodup := by
    rw [hlaunch]
    exact launchOutEdges_nodup _ hwf
  obtain ⟨h1, _, h3, _, _, _, _, _, h9⟩ := nodeLoop_spec ext b.launch_nodes_ b b' hrun hnd
  rw [hempty, List.nil_append] at h1
  have hkey : edge0.argument.name ∈ (b'.fixedup_names_.map Prod.fst) := by
    rw [h1, mem_expectedTable_keys]
    exact ⟨L, hL, (mem_outArgNames _ _ _).2 (mem_dataArgNames _ _ e0 edge0 he0 hedge0 hdata0)⟩
  have hjob := nodeLoop_job ext b.launch_nodes_ b b' b'.fixedup_names_ hrun hnd
    (fun _ _ h => h)
  cases hfind : MapFind b'.fixedup_names_ edge0.argument.name with
  | none => exact absurd hkey ((MapFind_eq_none_iff _ _).1 hfind)
  | some r =>
    refine ⟨r, rfl, ?_, ?_, hjob, ?_⟩
    · exact List.count_eq_one_of_mem (by rw [h1]; exact h3) hkey
    · intro e he edge hedge hdata hname
      rw [h9 e, hedge]
      have hmem := mem_launchOutEdges b.graph_ b.launch_nodes_ L e hL he
      simp [fixupEdgeAt, hmem, hdata, hname, hfind]
    · intro hlaw e he edge hedge hdata hname htype op hop href hslot
      rw [hname] at href hslot
      obtain ⟨op', q1, _, _, _, q5⟩ :=
        rewireAll_ref ext hlaw b.graph_ b'.fixedup_names_ (b.graph_.node edge.end_).name
          edge.argument.meta_data.consume_key edge0.argument.name r op hfind
          (launchOutEdges b.graph_ b.launch_nodes_) b.builder_ b'.builder_ hjob hslot op hop
          (fun _ _ => rfl) (Or.inl href)
      exact ⟨op', q1, q5 ⟨e, mem_launchOutEdges b.graph_ b.launch_nodes_ L e hL he, edge,
        hedge, hdata, htype, rfl, hname, rfl⟩⟩

/-- C2 at the demonstration graph: `a1/y` leaves `A` on the edges 1 and 3; the
table maps it to `A/out_0` only, and both edges carry `A/out_0` afterwards.
The consumer of edge 3 is the operation `sink2`, not a launch operation: its
field `in` referred to `a1/y` before and refers to `A/out_0` afterwards. -/
theorem C2_idempotent_naming_witness :
    (JobBuilder.OpConf4OpName demoBuilder.builder_ "sink2").bind (fun op => inputRef op "in") =
      some "a1/y" ∧
    (JobBuilder.OpConf4OpName demoFixed.builder_ "sink2").bind (fun op => inputRef op "in") =
      some "A/out_0" ∧
    ∃ r, MapFind demoFixed.fixedup_names_ "a1/y" = some r ∧
      (demoFixed.fixedup_names_.map Prod.fst).count "a1/y" = 1 ∧
      (∀ e ∈ [1, 2, 3, 5], ∀ edge, demoBuilder.graph_.edges[e]? = some edge →
        edge.is_control_edge = false → edge.argument.name = "a1/y" →
        demoFixed.graph_.edges[e]? = some (renameEdge edge r)) ∧
      rewireAll demoExt demoBuilder.graph_ demoFixed.fixedup_names_ demoBuilder.builder_
        (launchOutEdges demoBuilder.graph_ demoBuilder.launch_nodes_) =
          some demoFixed.builder_ ∧
      (demoExt.ReplacesStrVal →
        ∀ e ∈ [1, 2, 3, 5], ∀ edge, demoBuilder.graph_.edges[e]? = some edge →
          edge.is_control_edge = false → edge.argument.name = "a1/y" →
          (demoBuilder.graph_.node edge.end_).type ≠ _XrtLaunchOpType →
          ∀ op, JobBuilder.OpConf4OpName demoBuilder.builder_
              (demoBuilder.graph_.node edge.end_).name = some op →
            inputRef op edge.argument.meta_data.consume_key = some edge.argument.name →
            (∀ e2 ∈ launchOutEdges demoBuilder.graph_ demoBuilder.launch_nodes_, ∀ edge2,
              demoBuilder.graph_.edges[e2]? = some edge2 → edge2.is_control_edge = false →
              (demoBuilder.graph_.node edge2.end_).type ≠ _XrtLaunchOpType →
              (demoBuilder.graph_.node edge2.end_).name =
                (demoBuilder.graph_.node edge.end_).name →
              edge2.argument.name ≠ edge.argument.name →
              sameInput op edge2.argument.meta_data.consume_key
                edge.argument.meta_data.consume_key = false) →
            ∃ op', JobBuilder.OpConf4OpName demoFixed.builder_
                (demoBuilder.graph_.node edge.end_).name = some op' ∧
              inputRef op' edge.argument.meta_data.consume_key = some r) :=
  ⟨by decide, by decide,
   C2_idempotent_naming demoExt demoBuilder demoFixed (by decide) (by decide) (by decide)
    (by decide) 1 (by decide) 1 (demoEdge 1 2 "a1/y" "out" "in") (by decide) (by decide)
    (by decide)⟩

end xrt
end oneflow
